import Mathlib

/-!
Shallow embedding of the DNS record reconciliation engine of the `cub`
repository (src/dns/cloud_dns.rs, src/dns/aws.rs, src/dns/linode.rs,
src/datacenter/cloud_datacenter.rs, src/common/error.rs).

Modelling conventions:
* Rust `HashMap`/`HashSet` become association lists / lists together with
  the insertion discipline of the source (`HashMap::insert` overwrites,
  `HashSet::insert` keeps the old element when an equal one is present).
* Asynchronous provider calls become pure state transformations: the
  provider's live record list is the state, `list_*_records` reads it and
  create/delete operations are collected in an operation list which is
  applied to the state.  "No external change between calls" is therefore
  built into the state-threading model.
* Machine integers (TTLs, ids, HTTP status codes) are `Nat`.
* `IpAddr::from_str` / `IpAddr::to_string` of the Rust standard library are
  modelled by a dotted-quad IPv4 parser / printer (four decimal octets
  0..255, no leading zeros), which is the std behaviour on IPv4 literals.
-/

set_option linter.unusedVariables false

namespace Cub

/-! ### Error model (src/common/error.rs)

`Error` has variants `Anyhow(_, String)`, `Http(StatusCode, String)`,
`Serde(SerdeError)`, `String(String)`.  Status codes are numeric:
`FAILED_DEPENDENCY = 424`, `NOT_FOUND = 404`. -/

inductive Error where
  | anyhow (msg : String)
  | http (status : Nat) (msg : String)
  | serde (msg : String)
  | strE (msg : String)
deriving DecidableEq

/-- `StatusCode::FAILED_DEPENDENCY`. -/
def FAILED_DEPENDENCY : Nat := 424

/-- `StatusCode::NOT_FOUND`. -/
def NOT_FOUND : Nat := 404

/-! ### List-of-characters string utilities.

The Rust code uses `str::split`, `str::split_once`, `ends_with` and byte
slicing; hostnames and IP literals are ASCII, so we model strings through
their character lists. -/

/-- Model of Rust `str::split(c)`: split a character list at every
occurrence of `c` (`"a.b".split('.') = ["a", "b"]`, `"".split('.') = [""]`). -/
def splitCh (c : Char) : List Char → List (List Char)
  | [] => [[]]
  | x :: xs =>
    if x = c then [] :: splitCh c xs
    else
      match splitCh c xs with
      | [] => [[x]]
      | g :: gs => (x :: g) :: gs

/-- Model of Rust `str::split_once(c)`: split at the first occurrence of
`c`, returning the parts before and after it, or `none` if absent. -/
def splitOnceCh (c : Char) : List Char → Option (List Char × List Char)
  | [] => none
  | x :: xs =>
    if x = c then some ([], xs)
    else (splitOnceCh c xs).map (fun p => (x :: p.1, p.2))

/-! ### IPv4 literals (model of `std::net::IpAddr` parsing/printing). -/

/-- An IPv4 address: four octets. -/
structure IpAddr where
  o1 : Fin 256
  o2 : Fin 256
  o3 : Fin 256
  o4 : Fin 256
deriving DecidableEq

/-- Decimal value of a digit list (assuming all characters are digits). -/
def digitsToNat (cs : List Char) : Nat :=
  cs.foldl (fun n c => n * 10 + (c.toNat - 48)) 0

/-- Parse one decimal octet: nonempty, all digits, no leading zero
(except "0" itself), value below 256. -/
def parseOctet (cs : List Char) : Option (Fin 256) :=
  if h : cs ≠ [] ∧ cs.all Char.isDigit ∧ (cs = ['0'] ∨ cs.head? ≠ some '0') ∧
      digitsToNat cs < 256 then
    some ⟨digitsToNat cs, h.2.2.2⟩
  else none

/-- Model of `IpAddr::from_str` restricted to IPv4 dotted-quad literals:
exactly four octets separated by dots. -/
def parseIp (s : String) : Option IpAddr :=
  match splitCh '.' s.data with
  | [a, b, c, d] =>
    match parseOctet a, parseOctet b, parseOctet c, parseOctet d with
    | some x1, some x2, some x3, some x4 => some ⟨x1, x2, x3, x4⟩
    | _, _, _, _ => none
  | _ => none

/-- Decimal digit characters of an octet (model of Rust integer
formatting; `Nat.toDigits 10` produces no leading zeros). -/
def octetChars (n : Fin 256) : List Char := Nat.toDigits 10 n.val

/-- Model of `IpAddr::to_string`: dotted-quad decimal. -/
def ipToString (ip : IpAddr) : String :=
  ⟨octetChars ip.o1 ++ '.' :: octetChars ip.o2 ++ '.' :: octetChars ip.o3 ++
    '.' :: octetChars ip.o4⟩

/-! ### Datacenters (src/datacenter/cloud_datacenter.rs). -/

/-- Datacenter city (enum `DcCity`). -/
inductive DcCity where
  | boardman | frankfurt | london | mumbai | newark | nuremberg | washington
  | singapore | saoPaulo | seattle | sydney | tokyo
deriving DecidableEq

/-- Datacenter provider (enum `DcProvider`). -/
inductive DcProvider where
  | aws | developer | hetzner | linode
deriving DecidableEq

/-- `DcProvider::as_str`. -/
def DcProvider.asStr : DcProvider → String
  | .aws => "aws"
  | .developer => "developer"
  | .hetzner => "hetzner"
  | .linode => "linode"

/-- ASCII lowercase of one character (model of
`str::to_ascii_lowercase`). -/
def asciiLowerChar (c : Char) : Char :=
  if 65 ≤ c.toNat ∧ c.toNat ≤ 90 then Char.ofNat (c.toNat + 32) else c

/-- ASCII lowercase of a string. -/
def toAsciiLower (s : String) : String := ⟨s.data.map asciiLowerChar⟩

/-- `DcProvider::from_str` (matches on `to_ascii_lowercase`). -/
def DcProvider.fromStr (s : String) : Option DcProvider :=
  match toAsciiLower s with
  | "aws" => some .aws
  | "developer" => some .developer
  | "hetzner" => some .hetzner
  | "linode" => some .linode
  | _ => none

/-- `DcCity::from_aws_region`. -/
def DcCity.fromAwsRegion (label : String) : Option DcCity :=
  match label with
  | "ap-northeast-1" => some .tokyo
  | "ap-south-1" => some .mumbai
  | "ap-southeast-1" => some .singapore
  | "ap-southeast-2" => some .sydney
  | "eu-central-1" => some .frankfurt
  | "eu-west-2" => some .london
  | "sa-east-1" => some .saoPaulo
  | "us-east-1" => some .washington
  | "us-west-2" => some .boardman
  | _ => none

/-- `DcCity::from_hetzner_region`. -/
def DcCity.fromHetznerRegion (label : String) : Option DcCity :=
  match label with
  | "ash" => some .washington
  | "nbg1" => some .nuremberg
  | _ => none

/-- `DcCity::from_linode_region`. -/
def DcCity.fromLinodeRegion (label : String) : Option DcCity :=
  match label with
  | "eu-central" => some .frankfurt
  | "eu-west" => some .london
  | "ap-west" => some .mumbai
  | "us-east" => some .newark
  | "us-iad" => some .washington
  | "ap-south" => some .singapore
  | "br-gru" => some .saoPaulo
  | "us-sea" => some .seattle
  | "ap-southeast" => some .sydney
  | "ap-northeast" => some .tokyo
  | _ => none

/-- `DcCity::from_region`. -/
def DcCity.fromRegion (label : String) : DcProvider → Option DcCity
  | .aws => DcCity.fromAwsRegion label
  | .hetzner => DcCity.fromHetznerRegion label
  | .linode => DcCity.fromLinodeRegion label
  | .developer => none

/-- `DcCity::to_aws_region`. -/
def DcCity.toAwsRegion : DcCity → Option String
  | .boardman => some "us-west-2"
  | .frankfurt => some "eu-central-1"
  | .mumbai => some "ap-south-1"
  | .london => some "eu-west-2"
  | .saoPaulo => some "sa-east-1"
  | .singapore => some "ap-southeast-1"
  | .sydney => some "ap-southeast-2"
  | .tokyo => some "ap-northeast-1"
  | .washington => some "us-east-1"
  | _ => none

/-- `CloudDatacenter` wraps a string such as "linode/eu-central". -/
abbrev CloudDatacenter := String

namespace CloudDatacenter

/-- `CloudDatacenter::city`: split the wrapped string at the first `/`,
parse the provider, then look the region up with that provider. -/
def city (dc : CloudDatacenter) : Option (DcProvider × DcCity) :=
  match splitOnceCh '/' dc.data with
  | none => none
  | some (providerName, region) =>
    match DcProvider.fromStr ⟨providerName⟩ with
    | none => none
    | some p =>
      match DcCity.fromRegion ⟨region⟩ p with
      | none => none
      | some c => some (p, c)

/-- `CloudDatacenter::from_aws_region`. -/
def fromAwsRegion (region : String) : CloudDatacenter := "aws/" ++ region

/-- `CloudDatacenter::nearest_aws_region`. -/
def nearestAwsRegion (dc : CloudDatacenter) : String :=
  (match city dc with
   | some (_, c) =>
     match c with
     | .seattle => some "us-west-2"
     | .nuremberg => some "eu-central-1"
     | c => c.toAwsRegion
   | none => none).getD "us-east-1"

end CloudDatacenter

/-! ### Record model (src/dns/cloud_dns.rs). -/

/-- `DnsRecord`: the supported metadata and route record payloads.  The
`A` payload is the contents of a `HashMap<IpAddr, Option<CloudDatacenter>>`
as an association list with unique keys. -/
inductive DnsRecord where
  | a (ipgeos : List (IpAddr × Option CloudDatacenter))
  | cname (target : String)
  | txt (text : String)
  | none
deriving DecidableEq

/-- `DnsRecord::new_a`: single IP, no affinity. -/
def DnsRecord.new_a (ip : IpAddr) : DnsRecord := .a [(ip, Option.none)]

/-- `DnsRecord::new_ag`: single IP tagged with a datacenter. -/
def DnsRecord.new_ag (ip : IpAddr) (dc : CloudDatacenter) : DnsRecord :=
  .a [(ip, some dc)]

/-- `DnsRecordSet` is a `HashSet<(String, DnsRecord)>`; we model its
contents as a list of pairs in iteration order. -/
abbrev DnsRecordSet := List (String × DnsRecord)

/-- Rust `HashSet::insert`: when an equal element is already present the
set is unchanged (the old element is kept), otherwise the element is
added. -/
def hsInsert (s : DnsRecordSet) (p : String × DnsRecord) : DnsRecordSet :=
  if p ∈ s then s else s ++ [p]

/-- Rust `HashMap` collect/insert semantics on association lists: a later
insertion for the same key replaces the earlier one. -/
def mapInsert {β : Type} (m : List (String × β)) (k : String) (v : β) :
    List (String × β) :=
  m.filter (fun q => q.1 ≠ k) ++ [(k, v)]

/-- Collect a pair list into a map, later entries overwriting earlier
ones (Rust `collect::<HashMap<_, _>>()`). -/
def mapCollect {β : Type} (l : List (String × β)) : List (String × β) :=
  l.foldl (fun m q => mapInsert m q.1 q.2) []

/-- Whether a record is a metadata (TXT) record. -/
def DnsRecord.isTxt : DnsRecord → Bool
  | .txt _ => true
  | _ => false

/-- Whether a record is a route (A or CNAME) record. -/
def DnsRecord.isRoute : DnsRecord → Bool
  | .a _ => true
  | .cname _ => true
  | _ => false

/-- `DnsRecordSet::metadata`: the TXT records collected into a map keyed
by hostname. -/
def DnsRecordSet.metadata (s : DnsRecordSet) : List (String × DnsRecord) :=
  mapCollect (s.filter (fun p => p.2.isTxt))

/-- `DnsRecordSet::routes`: the A and CNAME records collected into a map
keyed by hostname. -/
def DnsRecordSet.routes (s : DnsRecordSet) : List (String × DnsRecord) :=
  mapCollect (s.filter (fun p => p.2.isRoute))

/-! `DnsRecordSetBuilder` (builder methods `a`, `ag`, `cname`, `txt`, then
`build`).  A builder call sequence is a list of `BuildOp`s; `build` drains
the accumulated `HashSet` without changing its contents. -/

/-- One `DnsRecordSetBuilder` method call. -/
inductive BuildOp where
  | a (hostname : String) (ips : List IpAddr)
  | ag (hostname : String) (ipgeos : List (IpAddr × Option CloudDatacenter))
  | cname (hostname name : String)
  | txt (hostname text : String)

/-- The `(hostname, DnsRecord)` pair a builder call inserts
(`a` maps each IP to no affinity and delegates to `ag`). -/
def BuildOp.pair : BuildOp → String × DnsRecord
  | .a h ips => (h, .a (ips.map (fun ip => (ip, Option.none))))
  | .ag h ig => (h, .a ig)
  | .cname h n => (h, .cname n)
  | .txt h t => (h, .txt t)

/-- Run a builder call sequence and `build` the resulting record set. -/
def buildRecordSet (ops : List BuildOp) : DnsRecordSet :=
  ops.foldl (fun s op => hsInsert s op.pair) []

/-! ### AWS adapter (src/dns/aws.rs).

The provider's live zone is an `AwsState`: a list of records, each with an
opaque numeric id (standing for the `ResourceRecordSet` handle wrapped by
`AwsRecordId`) and a wire `region` string that serves as both the geo
proximity location and the set identifier (the source derives both from
`datacenter.nearest_aws_region()`).  Route 53 renders names fully
qualified with a trailing root dot, which `parse_name` strips on listing;
network create/delete calls become `AwsOp`s applied to the state, a create
being a Route 53 `UPSERT` (it replaces the record set with the same
`(name, type, set identifier)` key). -/

namespace AwsDns

/-- `AwsDns::TTL_SECS`. -/
def TTL_SECS : Nat := 30

/-- `AwsDns::double_quoted` (`starts_with("\"") && ends_with("\"")` on the
one-character pattern is a first/last character test). -/
def double_quoted (text : String) : String :=
  if text.data.head? = some '"' ∧ text.data.getLast? = some '"' then text
  else "\"" ++ text ++ "\""

/-- `AwsDns::fully_qualified`. -/
def fully_qualified (hostname domain : String) : String :=
  if hostname.data.length = 0 then domain
  else if domain.data.isSuffixOf hostname.data then hostname
  else hostname ++ "." ++ domain

/-- `AwsDns::sans_trailing_dot`. -/
def sans_trailing_dot (name : String) : String :=
  if name.data.getLast? = some '.' then ⟨name.data.dropLast⟩ else name

/-- `str::replace("\\052", "*")` specialised to the wildcard escape used
by `AwsDns::parse_name`: replace every occurrence of the four characters
backslash-0-5-2 by `*`. -/
def replace052 : List Char → List Char
  | '\\' :: '0' :: '5' :: '2' :: rest => '*' :: replace052 rest
  | c :: rest => c :: replace052 rest
  | [] => []

/-- `AwsDns::parse_name`: decode the wildcard escape, then strip the
trailing root-zone dot. -/
def parse_name (target : String) : String :=
  sans_trailing_dot ⟨replace052 target.data⟩

/-- `AwsDns::sans_domain`. -/
def sans_domain (domain hostname : String) : String :=
  if domain = hostname then ""
  else if ('.' :: domain.data).isSuffixOf hostname.data then
    ⟨hostname.data.take (hostname.data.length - domain.data.length - 1)⟩
  else hostname

/-- The message of the `parse_ip` failure. -/
def parseIpMsg (target domain hostname : String) : String :=
  "Could not parse IP " ++ target ++ " of A record for hostname " ++ hostname ++
    " in domain " ++ domain

/-- `AwsDns::parse_ip`: `FAILED_DEPENDENCY` HTTP error on an unparsable
IP literal. -/
def parse_ip (target domain hostname : String) : Except Error IpAddr :=
  match parseIp target with
  | some ip => .ok ip
  | Option.none => .error (.http FAILED_DEPENDENCY (parseIpMsg target domain hostname))

/-- `aws_sdk_route53::types::RrType` (the variants the source matches). -/
inductive RrType where
  | a | cname | txt | mx | srv | other
deriving DecidableEq

/-- `ExtendedDnsRecord` (adapter-internal record as listed). -/
structure ExtendedDnsRecord where
  datacenter : Option CloudDatacenter
  name : String
  targets : List String
  ttl_sec : Nat
  record_type : RrType
deriving DecidableEq

/-- A record as stored at the provider: the created fields plus the
region (geo proximity location / set identifier) and whether the record
is an alias record (alias records are filtered out of listings). -/
structure AwsWireRecord where
  name : String
  record_type : RrType
  targets : List String
  ttl_sec : Nat
  region : Option String
  aliasTarget : Bool
deriving DecidableEq

/-- The provider's zone state: records with unique opaque ids, plus the
next fresh id. -/
structure AwsState where
  nextId : Nat
  records : List (Nat × AwsWireRecord)
deriving DecidableEq

/-- A provider operation issued by the adapter: `create_domain_record`
(an `UPSERT` change) or `delete_domain_record` (deleting one listed
record). -/
inductive AwsOp where
  | create (rec : ExtendedDnsRecord)
  | delete (id : Nat)
deriving DecidableEq

/-- Number of create operations in an operation list. -/
def countCreates (ops : List AwsOp) : Nat :=
  (ops.filter fun op => match op with | .create _ => true | .delete _ => false).length

/-- Number of delete operations in an operation list. -/
def countDeletes (ops : List AwsOp) : Nat :=
  (ops.filter fun op => match op with | .create _ => false | .delete _ => true).length

/-- How Route 53 renders a stored name in listings (fully qualified with
a trailing root dot). -/
def awsRenderName (n : String) : String := n ++ "."

/-- The `ExtendedDnsRecord` built from one listed record by
`AwsDns::list_route53_records`: name decoded by `parse_name`, datacenter
recovered from the geo region via `CloudDatacenter::from_aws_region`. -/
def wireToExtended (w : AwsWireRecord) : ExtendedDnsRecord :=
  { datacenter := w.region.map CloudDatacenter.fromAwsRegion,
    name := parse_name (awsRenderName w.name),
    targets := w.targets,
    ttl_sec := w.ttl_sec,
    record_type := w.record_type }

/-- The listing of a zone state (the successful, untruncated result of
`list_route53_records`): alias records are filtered out
(`filter(|rrs| rrs.alias_target().is_none())`). -/
def awsListing (s : AwsState) : List (Nat × ExtendedDnsRecord) :=
  (s.records.filter (fun p => !p.2.aliasTarget)).map (fun p => (p.1, wireToExtended p.2))

/-- A single `list_resource_record_sets` response: the page of records
returned and the truncation flag. -/
structure AwsListResponse where
  isTruncated : Bool
  rrsets : List (Nat × AwsWireRecord)

/-- What one provider call returns for a zone holding `zone` when a page
holds at most `pageLimit` records. -/
def awsPageResponse (zone : List (Nat × AwsWireRecord)) (pageLimit : Nat) : AwsListResponse :=
  { isTruncated := decide (pageLimit < zone.length), rrsets := zone.take pageLimit }

/-- `AwsDns::list_route53_records`: a single call; a truncated response is
a hard `FAILED_DEPENDENCY` error, there is no pagination loop. -/
def list_route53_records (domainId : String) (resp : AwsListResponse) :
    Except Error (List (Nat × ExtendedDnsRecord)) :=
  if resp.isTruncated then
    .error (.http FAILED_DEPENDENCY (domainId ++ ": DNS result truncated"))
  else
    .ok ((resp.rrsets.filter (fun p => !p.2.aliasTarget)).map (fun p => (p.1, wireToExtended p.2)))

/-- `AwsDns::get_domain_id` over the zone list `(id, name)` produced by
`list_route53_domains`: exact name match, else `FAILED_DEPENDENCY`. -/
def get_domain_id (zones : List (String × String)) (domainName : String) :
    Except Error String :=
  match zones.find? (fun z => z.2 = domainName) with
  | some z => .ok z.1
  | Option.none =>
    .error (.http FAILED_DEPENDENCY ("Could not find domain " ++ domainName))

/-- The wire record stored by `create_domain_record`: both the geo
proximity location and set identifier are `nearest_aws_region()` of the
datacenter, when present. -/
def createWire (r : ExtendedDnsRecord) : AwsWireRecord :=
  { name := r.name,
    record_type := r.record_type,
    targets := r.targets,
    ttl_sec := r.ttl_sec,
    region := r.datacenter.map CloudDatacenter.nearestAwsRegion,
    aliasTarget := false }

/-- Apply one provider operation to the zone state.  A create is a
Route 53 `UPSERT`: it replaces any record set with the same
`(name, type, set identifier)` key. -/
def awsApplyOp (s : AwsState) : AwsOp → AwsState
  | .delete id => { s with records := s.records.filter (fun p => p.1 ≠ id) }
  | .create r =>
    let w := createWire r
    { nextId := s.nextId + 1,
      records := s.records.filter (fun p =>
          ¬(p.2.name = w.name ∧ p.2.record_type = w.record_type ∧ p.2.region = w.region))
        ++ [(s.nextId, w)] }

/-- Apply an operation list in order. -/
def awsApplyOps (s : AwsState) (ops : List AwsOp) : AwsState := ops.foldl awsApplyOp s

/-- The trace line of `create_domain_record` (the source line carries the
domain id, name, record type and targets; only the name matters to any
theorem below). -/
def createLogLine (r : ExtendedDnsRecord) : String :=
  "hostname " ++ r.name ++ " create record"

/-- `targets.iter().map(parse_ip).collect::<Result<Vec<_>, _>>()`. -/
def parseTargets (targets : List String) (domain hostname : String) :
    Except Error (List IpAddr) :=
  match targets with
  | [] => .ok []
  | t :: ts =>
    match parse_ip t domain hostname with
    | .error e => .error e
    | .ok ip =>
      match parseTargets ts domain hostname with
      | .error e => .error e
      | .ok ips => .ok (ip :: ips)

/-- `ipgeos.get(ip)` on the A payload association list. -/
def lookupGeo (ipgeos : List (IpAddr × Option CloudDatacenter)) (ip : IpAddr) :
    Option (Option CloudDatacenter) :=
  (ipgeos.find? (fun q => q.1 = ip)).map (fun q => q.2)

/-- Classification state of the `upsert_a_record` loop. -/
structure UpsertAcc where
  removals : List Nat
  found : List IpAddr
deriving DecidableEq

/-- The classification loop of `AwsDns::upsert_a_record`: an existing A
record is kept only if every of its IPs is desired with exactly the
record's datacenter and not already claimed, and the record carries every
desired IP of its datacenter; otherwise (and for every CNAME) it is marked
for removal.  TXT records and the rest are ignored. -/
def upsert_loop (domain fq_hostname : String)
    (ipgeos : List (IpAddr × Option CloudDatacenter)) :
    List (Nat × ExtendedDnsRecord) → UpsertAcc → Except Error UpsertAcc
  | [], acc => .ok acc
  | (id, r) :: rest, acc =>
    match r.record_type with
    | .a =>
      match parseTargets r.targets domain fq_hostname with
      | .error e => .error e
      | .ok ips =>
        if (∀ ip ∈ ips, lookupGeo ipgeos ip = some r.datacenter ∧ ip ∉ acc.found) ∧
            (∀ q ∈ ipgeos, q.2 = r.datacenter → q.1 ∈ ips) then
          upsert_loop domain fq_hostname ipgeos rest ⟨acc.removals, acc.found ++ ips⟩
        else
          upsert_loop domain fq_hostname ipgeos rest ⟨acc.removals ++ [id], acc.found⟩
    | .cname => upsert_loop domain fq_hostname ipgeos rest ⟨acc.removals ++ [id], acc.found⟩
    | _ => upsert_loop domain fq_hostname ipgeos rest acc

/-- `adds.entry(datacenter).or_insert_with(..)` followed by
`record.targets.push(ip.to_string())`. -/
def entryPush (dc : Option CloudDatacenter) (tgt fq : String) (ttl : Nat) :
    List (Option CloudDatacenter × ExtendedDnsRecord) →
    List (Option CloudDatacenter × ExtendedDnsRecord)
  | [] => [(dc, ⟨dc, fq, [tgt], ttl, .a⟩)]
  | (k, r) :: rest =>
    if k = dc then (k, { r with targets := r.targets ++ [tgt] }) :: rest
    else (k, r) :: entryPush dc tgt fq ttl rest

/-- The accumulation loop of `AwsDns::upsert_a_record`: one new A record
per distinct datacenter, holding the desired IPs of that datacenter that
no kept record already covers. -/
def adds_loop (fq : String) (ttl : Nat) (found : List IpAddr) :
    List (IpAddr × Option CloudDatacenter) →
    List (Option CloudDatacenter × ExtendedDnsRecord) →
    List (Option CloudDatacenter × ExtendedDnsRecord)
  | [], adds => adds
  | (ip, dc) :: rest, adds =>
    if ip ∈ found then adds_loop fq ttl found rest adds
    else adds_loop fq ttl found rest (entryPush dc (ipToString ip) fq ttl adds)

/-- `AwsDns::upsert_a_record`: classify the existing records, then issue
all deletions followed by all creations. -/
def upsert_a_record (domain fq_hostname : String) (ttl_sec : Nat)
    (id_records : List (Nat × ExtendedDnsRecord))
    (ipgeos : List (IpAddr × Option CloudDatacenter)) :
    Except Error (List AwsOp × List String) :=
  match upsert_loop domain fq_hostname ipgeos id_records ⟨[], []⟩ with
  | .error e => .error e
  | .ok acc =>
    let adds := adds_loop fq_hostname ttl_sec acc.found ipgeos []
    .ok (acc.removals.map AwsOp.delete ++ adds.map (fun p => AwsOp.create p.2),
         adds.map (fun p => createLogLine p.2))

/-- The CNAME branch loop of `AwsDns::update_dns_route`: delete every A
record, keep the first CNAME whose single target matches, delete every
other CNAME. -/
def cname_loop (link : String) :
    List (Nat × ExtendedDnsRecord) → Bool → List Nat → Bool × List Nat
  | [], found, removals => (found, removals)
  | (id, r) :: rest, found, removals =>
    match r.record_type with
    | .a => cname_loop link rest found (removals ++ [id])
    | .cname =>
      if ¬found ∧ r.targets = [link] then cname_loop link rest true removals
      else cname_loop link rest found (removals ++ [id])
    | _ => cname_loop link rest found removals

/-- TTL defaulting shared by the update entry points (`0` or absent means
`TTL_SECS`). -/
def ttlOf (ttl : Option Nat) : Nat :=
  match ttl with
  | some t => if t = 0 then TTL_SECS else t
  | Option.none => TTL_SECS

/-- `AwsDns::update_dns_route` as a pure function of the listing: returns
the provider operations issued and the trace lines logged. -/
def update_dns_route (domain hostname : String) (value : DnsRecord) (ttl : Option Nat)
    (listing : List (Nat × ExtendedDnsRecord)) : Except Error (List AwsOp × List String) :=
  let fq := fully_qualified hostname domain
  let ttl_sec := ttlOf ttl
  let id_records := listing.filter (fun p => p.2.name = fq)
  match value with
  | .a ipgeos => upsert_a_record domain fq ttl_sec id_records ipgeos
  | .cname link =>
    let fr := cname_loop link id_records false []
    let creates : List ExtendedDnsRecord :=
      if fr.1 then [] else [⟨Option.none, fq, [link], ttl_sec, RrType.cname⟩]
    .ok (fr.2.map AwsOp.delete ++ creates.map AwsOp.create, creates.map createLogLine)
  | .none =>
    .ok ((id_records.filter (fun p =>
        p.2.record_type = RrType.a ∨ p.2.record_type = RrType.cname)).map
      (fun p => AwsOp.delete p.1), [])
  | .txt _ => .ok ([], ["non route record ignored"])

/-- `AwsDns::update_dns_metadata` as a pure function of the listing:
existing TXT records at the hostname are always deleted; a desired TXT is
recreated (double-quoted), a desired `None` is not. -/
def update_dns_metadata (domain hostname : String) (value : DnsRecord) (ttl : Option Nat)
    (listing : List (Nat × ExtendedDnsRecord)) : Except Error (List AwsOp × List String) :=
  let fq := fully_qualified hostname domain
  let ttl_sec := ttlOf ttl
  let id_records := listing.filter (fun p => p.2.name = fq ∧
    (p.2.record_type = RrType.txt ∨ p.2.record_type = RrType.mx ∨
      p.2.record_type = RrType.srv))
  match value with
  | .txt text =>
    let dels := (id_records.filter (fun p => p.2.record_type = RrType.txt)).map
      (fun p => AwsOp.delete p.1)
    let rec1 : ExtendedDnsRecord :=
      ⟨Option.none, fq, [double_quoted text], ttl_sec, RrType.txt⟩
    .ok (dels ++ [AwsOp.create rec1], [createLogLine rec1])
  | .none =>
    .ok ((id_records.filter (fun p => p.2.record_type = RrType.txt)).map
      (fun p => AwsOp.delete p.1), [])
  | _ => .ok ([], ["non-metadata record ignored"])

/-- One partition pass of `CloudDns::update_dns_records`: process the
entries in order, each reading the current listing and applying its
operations to the state; the `?` operator aborts the whole pass on the
first failing entry. -/
def awsConvergeEntries (domain : String) (isMeta : Bool) :
    List (String × DnsRecord) → AwsState → Except Error (AwsState × List AwsOp × List String)
  | [], s => .ok (s, [], [])
  | (h, r) :: rest, s =>
    match (if isMeta then update_dns_metadata else update_dns_route) domain h r Option.none
        (awsListing s) with
    | .error e => .error e
    | .ok (ops, log) =>
      match awsConvergeEntries domain isMeta rest (awsApplyOps s ops) with
      | .error e => .error e
      | .ok (s2, ops2, log2) => .ok (s2, ops ++ ops2, log ++ log2)

/-- `CloudDns::update_dns_records` (trait default, instantiated for
`AwsDns`): metadata partition first, then routes partition; the result
carries the final state, the operations issued and the operation log —
the log is returned only on overall success (`Result<String, Error>`). -/
def update_dns_records (domain : String) (s : AwsState) (record_set : DnsRecordSet) :
    Except Error (AwsState × List AwsOp × List String) :=
  match awsConvergeEntries domain true record_set.metadata s with
  | .error e => .error e
  | .ok (s1, ops1, log1) =>
    match awsConvergeEntries domain false record_set.routes s1 with
    | .error e => .error e
    | .ok (s2, ops2, log2) => .ok (s2, ops1 ++ ops2, log1 ++ log2)

/-- `a_ipgeos.entry(hostname).or_insert(HashMap::new())` then
`entry.insert(ip, datacenter)` for every listed IP. -/
def aEntryInsert :
    List (String × List (IpAddr × Option CloudDatacenter)) → String → List IpAddr →
    Option CloudDatacenter → List (String × List (IpAddr × Option CloudDatacenter))
  | [], name, ips, dc =>
    [(name, ips.foldl (fun m ip => m.filter (fun q => q.1 ≠ ip) ++ [(ip, dc)]) [])]
  | (k, m) :: rest, name, ips, dc =>
    if k = name then
      (k, ips.foldl (fun m2 ip => m2.filter (fun q => q.1 ≠ ip) ++ [(ip, dc)]) m) :: rest
    else (k, m) :: aEntryInsert rest name ips dc

/-- The `targets.len() == 1` guard of the CNAME/TXT branches of
`AwsDns::read_dns_records`: insert the single target into the shared map,
or leave the map unchanged. -/
def singleTargetInsert (other : List (String × DnsRecord)) (name : String)
    (targets : List String) (mk : String → DnsRecord) : List (String × DnsRecord) :=
  match targets with
  | [t] => mapInsert other name (mk t)
  | _ => other

/-- The record-bucketing loop of `AwsDns::read_dns_records`: A records
accumulate per-hostname IP maps, CNAME and TXT records go into one shared
map keyed by hostname (single-target records only). -/
def readLoop (domain : String) :
    List (Nat × ExtendedDnsRecord) →
    List (String × List (IpAddr × Option CloudDatacenter)) →
    List (String × DnsRecord) →
    Except Error
      (List (String × List (IpAddr × Option CloudDatacenter)) × List (String × DnsRecord))
  | [], aIpgeos, other => .ok (aIpgeos, other)
  | (_, r) :: rest, aIpgeos, other =>
    match r.record_type with
    | .a =>
      match parseTargets r.targets domain r.name with
      | .error e => .error e
      | .ok ips => readLoop domain rest (aEntryInsert aIpgeos r.name ips r.datacenter) other
    | .cname =>
      readLoop domain rest aIpgeos (singleTargetInsert other r.name r.targets DnsRecord.cname)
    | .txt =>
      readLoop domain rest aIpgeos (singleTargetInsert other r.name r.targets DnsRecord.txt)
    | _ => readLoop domain rest aIpgeos other

/-- `AwsDns::read_dns_records` as a function of the listing: bucket the
records, then insert the non-A map and the per-hostname A maps into the
result set with the domain suffix stripped. -/
def read_dns_records (domain : String) (listing : List (Nat × ExtendedDnsRecord)) :
    Except Error DnsRecordSet :=
  match readLoop domain listing [] [] with
  | .error e => .error e
  | .ok bkt =>
    let set1 := bkt.2.foldl (fun s p => hsInsert s (sans_domain domain p.1, p.2)) []
    .ok (bkt.1.foldl (fun s p => hsInsert s (sans_domain domain p.1, DnsRecord.a p.2)) set1)

end AwsDns

/-! ### Linode adapter (src/dns/linode.rs).

Linode stores relative hostnames and one target per record; `domain_id`
and record ids are numbers.  `list_linode_records` issues one GET and
deserialises only the `data` field of the (paginated) response, so only
the first page is ever seen. -/

namespace LinodeDns

/-- `LinodeDns::TTL_SECS`. -/
def TTL_SECS : Nat := 30

/-- `LinodeRecordType` (serde `rename_all = "UPPERCASE"`). -/
inductive LinodeRecordType where
  | a | aaaa | ns | mx | cname | txt | srv | caa | ptr
deriving DecidableEq

/-- `LinodeDomainRecord`. -/
structure LinodeDomainRecord where
  name : String
  target : String
  ttl_sec : Nat
  record_type : LinodeRecordType
deriving DecidableEq

/-- `LinodeRecordResponse`: a live record with its numeric id. -/
structure LinodeRecordResponse where
  id : Nat
  record : LinodeDomainRecord
deriving DecidableEq

/-- A provider operation issued by the Linode adapter. -/
inductive LinodeOp where
  | create (rec : LinodeDomainRecord)
  | delete (id : Nat)
deriving DecidableEq

/-- Number of create operations in a Linode operation list. -/
def countCreates (ops : List LinodeOp) : Nat :=
  (ops.filter fun op => match op with | .create _ => true | .delete _ => false).length

/-- Number of delete operations in a Linode operation list. -/
def countDeletes (ops : List LinodeOp) : Nat :=
  (ops.filter fun op => match op with | .create _ => false | .delete _ => true).length

/-- `LinodeDns::get_domain_id` over the `list_linode_domains` data
(`(id, domain)` pairs): exact match or `FAILED_DEPENDENCY`. -/
def get_domain_id (domains : List (Nat × String)) (domainName : String) :
    Except Error Nat :=
  match domains.find? (fun d => d.2 = domainName) with
  | some d => .ok d.1
  | Option.none =>
    .error (.http FAILED_DEPENDENCY ("Could not find domain " ++ domainName))

/-- `ListLinodeRecordsReponse`: the decoded fields of one response — only
`data` is deserialised, so a multi-page zone contributes its first page. -/
structure ListLinodeRecordsReponse where
  data : List LinodeRecordResponse

/-- What one provider call returns for a zone holding `zone` when a page
holds at most `pageLimit` records. -/
def linodePageResponse (zone : List LinodeRecordResponse) (pageLimit : Nat) :
    ListLinodeRecordsReponse :=
  { data := zone.take pageLimit }

/-- `LinodeDns::list_linode_records`: a single GET whose decoded `data`
list is the result; there is no pagination loop. -/
def list_linode_records (resp : ListLinodeRecordsReponse) :
    Except Error (List LinodeRecordResponse) :=
  .ok resp.data

/-- `LinodeDns::parse_ip` (same error as the AWS one). -/
def parse_ip (target domain hostname : String) : Except Error IpAddr :=
  match parseIp target with
  | some ip => .ok ip
  | Option.none =>
    .error (.http FAILED_DEPENDENCY (AwsDns.parseIpMsg target domain hostname))

/-- Classification loop of `LinodeDns::upsert_a_record`: keep an A record
whose target is a desired IP not yet claimed
(`ip_addrs.contains(&ip) && found.insert(ip)`), remove every other A and
every CNAME. -/
def upsert_loop (domain hostname : String) (ip_addrs : List IpAddr) :
    List LinodeRecordResponse → List Nat → List IpAddr →
    Except Error (List Nat × List IpAddr)
  | [], removals, found => .ok (removals, found)
  | rr :: rest, removals, found =>
    match rr.record.record_type with
    | .a =>
      match parse_ip rr.record.target domain hostname with
      | .error e => .error e
      | .ok ip =>
        if ip ∈ ip_addrs ∧ ip ∉ found then
          upsert_loop domain hostname ip_addrs rest removals (found ++ [ip])
        else
          upsert_loop domain hostname ip_addrs rest (removals ++ [rr.id]) found
    | .cname => upsert_loop domain hostname ip_addrs rest (removals ++ [rr.id]) found
    | _ => upsert_loop domain hostname ip_addrs rest removals found

/-- `LinodeDns::upsert_a_record`: affinity groups are not considered
("For now, Linode ignores regions"); one single-target A record is
created per desired IP not already live. -/
def upsert_a_record (domain hostname : String) (ttl_sec : Nat)
    (id_records : List LinodeRecordResponse) (ip_addrs : List IpAddr) :
    Except Error (List LinodeOp × List String) :=
  match upsert_loop domain hostname ip_addrs id_records [] [] with
  | .error e => .error e
  | .ok rf =>
    let adds := (ip_addrs.filter (fun ip => ip ∉ rf.2)).map
      (fun ip => LinodeDomainRecord.mk hostname (ipToString ip) ttl_sec .a)
    .ok (rf.1.map LinodeOp.delete ++ adds.map LinodeOp.create,
         adds.map (fun r => "hostname " ++ r.name ++ " create record"))

/-- CNAME branch loop of `LinodeDns::update_dns_route` (single-target
records, so only the target is compared). -/
def cname_loop (link : String) :
    List LinodeRecordResponse → Bool → List Nat → Bool × List Nat
  | [], found, removals => (found, removals)
  | rr :: rest, found, removals =>
    match rr.record.record_type with
    | .a => cname_loop link rest found (removals ++ [rr.id])
    | .cname =>
      if ¬found ∧ rr.record.target = link then cname_loop link rest true removals
      else cname_loop link rest found (removals ++ [rr.id])
    | _ => cname_loop link rest found removals

/-- TTL defaulting (same as the AWS adapter). -/
def ttlOf (ttl : Option Nat) : Nat :=
  match ttl with
  | some t => if t = 0 then TTL_SECS else t
  | Option.none => TTL_SECS

/-- `LinodeDns::update_dns_route` as a pure function of the record list
returned by `list_linode_records` (hostnames are stored relative, so the
filter matches `hostname` itself). -/
def update_dns_route (domain hostname : String) (value : DnsRecord) (ttl : Option Nat)
    (data : List LinodeRecordResponse) : Except Error (List LinodeOp × List String) :=
  let ttl_sec := ttlOf ttl
  let id_records := data.filter (fun rr => rr.record.name = hostname)
  match value with
  | .a ipgeos =>
    upsert_a_record domain hostname ttl_sec id_records (ipgeos.map (fun q => q.1))
  | .cname link =>
    let fr := cname_loop link id_records false []
    let creates : List LinodeDomainRecord :=
      if fr.1 then [] else [LinodeDomainRecord.mk hostname link ttl_sec .cname]
    .ok (fr.2.map LinodeOp.delete ++ creates.map LinodeOp.create,
         creates.map (fun r => "hostname " ++ r.name ++ " create record"))
  | .none =>
    .ok ((id_records.filter (fun rr =>
        rr.record.record_type = LinodeRecordType.a ∨
        rr.record.record_type = LinodeRecordType.cname)).map
      (fun rr => LinodeOp.delete rr.id), [])
  | .txt _ => .ok ([], ["non route record ignored"])

/-- `LinodeDns::update_dns_metadata` as a pure function of the record
list: delete every TXT at the hostname, recreate when desired is TXT. -/
def update_dns_metadata (domain hostname : String) (value : DnsRecord) (ttl : Option Nat)
    (data : List LinodeRecordResponse) : Except Error (List LinodeOp × List String) :=
  let ttl_sec := ttlOf ttl
  let id_records := data.filter (fun rr => rr.record.name = hostname ∧
    (rr.record.record_type = LinodeRecordType.txt ∨
     rr.record.record_type = LinodeRecordType.mx ∨
     rr.record.record_type = LinodeRecordType.srv))
  match value with
  | .txt text =>
    let dels := (id_records.filter
        (fun rr => rr.record.record_type = LinodeRecordType.txt)).map
      (fun rr => LinodeOp.delete rr.id)
    let rec1 := LinodeDomainRecord.mk hostname text ttl_sec .txt
    .ok (dels ++ [LinodeOp.create rec1], ["hostname " ++ hostname ++ " create record"])
  | .none =>
    .ok ((id_records.filter
        (fun rr => rr.record.record_type = LinodeRecordType.txt)).map
      (fun rr => LinodeOp.delete rr.id), [])
  | _ => .ok ([], ["non-metadata record ignored"])

/-- The record-bucketing loop of `LinodeDns::read_dns_records`: A records
accumulate per-hostname IP sets, CNAME and TXT records go into one shared
map keyed by hostname. -/
def readLoop (domain : String) :
    List LinodeRecordResponse → List (String × List IpAddr) → List (String × DnsRecord) →
    Except Error (List (String × List IpAddr) × List (String × DnsRecord))
  | [], aIps, other => .ok (aIps, other)
  | rr :: rest, aIps, other =>
    match rr.record.record_type with
    | .a =>
      match parse_ip rr.record.target domain rr.record.name with
      | .error e => .error e
      | .ok ip => readLoop domain rest (aSetInsert aIps rr.record.name ip) other
    | .cname =>
      readLoop domain rest aIps (mapInsert other rr.record.name (DnsRecord.cname rr.record.target))
    | .txt =>
      readLoop domain rest aIps (mapInsert other rr.record.name (DnsRecord.txt rr.record.target))
    | _ => readLoop domain rest aIps other
where
  /-- `a_ips.entry(hostname).or_insert(HashSet::new()).insert(ip)`. -/
  aSetInsert : List (String × List IpAddr) → String → IpAddr → List (String × List IpAddr)
  | [], name, ip => [(name, [ip])]
  | (k, ips) :: rest, name, ip =>
    if k = name then (k, if ip ∈ ips then ips else ips ++ [ip]) :: rest
    else (k, ips) :: aSetInsert rest name ip

/-- `LinodeDns::read_dns_records` as a function of the record list:
hostnames are already relative, A sets get no affinity. -/
def read_dns_records (domain : String) (data : List LinodeRecordResponse) :
    Except Error DnsRecordSet :=
  match readLoop domain data [] [] with
  | .error e => .error e
  | .ok bkt =>
    let set1 := bkt.2.foldl (fun s p => hsInsert s (p.1, p.2)) []
    .ok (bkt.1.foldl
      (fun s p => hsInsert s (p.1, DnsRecord.a (p.2.map (fun ip => (ip, Option.none))))) set1)

end LinodeDns

/-! ### Observers and claim statements. -/

/-- `DnsRecord` record kind, mirroring `impl Hash for DnsRecord` (the hash
considers only the record type, not the argument). -/
def DnsRecord.kind : DnsRecord → Nat
  | .a _ => 1
  | .cname _ => 2
  | .txt _ => 3
  | .none => 4

/-- Whether a record is an A record. -/
def DnsRecord.isA : DnsRecord → Bool
  | .a _ => true
  | _ => false

/-- The shape "all deletions, then all creations" of an AWS operation
list. -/
def AwsDns.delsThenCreates (ops : List AwsDns.AwsOp) : Prop :=
  ∃ (ds : List Nat) (cs : List AwsDns.ExtendedDnsRecord),
    ops = ds.map AwsDns.AwsOp.delete ++ cs.map AwsDns.AwsOp.create

/-- The shape "all deletions, then all creations" of a Linode operation
list. -/
def LinodeDns.delsThenCreates (ops : List LinodeDns.LinodeOp) : Prop :=
  ∃ (ds : List Nat) (cs : List LinodeDns.LinodeDomainRecord),
    ops = ds.map LinodeDns.LinodeOp.delete ++ cs.map LinodeDns.LinodeOp.create

/-- The operation log lines accumulated by one partition pass of
`update_dns_records` strictly before its first failing entry (the lines
`logger.trace`d before the `?` aborts). -/
def awsPrefixLog (domain : String) (isMeta : Bool) :
    List (String × DnsRecord) → AwsDns.AwsState → List String
  | [], _ => []
  | (h, r) :: rest, s =>
    match (if isMeta then AwsDns.update_dns_metadata else AwsDns.update_dns_route)
        domain h r Option.none (AwsDns.awsListing s) with
    | .error _ => []
    | .ok (ops, log) => log ++ awsPrefixLog domain isMeta rest (AwsDns.awsApplyOps s ops)

/-- The operation log lines accumulated by a whole `update_dns_records`
call before its first failure. -/
def awsRecordsPrefixLog (domain : String) (s : AwsDns.AwsState) (record_set : DnsRecordSet) :
    List String :=
  match AwsDns.awsConvergeEntries domain true record_set.metadata s with
  | .error _ => awsPrefixLog domain true record_set.metadata s
  | .ok (s1, _, log1) => log1 ++ awsPrefixLog domain false record_set.routes s1

/-- Claim C1 as stated: converging twice with the same record set and no
external change in between makes the second operation list free of
creates and deletes. -/
def c1ClaimProp : Prop :=
  ∀ (domain : String) (s0 : AwsDns.AwsState) (S : DnsRecordSet) s1 ops1 log1,
    AwsDns.update_dns_records domain s0 S = .ok (s1, ops1, log1) →
    ∃ s2 ops2 log2, AwsDns.update_dns_records domain s1 S = .ok (s2, ops2, log2) ∧
      AwsDns.countCreates ops2 = 0 ∧ AwsDns.countDeletes ops2 = 0

/-- Claim C2 as stated, against the signature
`update_dns_records -> Result<String, Error>`: an `Err` outcome carries no
log lines, so "the caller receives the lines accumulated before the
failure" can only hold if every failing call had accumulated none. -/
def c2ClaimProp : Prop :=
  ∀ (domain : String) (s : AwsDns.AwsState) (S : DnsRecordSet) (e : Error),
    AwsDns.update_dns_records domain s S = .error e →
    awsRecordsPrefixLog domain s S = []

/-- Claim C3 as stated, for both adapters: a desired A map
`{(ip1, g1), (ip2, g1), (ip3, g2)}` with `g1 ≠ g2` and no pre-existing
route records yields exactly two created A records. -/
def c3ClaimProp : Prop :=
  (∀ (domain fq ttlv : String) (ttl : Nat)
      (id_records : List (Nat × AwsDns.ExtendedDnsRecord))
      (ip1 ip2 ip3 : IpAddr) (g1 g2 : CloudDatacenter),
    ip1 ≠ ip2 → ip1 ≠ ip3 → ip2 ≠ ip3 → g1 ≠ g2 →
    (∀ p ∈ id_records, ¬(p.2.record_type = AwsDns.RrType.a ∨
        p.2.record_type = AwsDns.RrType.cname)) →
    ∀ ops log, AwsDns.upsert_a_record domain fq ttl id_records
        [(ip1, some g1), (ip2, some g1), (ip3, some g2)] = .ok (ops, log) →
      AwsDns.countCreates ops = 2) ∧
  (∀ (domain hostname : String) (ttl : Option Nat)
      (data : List LinodeDns.LinodeRecordResponse)
      (ip1 ip2 ip3 : IpAddr) (g1 g2 : CloudDatacenter),
    ip1 ≠ ip2 → ip1 ≠ ip3 → ip2 ≠ ip3 → g1 ≠ g2 →
    (∀ rr ∈ data, ¬(rr.record.record_type = LinodeDns.LinodeRecordType.a ∨
        rr.record.record_type = LinodeDns.LinodeRecordType.cname)) →
    ∀ ops log, LinodeDns.update_dns_route domain hostname
        (DnsRecord.a [(ip1, some g1), (ip2, some g1), (ip3, some g2)]) ttl data =
          .ok (ops, log) →
      LinodeDns.countCreates ops = 2)

/-- Claim C4 as stated: a hostname whose desired record in the set passed
to `update_dns_records` is `None` ends up with no A, CNAME or TXT record. -/
def c4ClaimProp : Prop :=
  ∀ (domain : String) (s : AwsDns.AwsState) (S : DnsRecordSet) (h : String),
    (h, DnsRecord.none) ∈ S →
    ∀ s2 ops log, AwsDns.update_dns_records domain s S = .ok (s2, ops, log) →
      (AwsDns.awsListing s2).filter (fun p =>
        p.2.name = AwsDns.fully_qualified h domain ∧
        (p.2.record_type = AwsDns.RrType.a ∨ p.2.record_type = AwsDns.RrType.cname ∨
          p.2.record_type = AwsDns.RrType.txt)) = []

/-- Claim C5 as stated: record listing fetches every record of the zone
(pagination iterated to exhaustion), for both adapters. -/
def c5ClaimProp : Prop :=
  (∀ (zone : List (Nat × AwsDns.AwsWireRecord)) (pageLimit : Nat) (domainId : String),
    AwsDns.list_route53_records domainId (AwsDns.awsPageResponse zone pageLimit) =
      .ok ((zone.filter (fun p => !p.2.aliasTarget)).map
        (fun p => (p.1, AwsDns.wireToExtended p.2)))) ∧
  (∀ (zone : List LinodeDns.LinodeRecordResponse) (pageLimit : Nat),
    LinodeDns.list_linode_records (LinodeDns.linodePageResponse zone pageLimit) = .ok zone)

/-- Claim C6 as stated: a live A record with an unparsable IP target makes
`read_dns_records` fail with a Serialization-kind error (the `Serde`
variant of `Error`). -/
def c6ClaimProp : Prop :=
  (∀ (domain : String) (listing : List (Nat × AwsDns.ExtendedDnsRecord)),
    (∃ p ∈ listing, p.2.record_type = AwsDns.RrType.a ∧
      ∃ t ∈ p.2.targets, parseIp t = Option.none) →
    ∃ m, AwsDns.read_dns_records domain listing = .error (Error.serde m)) ∧
  (∀ (domain : String) (data : List LinodeDns.LinodeRecordResponse),
    (∃ rr ∈ data, rr.record.record_type = LinodeDns.LinodeRecordType.a ∧
      parseIp rr.record.target = Option.none) →
    ∃ m, LinodeDns.read_dns_records domain data = .error (Error.serde m))

/-- Claim C7 as stated (its "at most one entry per (hostname, kind) pair"
half, which already fails): any two entries of a built record set sharing
hostname and kind are the same entry. -/
def c7ClaimProp : Prop :=
  ∀ ops : List BuildOp, ∀ p q, p ∈ buildRecordSet ops → q ∈ buildRecordSet ops →
    p.1 = q.1 → p.2.kind = q.2.kind → p = q

/-- Claim C8 as stated: when no zone matches the domain exactly, zone
resolution fails with a `NOT_FOUND` HTTP error, for both adapters. -/
def c8ClaimProp : Prop :=
  (∀ (zones : List (String × String)) (domainName : String),
    (∀ z ∈ zones, z.2 ≠ domainName) →
    ∃ m, AwsDns.get_domain_id zones domainName = .error (Error.http NOT_FOUND m)) ∧
  (∀ (domains : List (Nat × String)) (domainName : String),
    (∀ d ∈ domains, d.2 ≠ domainName) →
    ∃ m, LinodeDns.get_domain_id domains domainName = .error (Error.http NOT_FOUND m))

/-! ### Concrete example inputs used by counterexamples and witnesses. -/

/-- Decidable equality of `Except` results (for evaluating the model at
concrete inputs). -/
instance decEqExceptResult {ε α : Type} [DecidableEq ε] [DecidableEq α] :
    DecidableEq (Except ε α)
  | .ok a, .ok b =>
    if h : a = b then .isTrue (by rw [h]) else .isFalse (by simp [h])
  | .error e, .error f =>
    if h : e = f then .isTrue (by rw [h]) else .isFalse (by simp [h])
  | .ok _, .error _ => .isFalse (by simp)
  | .error _, .ok _ => .isFalse (by simp)

/-- A plain live A wire record with the given name. -/
def exWire (n : String) : AwsDns.AwsWireRecord :=
  ⟨n, AwsDns.RrType.a, ["1.2.3.4"], 30, Option.none, false⟩

/-- A two-record zone (more records than one page holds below). -/
def c5Zone : List (Nat × AwsDns.AwsWireRecord) := [(0, exWire "a"), (1, exWire "b")]

/-- Example IP addresses. -/
def ipA : IpAddr := ⟨1, 2, 3, 4⟩

/-- Example IP address. -/
def ipB : IpAddr := ⟨5, 6, 7, 8⟩

/-- Example IP address. -/
def ipC : IpAddr := ⟨9, 10, 11, 12⟩

/-- A zone state holding an A, a CNAME and a TXT record at
`h.example.com`. -/
def c4State : AwsDns.AwsState :=
  ⟨3, [(0, ⟨"h.example.com", AwsDns.RrType.a, ["1.2.3.4"], 30, Option.none, false⟩),
       (1, ⟨"h.example.com", AwsDns.RrType.cname, ["x.com"], 30, Option.none, false⟩),
       (2, ⟨"h.example.com", AwsDns.RrType.txt, ["\"t\""], 30, Option.none, false⟩)]⟩

/-- A listing holding one live A record whose target is not an IP
literal. -/
def c6Listing : List (Nat × AwsDns.ExtendedDnsRecord) :=
  [(0, ⟨Option.none, "z.example.com", ["banana"], 30, AwsDns.RrType.a⟩)]

/-- A Linode zone holding a live CNAME and a live TXT record at the same
hostname. -/
def c10Data : List LinodeDns.LinodeRecordResponse :=
  [⟨0, ⟨"h", "x.com", 30, LinodeDns.LinodeRecordType.cname⟩⟩,
   ⟨1, ⟨"h", "token", 30, LinodeDns.LinodeRecordType.txt⟩⟩]

/-- A zone state with a corrupt live A record at `z.example.com`. -/
def c2State : AwsDns.AwsState :=
  ⟨1, [(0, ⟨"z.example.com", AwsDns.RrType.a, ["banana"], 30, Option.none, false⟩)]⟩

/-- A record set whose metadata entry converges before its route entry
fails on the corrupt record of `c2State`. -/
def c2Set : DnsRecordSet := [("a", DnsRecord.txt "x"), ("z", DnsRecord.new_a ipA)]

/-! ### Definitions supporting the idempotence analysis (claim C1). -/

/-- A string without the wildcard escape character (Route 53 name
normalisation is then the identity on it). -/
def noBackslash (x : String) : Prop := '\\' ∉ x.data

/-- Well-formed record ids of a zone state: ids are below the fresh id
counter and pairwise distinct. -/
def AwsDns.idsWF (s : AwsDns.AwsState) : Prop :=
  (∀ p ∈ s.records, p.1 < s.nextId) ∧ (s.records.map Prod.fst).Nodup

/-- The listing restricted to one fully qualified hostname (the
`id_records` computed by the update entry points). -/
def AwsDns.fqListing (s : AwsDns.AwsState) (fq : String) :
    List (Nat × AwsDns.ExtendedDnsRecord) :=
  (AwsDns.awsListing s).filter (fun p => p.2.name = fq)

/-- The listed route records at a hostname converged to a desired A
payload: no CNAME; every A record's targets parse to IPs that are desired
with exactly the record's datacenter, and the record carries every desired
IP of its datacenter; distinct records carry disjoint IPs; every desired
IP is carried by some record. -/
def AwsDns.convergedA (domain fq : String)
    (ipgeos : List (IpAddr × Option CloudDatacenter))
    (rs : List (Nat × AwsDns.ExtendedDnsRecord)) : Prop :=
  (∀ p ∈ rs, p.2.record_type ≠ AwsDns.RrType.cname) ∧
  (∀ p ∈ rs, p.2.record_type = AwsDns.RrType.a → ∃ ips,
    AwsDns.parseTargets p.2.targets domain fq = .ok ips ∧
    (∀ ip ∈ ips, AwsDns.lookupGeo ipgeos ip = some p.2.datacenter) ∧
    (∀ q ∈ ipgeos, q.2 = p.2.datacenter → q.1 ∈ ips)) ∧
  (∀ p ∈ rs, ∀ p2 ∈ rs, p.1 ≠ p2.1 → p.2.record_type = AwsDns.RrType.a →
    p2.2.record_type = AwsDns.RrType.a → ∀ ips ips2,
    AwsDns.parseTargets p.2.targets domain fq = .ok ips →
    AwsDns.parseTargets p2.2.targets domain fq = .ok ips2 →
    ∀ ip ∈ ips, ip ∉ ips2) ∧
  (∀ q ∈ ipgeos, ∃ p ∈ rs, p.2.record_type = AwsDns.RrType.a ∧ ∃ ips,
    AwsDns.parseTargets p.2.targets domain fq = .ok ips ∧ q.1 ∈ ips)

/-- The listed route records at a hostname converged to a desired CNAME:
no A record; some CNAME with exactly the desired target exists; every
CNAME carries the desired target; all CNAMEs are one record. -/
def AwsDns.convergedCname (fq link : String)
    (rs : List (Nat × AwsDns.ExtendedDnsRecord)) : Prop :=
  (∀ p ∈ rs, p.2.record_type ≠ AwsDns.RrType.a) ∧
  (∃ p ∈ rs, p.2.record_type = AwsDns.RrType.cname ∧ p.2.targets = [link]) ∧
  (∀ p ∈ rs, p.2.record_type = AwsDns.RrType.cname → p.2.targets = [link]) ∧
  (∀ p ∈ rs, ∀ p2 ∈ rs, p.2.record_type = AwsDns.RrType.cname →
    p2.2.record_type = AwsDns.RrType.cname → p = p2)

/-- The listed records at a hostname converged to desired `None`: no
route records remain. -/
def AwsDns.convergedNone (rs : List (Nat × AwsDns.ExtendedDnsRecord)) : Prop :=
  ∀ p ∈ rs, p.2.record_type ≠ AwsDns.RrType.a ∧ p.2.record_type ≠ AwsDns.RrType.cname

/-- The per-hostname converged-state predicate for one desired route
entry. -/
def AwsDns.entryConverged (domain h : String) (r : DnsRecord) (s : AwsDns.AwsState) :
    Prop :=
  match r with
  | .a ipgeos => AwsDns.convergedA domain (AwsDns.fully_qualified h domain) ipgeos
      (AwsDns.fqListing s (AwsDns.fully_qualified h domain))
  | .cname link => AwsDns.convergedCname (AwsDns.fully_qualified h domain) link
      (AwsDns.fqListing s (AwsDns.fully_qualified h domain))
  | .txt _ => True
  | .none => AwsDns.convergedNone (AwsDns.fqListing s (AwsDns.fully_qualified h domain))

/-- Side conditions on one desired route entry under which convergence is
idempotent: the hostname is free of the wildcard escape character, and an
A payload has unique IP keys and only affinity groups that survive the
AWS region round trip (`from_aws_region (nearest_aws_region dc) = dc`). -/
def goodRouteEntry (p : String × DnsRecord) : Prop :=
  noBackslash p.1 ∧
  match p.2 with
  | .a ipgeos => (ipgeos.map Prod.fst).Nodup ∧
      ∀ q ∈ ipgeos, ∀ dc, q.2 = some dc →
        CloudDatacenter.fromAwsRegion dc.nearestAwsRegion = dc
  | _ => True

/-- The Route 53 `UPSERT` key of a stored record:
`(name, type, set identifier)`. -/
def AwsDns.wireKey (w : AwsDns.AwsWireRecord) :
    String × AwsDns.RrType × Option String :=
  (w.name, w.record_type, w.region)

/-- Whether creating `c` replaces the stored record `w` (the filter
condition of the `UPSERT` in `awsApplyOp`). -/
def AwsDns.wireKeyMatch (w : AwsDns.AwsWireRecord) (c : AwsDns.ExtendedDnsRecord) :
    Prop :=
  w.name = c.name ∧ w.record_type = c.record_type ∧
    w.region = c.datacenter.map CloudDatacenter.nearestAwsRegion

/-- Among records with ids at least `n0` (records created after the point
where the id counter stood at `n0`), the `UPSERT` key determines the
record: creates replace same-key records, so at most one fresh record per
key exists. -/
def AwsDns.freshKeyUnique (n0 : Nat) (s : AwsDns.AwsState) : Prop :=
  ∀ p ∈ s.records, ∀ p2 ∈ s.records, n0 ≤ p.1 → n0 ≤ p2.1 →
    AwsDns.wireKey p.2 = AwsDns.wireKey p2.2 → p = p2

/-- Invariant of the accumulation loop of `upsert_a_record` after
processing the desired pairs `processed`: one entry per datacenter seen
with a not-yet-covered IP, holding exactly the rendered uncovered IPs of
that datacenter in order. -/
def AwsDns.addsInv (fq : String) (ttl : Nat) (found : List IpAddr)
    (processed : List (IpAddr × Option CloudDatacenter))
    (adds : List (Option CloudDatacenter × AwsDns.ExtendedDnsRecord)) : Prop :=
  (adds.map Prod.fst).Nodup ∧
  (∀ gr ∈ adds, gr.2.datacenter = gr.1 ∧ gr.2.name = fq ∧ gr.2.ttl_sec = ttl ∧
    gr.2.record_type = AwsDns.RrType.a ∧
    gr.2.targets = (processed.filter (fun q => q.1 ∉ found ∧ q.2 = gr.1)).map
      (fun q => ipToString q.1)) ∧
  (∀ q ∈ processed, q.1 ∉ found → ∃ rec, (q.2, rec) ∈ adds) ∧
  (∀ gr ∈ adds, ∃ q ∈ processed, q.1 ∉ found ∧ q.2 = gr.1)

/-! ### Basic lemmas. -/

theorem splitCh_ne_nil (c : Char) (cs : List Char) : splitCh c cs ≠ [] := by
  cases cs with
  | nil => simp [splitCh]
  | cons x xs =>
    simp only [splitCh]
    split
    · simp
    · split
      · simp
      · simp

/-- Splitting a list that starts with a separator-free prefix followed by the
separator peels off exactly that prefix. -/
theorem splitCh_append (c : Char) (pre suf : List Char) (h : c ∉ pre) :
    splitCh c (pre ++ c :: suf) = pre :: splitCh c suf := by
  induction pre with
  | nil => simp [splitCh]
  | cons x xs ih =>
    have hx : x ≠ c := by
      intro hxc
      exact h (by simp [hxc])
    have hxs : c ∉ xs := fun hm => h (List.mem_cons_of_mem _ hm)
    simp only [List.cons_append, splitCh, if_neg hx, List.append_eq]
    rw [ih hxs]

/-- Splitting a separator-free list yields a single group. -/
theorem splitCh_no_sep (c : Char) (cs : List Char) (h : c ∉ cs) :
    splitCh c cs = [cs] := by
  induction cs with
  | nil => simp [splitCh]
  | cons x xs ih =>
    have hx : x ≠ c := by
      intro hxc
      exact h (by simp [hxc])
    have hxs : c ∉ xs := fun hm => h (List.mem_cons_of_mem _ hm)
    simp only [splitCh, if_neg hx, ih hxs]

set_option maxRecDepth 4096 in
theorem parseOctet_octetChars : ∀ n : Fin 256, parseOctet (octetChars n) = some n := by
  decide

set_option maxRecDepth 4096 in
theorem dot_not_mem_octetChars : ∀ n : Fin 256, '.' ∉ octetChars n := by
  decide

/-- Printing then parsing an IPv4 address is the identity. -/
theorem parseIp_ipToString (ip : IpAddr) : parseIp (ipToString ip) = some ip := by
  have hsplit : splitCh '.' (ipToString ip).data =
      [octetChars ip.o1, octetChars ip.o2, octetChars ip.o3, octetChars ip.o4] := by
    have hdata : (ipToString ip).data = octetChars ip.o1 ++ '.' ::
        (octetChars ip.o2 ++ '.' :: (octetChars ip.o3 ++ '.' :: octetChars ip.o4)) := by
      simp [ipToString]
    rw [hdata,
        splitCh_append _ _ _ (dot_not_mem_octetChars ip.o1),
        splitCh_append _ _ _ (dot_not_mem_octetChars ip.o2),
        splitCh_append _ _ _ (dot_not_mem_octetChars ip.o3),
        splitCh_no_sep _ _ (dot_not_mem_octetChars ip.o4)]
  rw [parseIp, hsplit]
  simp [parseOctet_octetChars]

/-- Membership in a `hsInsert`. -/
theorem hsInsert_mem (s : DnsRecordSet) (p q : String × DnsRecord) :
    q ∈ hsInsert s p ↔ q ∈ s ∨ q = p := by
  unfold hsInsert
  split
  · rename_i hp
    constructor
    · exact Or.inl
    · intro h
      rcases h with h | h
      · exact h
      · exact h ▸ hp
  · simp

/-- `hsInsert` preserves `Nodup`. -/
theorem hsInsert_nodup (s : DnsRecordSet) (p : String × DnsRecord) (hs : s.Nodup) :
    (hsInsert s p).Nodup := by
  unfold hsInsert
  split
  · exact hs
  · rename_i hp
    simp [List.nodup_append, hs, hp]

/-- Membership in a fold of `hsInsert`s over a mapped list. -/
theorem hsInsert_foldl_mem {α : Type} (f : α → String × DnsRecord) (l : List α)
    (init : DnsRecordSet) (q : String × DnsRecord) :
    q ∈ l.foldl (fun s x => hsInsert s (f x)) init ↔ q ∈ init ∨ ∃ x ∈ l, f x = q := by
  induction l generalizing init with
  | nil => simp
  | cons x xs ih =>
    simp only [List.foldl_cons, ih, hsInsert_mem]
    constructor
    · intro h
      rcases h with (h | h) | h
      · exact Or.inl h
      · exact Or.inr ⟨x, by simp, h.symm⟩
      · rcases h with ⟨y, hy, hf⟩
        exact Or.inr ⟨y, by simp [hy], hf⟩
    · intro h
      rcases h with h | ⟨y, hy, hf⟩
      · exact Or.inl (Or.inl h)
      · rcases List.mem_cons.mp hy with hy | hy
        · exact Or.inl (Or.inr (hy ▸ hf.symm))
        · exact Or.inr ⟨y, hy, hf⟩

/-- A fold of `hsInsert`s preserves `Nodup`. -/
theorem hsInsert_foldl_nodup {α : Type} (f : α → String × DnsRecord) (l : List α)
    (init : DnsRecordSet) (hi : init.Nodup) :
    (l.foldl (fun s x => hsInsert s (f x)) init).Nodup := by
  induction l generalizing init with
  | nil => exact hi
  | cons x xs ih => exact ih _ (hsInsert_nodup _ _ hi)

/-! ### Claim C7: builder insertion semantics. -/

/-- C7 counterexample: inserting `Txt "a"` and then `Txt "b"` for the same
hostname leaves BOTH entries in the built set — `DnsRecordSet` is a
`HashSet` whose (derived) equality compares full payloads, so a later
insertion for the same `(hostname, kind)` pair does not overwrite an
earlier one with a different payload. -/
theorem c7_counterexample : ¬ c7ClaimProp := by
  intro hc
  have h2 := hc [BuildOp.txt "h" "a", BuildOp.txt "h" "b"]
    ("h", DnsRecord.txt "a") ("h", DnsRecord.txt "b")
    (by decide) (by decide) rfl rfl
  exact absurd h2 (by decide)

/-- C7 (amended): the builder has set semantics over full
`(hostname, payload)` equality, not over `(hostname, kind)`: the built
`DnsRecordSet` contains exactly the distinct pairs inserted, each once; a
repeated insertion of an identical pair is dropped, while two insertions
for the same `(hostname, kind)` with different payloads both remain. -/
theorem c7_builder_set_semantics (ops : List BuildOp) :
    (buildRecordSet ops).Nodup ∧
    ∀ p, p ∈ buildRecordSet ops ↔ p ∈ ops.map BuildOp.pair := by
  constructor
  · exact hsInsert_foldl_nodup BuildOp.pair ops [] (by simp)
  · intro p
    have h := hsInsert_foldl_mem BuildOp.pair ops [] p
    rw [buildRecordSet]
    simp only [h, List.not_mem_nil, false_or, List.mem_map]

/-! ### Claim C8: zone resolution failure kind. -/

/-- C8 counterexample: `get_domain_id` on a provider with no matching zone
fails with HTTP 424 `FAILED_DEPENDENCY`, not with `NOT_FOUND` (404). -/
theorem c8_counterexample : ¬ c8ClaimProp := by
  intro hc
  obtain ⟨m, hm⟩ := hc.1 [] "example.com" (by simp)
  rw [show AwsDns.get_domain_id [] "example.com" =
      .error (.http FAILED_DEPENDENCY ("Could not find domain example.com")) from rfl] at hm
  simp [FAILED_DEPENDENCY, NOT_FOUND] at hm

/-- C8 (amended): for every domain name matching no zone exactly, zone
resolution in both adapters fails with the HTTP 424 `FAILED_DEPENDENCY`
error "Could not find domain ...". -/
theorem c8_get_domain_id_failed_dependency
    (zones : List (String × String)) (domains : List (Nat × String)) (domainName : String)
    (hz : ∀ z ∈ zones, z.2 ≠ domainName) (hd : ∀ d ∈ domains, d.2 ≠ domainName) :
    AwsDns.get_domain_id zones domainName =
      .error (.http FAILED_DEPENDENCY ("Could not find domain " ++ domainName)) ∧
    LinodeDns.get_domain_id domains domainName =
      .error (.http FAILED_DEPENDENCY ("Could not find domain " ++ domainName)) := by
  constructor
  · have hf : zones.find? (fun z => z.2 = domainName) = Option.none := by
      rw [List.find?_eq_none]
      intro z hzz
      simp [hz z hzz]
    simp [AwsDns.get_domain_id, hf]
  · have hf : domains.find? (fun d => d.2 = domainName) = Option.none := by
      rw [List.find?_eq_none]
      intro d hdd
      simp [hd d hdd]
    simp [LinodeDns.get_domain_id, hf]

/-- C8 witness: the amended theorem applied to one-zone providers not
holding the requested domain. -/
theorem c8_witness :
    (∀ z ∈ ([("Z1", "other.com")] : List (String × String)), z.2 ≠ "example.com") ∧
    (∀ d ∈ ([(7, "other.com")] : List (Nat × String)), d.2 ≠ "example.com") ∧
    (AwsDns.get_domain_id [("Z1", "other.com")] "example.com" =
        .error (.http FAILED_DEPENDENCY ("Could not find domain " ++ "example.com")) ∧
      LinodeDns.get_domain_id [(7, "other.com")] "example.com" =
        .error (.http FAILED_DEPENDENCY ("Could not find domain " ++ "example.com"))) :=
  ⟨by decide, by decide,
    c8_get_domain_id_failed_dependency [("Z1", "other.com")] [(7, "other.com")]
      "example.com" (by decide) (by decide)⟩

/-! ### Claim C5: record listing and pagination. -/

/-- C5 counterexample: a zone whose records exceed one page makes the AWS
record listing fail with a "DNS result truncated" error instead of
fetching the remaining pages. -/
theorem c5_counterexample : ¬ c5ClaimProp := by
  intro hc
  have h2 := hc.1 c5Zone 1 "Z"
  rw [show AwsDns.list_route53_records "Z" (AwsDns.awsPageResponse c5Zone 1) =
      .error (.http FAILED_DEPENDENCY ("Z" ++ ": DNS result truncated")) from rfl] at h2
  exact Except.noConfusion h2

/-- C5 (amended): record listing issues exactly one unpaginated request:
the AWS adapter fails hard with HTTP 424 "DNS result truncated" whenever
the single response is truncated and otherwise returns that one full page
(alias records filtered out); the Linode adapter returns whatever single
page the one GET yields. -/
theorem c5_single_page_listing (zone : List (Nat × AwsDns.AwsWireRecord))
    (zoneL : List LinodeDns.LinodeRecordResponse) (pageLimit : Nat) (domainId : String) :
    AwsDns.list_route53_records domainId (AwsDns.awsPageResponse zone pageLimit) =
      (if pageLimit < zone.length then
        .error (.http FAILED_DEPENDENCY (domainId ++ ": DNS result truncated"))
      else
        .ok ((zone.filter (fun p => !p.2.aliasTarget)).map
          (fun p => (p.1, AwsDns.wireToExtended p.2)))) ∧
    LinodeDns.list_linode_records (LinodeDns.linodePageResponse zoneL pageLimit) =
      .ok (zoneL.take pageLimit) := by
  refine ⟨?_, rfl⟩
  by_cases h : pageLimit < zone.length
  · simp [AwsDns.list_route53_records, AwsDns.awsPageResponse, h]
  · have ht : zone.take pageLimit = zone := List.take_of_length_le (by omega)
    simp [AwsDns.list_route53_records, AwsDns.awsPageResponse, h, ht]

/-! ### Claim C3: A-record affinity partition. -/

/-- The AWS classification loop ignores every record that is neither an A
nor a CNAME record. -/
theorem upsert_loop_no_routes (domain fq : String)
    (ipgeos : List (IpAddr × Option CloudDatacenter))
    (rs : List (Nat × AwsDns.ExtendedDnsRecord)) (acc : AwsDns.UpsertAcc)
    (h : ∀ p ∈ rs, ¬(p.2.record_type = AwsDns.RrType.a ∨
        p.2.record_type = AwsDns.RrType.cname)) :
    AwsDns.upsert_loop domain fq ipgeos rs acc = .ok acc := by
  induction rs generalizing acc with
  | nil => rfl
  | cons p rest ih =>
    obtain ⟨id, r⟩ := p
    have hr := h (id, r) (by simp)
    have hrest : ∀ q ∈ rest, ¬(q.2.record_type = AwsDns.RrType.a ∨
        q.2.record_type = AwsDns.RrType.cname) :=
      fun q hq => h q (List.mem_cons_of_mem _ hq)
    cases hrt : r.record_type with
    | a => exact absurd (Or.inl hrt) hr
    | cname => exact absurd (Or.inr hrt) hr
    | txt => simp only [AwsDns.upsert_loop, hrt]; exact ih _ hrest
    | mx => simp only [AwsDns.upsert_loop, hrt]; exact ih _ hrest
    | srv => simp only [AwsDns.upsert_loop, hrt]; exact ih _ hrest
    | other => simp only [AwsDns.upsert_loop, hrt]; exact ih _ hrest

/-- C3 counterexample: the Linode adapter ignores affinity groups — a
desired A map `{(ip1, g1), (ip2, g1), (ip3, g2)}` with no pre-existing
route records yields THREE created single-target A records, not two. -/
theorem c3_counterexample : ¬ c3ClaimProp := by
  intro hc
  have h2 := hc.2 "d" "h" Option.none [] ipA ipB ipC "g1" "g2"
    (by decide) (by decide) (by decide) (by decide) (by simp)
    [LinodeDns.LinodeOp.create ⟨"h", ipToString ipA, 30, .a⟩,
     LinodeDns.LinodeOp.create ⟨"h", ipToString ipB, 30, .a⟩,
     LinodeDns.LinodeOp.create ⟨"h", ipToString ipC, 30, .a⟩]
    ["hostname h create record", "hostname h create record",
     "hostname h create record"]
    (by decide)
  exact absurd h2 (by decide)

/-- C3 (amended): the affinity partition holds for the AWS adapter: with
no pre-existing A or CNAME record at the hostname, a desired A map
`{(ip1, g1), (ip2, g1), (ip3, g2)}` with `g1 ≠ g2` creates exactly two A
records, one per distinct affinity group, whose target lists are exactly
the desired IPs of that group.  (The Linode adapter instead creates one
single-target record per IP, ignoring groups.) -/
theorem c3_aws_affinity_partition (domain fq : String) (ttl : Nat)
    (id_records : List (Nat × AwsDns.ExtendedDnsRecord))
    (ip1 ip2 ip3 : IpAddr) (g1 g2 : CloudDatacenter)
    (h12 : ip1 ≠ ip2) (h13 : ip1 ≠ ip3) (h23 : ip2 ≠ ip3) (hg : g1 ≠ g2)
    (hnr : ∀ p ∈ id_records, ¬(p.2.record_type = AwsDns.RrType.a ∨
        p.2.record_type = AwsDns.RrType.cname)) :
    AwsDns.upsert_a_record domain fq ttl id_records
        [(ip1, some g1), (ip2, some g1), (ip3, some g2)] =
      .ok ([AwsDns.AwsOp.create ⟨some g1, fq, [ipToString ip1, ipToString ip2], ttl, .a⟩,
            AwsDns.AwsOp.create ⟨some g2, fq, [ipToString ip3], ttl, .a⟩],
           [AwsDns.createLogLine ⟨some g1, fq, [ipToString ip1, ipToString ip2], ttl, .a⟩,
            AwsDns.createLogLine ⟨some g2, fq, [ipToString ip3], ttl, .a⟩]) := by
  have hloop := upsert_loop_no_routes domain fq
    [(ip1, some g1), (ip2, some g1), (ip3, some g2)] id_records ⟨[], []⟩ hnr
  rw [AwsDns.upsert_a_record, hloop]
  show Except.ok _ = _
  have hadds : AwsDns.adds_loop fq ttl []
      [(ip1, some g1), (ip2, some g1), (ip3, some g2)] [] =
      [(some g1, ⟨some g1, fq, [ipToString ip1, ipToString ip2], ttl, .a⟩),
       (some g2, ⟨some g2, fq, [ipToString ip3], ttl, .a⟩)] := by
    simp only [AwsDns.adds_loop, AwsDns.entryPush, List.not_mem_nil, if_false,
      if_pos rfl, if_neg (fun hgg : some g1 = some g2 => hg (Option.some.injEq g1 g2 ▸ hgg))]
    rfl
  rw [hadds]
  rfl

/-- C3 witness: the AWS affinity partition at concrete IPs and groups. -/
theorem c3_witness :
    (ipA ≠ ipB) ∧ (ipA ≠ ipC) ∧ (ipB ≠ ipC) ∧ (("g1" : CloudDatacenter) ≠ "g2") ∧
    AwsDns.upsert_a_record "d" "h.d" 30 []
        [(ipA, some "g1"), (ipB, some "g1"), (ipC, some "g2")] =
      .ok ([AwsDns.AwsOp.create ⟨some "g1", "h.d", [ipToString ipA, ipToString ipB], 30, .a⟩,
            AwsDns.AwsOp.create ⟨some "g2", "h.d", [ipToString ipC], 30, .a⟩],
           [AwsDns.createLogLine ⟨some "g1", "h.d", [ipToString ipA, ipToString ipB], 30, .a⟩,
            AwsDns.createLogLine ⟨some "g2", "h.d", [ipToString ipC], 30, .a⟩]) :=
  ⟨by decide, by decide, by decide, by decide,
    c3_aws_affinity_partition "d" "h.d" 30 [] ipA ipB ipC "g1" "g2"
      (by decide) (by decide) (by decide) (by decide) (by simp)⟩

/-! ### Claim C4: desired `None` and whole-set convergence. -/

/-- C4 counterexample: a record set entry `(h, None)` is filtered out of
BOTH partitions of `update_dns_records`, so nothing at all is deleted —
the A, CNAME and TXT records at the hostname all survive whole-set
convergence. -/
theorem c4_counterexample : ¬ c4ClaimProp := by
  intro hc
  have h2 := hc "example.com" c4State [("h", DnsRecord.none)] "h" (by decide)
    c4State [] [] (by decide)
  exact absurd h2 (by decide)

/-- C4 (amended): `None` entries contribute to neither the metadata nor
the routes partition of a record set, so `update_dns_records` performs no
operation for them; only the DIRECT per-host entry points honour `None`:
`update_dns_route` with `None` deletes exactly the A and CNAME records at
the fully qualified hostname and creates nothing, and
`update_dns_metadata` with `None` deletes exactly the TXT records there
and creates nothing. -/
theorem c4_none_semantics :
    (∀ S : DnsRecordSet,
      DnsRecordSet.metadata (S.filter (fun p => p.2 ≠ DnsRecord.none)) =
        DnsRecordSet.metadata S ∧
      DnsRecordSet.routes (S.filter (fun p => p.2 ≠ DnsRecord.none)) =
        DnsRecordSet.routes S) ∧
    (∀ (domain hostname : String) (ttl : Option Nat)
        (listing : List (Nat × AwsDns.ExtendedDnsRecord)),
      AwsDns.update_dns_route domain hostname DnsRecord.none ttl listing =
        .ok (((listing.filter (fun p =>
            p.2.name = AwsDns.fully_qualified hostname domain)).filter (fun p =>
            p.2.record_type = AwsDns.RrType.a ∨
              p.2.record_type = AwsDns.RrType.cname)).map
          (fun p => AwsDns.AwsOp.delete p.1), [])) ∧
    (∀ (domain hostname : String) (ttl : Option Nat)
        (listing : List (Nat × AwsDns.ExtendedDnsRecord)),
      AwsDns.update_dns_metadata domain hostname DnsRecord.none ttl listing =
        .ok (((listing.filter (fun p =>
            p.2.name = AwsDns.fully_qualified hostname domain ∧
              (p.2.record_type = AwsDns.RrType.txt ∨
                p.2.record_type = AwsDns.RrType.mx ∨
                p.2.record_type = AwsDns.RrType.srv))).filter (fun p =>
            p.2.record_type = AwsDns.RrType.txt)).map
          (fun p => AwsDns.AwsOp.delete p.1), [])) := by
  refine ⟨?_, fun domain hostname ttl listing => rfl, fun domain hostname ttl listing => rfl⟩
  intro S
  constructor
  · show mapCollect _ = mapCollect _
    congr 1
    rw [List.filter_filter]
    apply List.filter_congr
    intro p _
    cases hp : p.2 <;> simp [DnsRecord.isTxt, hp]
  · show mapCollect _ = mapCollect _
    congr 1
    rw [List.filter_filter]
    apply List.filter_congr
    intro p _
    cases hp : p.2 <;> simp [DnsRecord.isRoute, hp]

/-! ### Claim C9: deletions before creations within one hostname's route
convergence. -/

/-- C9: in both adapters, the operation list of one `update_dns_route`
call is all deletions followed by all creations — no create ever precedes
a delete. -/
theorem c9_route_deletes_before_creates :
    (∀ (domain hostname : String) (value : DnsRecord) (ttl : Option Nat)
        (listing : List (Nat × AwsDns.ExtendedDnsRecord)) ops log,
      AwsDns.update_dns_route domain hostname value ttl listing = .ok (ops, log) →
      AwsDns.delsThenCreates ops) ∧
    (∀ (domain hostname : String) (value : DnsRecord) (ttl : Option Nat)
        (data : List LinodeDns.LinodeRecordResponse) ops log,
      LinodeDns.update_dns_route domain hostname value ttl data = .ok (ops, log) →
      LinodeDns.delsThenCreates ops) := by
  constructor
  · intro domain hostname value ttl listing ops log h
    cases value with
    | a ipgeos =>
      simp only [AwsDns.update_dns_route] at h
      rw [AwsDns.upsert_a_record] at h
      cases hu : AwsDns.upsert_loop domain (AwsDns.fully_qualified hostname domain) ipgeos
          (listing.filter (fun p => p.2.name = AwsDns.fully_qualified hostname domain))
          ⟨[], []⟩ with
      | error e => rw [hu] at h; exact Except.noConfusion h
      | ok acc =>
        rw [hu] at h
        obtain ⟨hops, _⟩ := Prod.mk.injEq _ _ _ _ ▸ Except.ok.inj h
        refine ⟨acc.removals, (AwsDns.adds_loop (AwsDns.fully_qualified hostname domain)
          (AwsDns.ttlOf ttl) acc.found ipgeos []).map Prod.snd, ?_⟩
        rw [← hops, List.map_map]
        rfl
    | cname link =>
      simp only [AwsDns.update_dns_route] at h
      obtain ⟨hops, _⟩ := Prod.mk.injEq _ _ _ _ ▸ Except.ok.inj h
      exact ⟨_, _, hops.symm⟩
    | txt t =>
      simp only [AwsDns.update_dns_route] at h
      obtain ⟨hops, _⟩ := Prod.mk.injEq _ _ _ _ ▸ Except.ok.inj h
      exact ⟨[], [], hops.symm⟩
    | none =>
      simp only [AwsDns.update_dns_route] at h
      obtain ⟨hops, _⟩ := Prod.mk.injEq _ _ _ _ ▸ Except.ok.inj h
      refine ⟨((listing.filter (fun p =>
          p.2.name = AwsDns.fully_qualified hostname domain)).filter (fun p =>
          p.2.record_type = AwsDns.RrType.a ∨
            p.2.record_type = AwsDns.RrType.cname)).map Prod.fst, [], ?_⟩
      rw [← hops, List.map_map]
      simp
  · intro domain hostname value ttl data ops log h
    cases value with
    | a ipgeos =>
      simp only [LinodeDns.update_dns_route] at h
      rw [LinodeDns.upsert_a_record] at h
      cases hu : LinodeDns.upsert_loop domain hostname (ipgeos.map (fun q => q.1))
          (data.filter (fun rr => rr.record.name = hostname)) [] [] with
      | error e => rw [hu] at h; exact Except.noConfusion h
      | ok rf =>
        rw [hu] at h
        obtain ⟨hops, _⟩ := Prod.mk.injEq _ _ _ _ ▸ Except.ok.inj h
        exact ⟨rf.1, _, hops.symm⟩
    | cname link =>
      simp only [LinodeDns.update_dns_route] at h
      obtain ⟨hops, _⟩ := Prod.mk.injEq _ _ _ _ ▸ Except.ok.inj h
      exact ⟨_, _, hops.symm⟩
    | txt t =>
      simp only [LinodeDns.update_dns_route] at h
      obtain ⟨hops, _⟩ := Prod.mk.injEq _ _ _ _ ▸ Except.ok.inj h
      exact ⟨[], [], hops.symm⟩
    | none =>
      simp only [LinodeDns.update_dns_route] at h
      obtain ⟨hops, _⟩ := Prod.mk.injEq _ _ _ _ ▸ Except.ok.inj h
      refine ⟨((data.filter (fun rr => rr.record.name = hostname)).filter (fun rr =>
          rr.record.record_type = LinodeDns.LinodeRecordType.a ∨
            rr.record.record_type = LinodeDns.LinodeRecordType.cname)).map
          LinodeDns.LinodeRecordResponse.id, [], ?_⟩
      rw [← hops, List.map_map]
      simp

/-- C9 witness: the ordering property at a concrete CNAME convergence
(a new CNAME target) that deletes the A and CNAME records and creates one
CNAME. -/
theorem c9_witness :
    AwsDns.update_dns_route "example.com" "h" (DnsRecord.cname "y.com") Option.none
        (AwsDns.awsListing c4State) =
      .ok ([AwsDns.AwsOp.delete 0, AwsDns.AwsOp.delete 1,
            AwsDns.AwsOp.create ⟨Option.none, "h.example.com", ["y.com"], 30, .cname⟩],
           [AwsDns.createLogLine ⟨Option.none, "h.example.com", ["y.com"], 30, .cname⟩]) ∧
    AwsDns.delsThenCreates [AwsDns.AwsOp.delete 0, AwsDns.AwsOp.delete 1,
      AwsDns.AwsOp.create ⟨Option.none, "h.example.com", ["y.com"], 30, .cname⟩] :=
  ⟨by decide,
    c9_route_deletes_before_creates.1 "example.com" "h" (DnsRecord.cname "y.com")
      Option.none (AwsDns.awsListing c4State)
      [AwsDns.AwsOp.delete 0, AwsDns.AwsOp.delete 1,
       AwsDns.AwsOp.create ⟨Option.none, "h.example.com", ["y.com"], 30, .cname⟩]
      [AwsDns.createLogLine ⟨Option.none, "h.example.com", ["y.com"], 30, .cname⟩]
      (by decide)⟩

/-! ### Claim C6: corrupt A-record safety on read. -/

/-- An error produced by `parseTargets` is always the `parse_ip` error of
one of the targets. -/
theorem parseTargets_error_shape (ts : List String) (d h : String) :
    ∀ e, AwsDns.parseTargets ts d h = .error e →
    ∃ t ∈ ts, e = .http FAILED_DEPENDENCY (AwsDns.parseIpMsg t d h) := by
  induction ts with
  | nil => intro e he; exact Except.noConfusion he
  | cons t0 rest ih =>
    intro e he
    simp only [AwsDns.parseTargets, AwsDns.parse_ip] at he
    cases hp : parseIp t0 with
    | none =>
      rw [hp] at he
      exact ⟨t0, by simp, (Except.error.inj he).symm⟩
    | some ip =>
      rw [hp] at he
      cases hr : AwsDns.parseTargets rest d h with
      | error e2 =>
        rw [hr] at he
        obtain ⟨t, ht, hes⟩ := ih e2 hr
        exact ⟨t, by simp [ht], (Except.error.inj he).symm.trans hes⟩
      | ok ips =>
        rw [hr] at he
        exact Except.noConfusion he

/-- A target list containing an unparsable IP literal makes
`parseTargets` fail with the `parse_ip` error of such a target. -/
theorem parseTargets_bad (ts : List String) (d h : String)
    (hbad : ∃ t ∈ ts, parseIp t = Option.none) :
    ∃ t ∈ ts, AwsDns.parseTargets ts d h =
      .error (.http FAILED_DEPENDENCY (AwsDns.parseIpMsg t d h)) := by
  induction ts with
  | nil => simp at hbad
  | cons t0 rest ih =>
    by_cases hp0 : parseIp t0 = Option.none
    · refine ⟨t0, by simp, ?_⟩
      simp only [AwsDns.parseTargets, AwsDns.parse_ip, hp0]
    · obtain ⟨t, ht, htn⟩ := hbad
      have htr : t ∈ rest := by
        rcases List.mem_cons.mp ht with rfl | hr
        · exact absurd htn hp0
        · exact hr
      obtain ⟨t2, ht2, he⟩ := ih ⟨t, htr, htn⟩
      refine ⟨t2, by simp [ht2], ?_⟩
      simp only [AwsDns.parseTargets, AwsDns.parse_ip]
      cases hp : parseIp t0 with
      | none => exact absurd hp hp0
      | some ip => rw [he]

/-- The AWS read bucketing loop fails with an IP parse error whenever some
A record in the remaining listing has an unparsable target. -/
theorem aws_readLoop_bad (domain : String) (listing : List (Nat × AwsDns.ExtendedDnsRecord)) :
    ∀ aI o, (∃ p ∈ listing, p.2.record_type = AwsDns.RrType.a ∧
        ∃ t ∈ p.2.targets, parseIp t = Option.none) →
    ∃ t h2, AwsDns.readLoop domain listing aI o =
      .error (.http FAILED_DEPENDENCY (AwsDns.parseIpMsg t domain h2)) := by
  induction listing with
  | nil => intro aI o hbad; simp at hbad
  | cons p rest ih =>
    intro aI o hbad
    obtain ⟨id, r⟩ := p
    cases hrt : r.record_type
    case a =>
      cases hpt : AwsDns.parseTargets r.targets domain r.name with
      | error e =>
        obtain ⟨t, ht, hes⟩ := parseTargets_error_shape _ _ _ _ hpt
        refine ⟨t, r.name, ?_⟩
        simp only [AwsDns.readLoop, hrt, hpt, hes]
      | ok ips =>
        obtain ⟨q, hq, hqa, tbad⟩ := hbad
        have hqr : q ∈ rest := by
          rcases List.mem_cons.mp hq with rfl | hm
          · obtain ⟨t2, ht2, he⟩ := parseTargets_bad r.targets domain r.name tbad
            rw [hpt] at he
            exact Except.noConfusion he
          · exact hm
        obtain ⟨t, h2, hres⟩ := ih _ _ ⟨q, hqr, hqa, tbad⟩
        refine ⟨t, h2, ?_⟩
        simp only [AwsDns.readLoop, hrt, hpt]
        exact hres
    all_goals {
      obtain ⟨q, hq, hqa, tbad⟩ := hbad
      have hqr : q ∈ rest := by
        rcases List.mem_cons.mp hq with rfl | hm
        · exact AwsDns.RrType.noConfusion (hrt.symm.trans hqa)
        · exact hm
      obtain ⟨t, h2, hres⟩ := ih _ _ ⟨q, hqr, hqa, tbad⟩
      refine ⟨t, h2, ?_⟩
      simp only [AwsDns.readLoop, hrt]
      exact hres
    }

/-- The Linode read bucketing loop fails with an IP parse error whenever
some remaining A record has an unparsable target. -/
theorem linode_readLoop_bad (domain : String) (data : List LinodeDns.LinodeRecordResponse) :
    ∀ aI o, (∃ rr ∈ data, rr.record.record_type = LinodeDns.LinodeRecordType.a ∧
        parseIp rr.record.target = Option.none) →
    ∃ t h2, LinodeDns.readLoop domain data aI o =
      .error (.http FAILED_DEPENDENCY (AwsDns.parseIpMsg t domain h2)) := by
  induction data with
  | nil => intro aI o hbad; simp at hbad
  | cons rr rest ih =>
    intro aI o hbad
    cases hrt : rr.record.record_type
    case a =>
      cases hp : parseIp rr.record.target with
      | none =>
        refine ⟨rr.record.target, rr.record.name, ?_⟩
        simp only [LinodeDns.readLoop, hrt, LinodeDns.parse_ip, hp]
      | some ip =>
        obtain ⟨q, hq, hqa, hqn⟩ := hbad
        have hqr : q ∈ rest := by
          rcases List.mem_cons.mp hq with rfl | hm
          · rw [hp] at hqn; exact Option.noConfusion hqn
          · exact hm
        obtain ⟨t, h2, hres⟩ := ih _ _ ⟨q, hqr, hqa, hqn⟩
        refine ⟨t, h2, ?_⟩
        simp only [LinodeDns.readLoop, hrt, LinodeDns.parse_ip, hp]
        exact hres
    all_goals {
      obtain ⟨q, hq, hqa, hqn⟩ := hbad
      have hqr : q ∈ rest := by
        rcases List.mem_cons.mp hq with rfl | hm
        · exact LinodeDns.LinodeRecordType.noConfusion (hrt.symm.trans hqa)
        · exact hm
      obtain ⟨t, h2, hres⟩ := ih _ _ ⟨q, hqr, hqa, hqn⟩
      refine ⟨t, h2, ?_⟩
      simp only [LinodeDns.readLoop, hrt]
      exact hres
    }

/-- C6 counterexample: the read failure on a corrupt live A record is the
HTTP 424 `FAILED_DEPENDENCY` error of `parse_ip`, not the `Serde`
(serialization) variant of `Error`. -/
theorem c6_counterexample : ¬ c6ClaimProp := by
  intro hc
  obtain ⟨m, hm⟩ := hc.1 "example.com" c6Listing (by decide)
  rw [show AwsDns.read_dns_records "example.com" c6Listing =
      .error (.http FAILED_DEPENDENCY
        (AwsDns.parseIpMsg "banana" "example.com" "z.example.com")) from by decide] at hm
  exact Error.noConfusion (Except.error.inj hm)

/-- C6 (amended): in both adapters, a live A record with an unparsable IP
target makes `read_dns_records` fail — with the HTTP 424
`FAILED_DEPENDENCY` "Could not parse IP ..." error of `parse_ip` — rather
than return a record set omitting the hostname. -/
theorem c6_read_fails_on_bad_ip :
    (∀ (domain : String) (listing : List (Nat × AwsDns.ExtendedDnsRecord)),
      (∃ p ∈ listing, p.2.record_type = AwsDns.RrType.a ∧
        ∃ t ∈ p.2.targets, parseIp t = Option.none) →
      ∃ t h2, AwsDns.read_dns_records domain listing =
        .error (.http FAILED_DEPENDENCY (AwsDns.parseIpMsg t domain h2))) ∧
    (∀ (domain : String) (data : List LinodeDns.LinodeRecordResponse),
      (∃ rr ∈ data, rr.record.record_type = LinodeDns.LinodeRecordType.a ∧
        parseIp rr.record.target = Option.none) →
      ∃ t h2, LinodeDns.read_dns_records domain data =
        .error (.http FAILED_DEPENDENCY (AwsDns.parseIpMsg t domain h2))) := by
  constructor
  · intro domain listing hbad
    obtain ⟨t, h2, hres⟩ := aws_readLoop_bad domain listing [] [] hbad
    refine ⟨t, h2, ?_⟩
    simp only [AwsDns.read_dns_records, hres]
  · intro domain data hbad
    obtain ⟨t, h2, hres⟩ := linode_readLoop_bad domain data [] [] hbad
    refine ⟨t, h2, ?_⟩
    simp only [LinodeDns.read_dns_records, hres]

/-- C6 witness: the amended failure at a concrete corrupt listing. -/
theorem c6_witness :
    (∃ p ∈ c6Listing, p.2.record_type = AwsDns.RrType.a ∧
      ∃ t ∈ p.2.targets, parseIp t = Option.none) ∧
    (∃ t h2, AwsDns.read_dns_records "example.com" c6Listing =
      .error (.http FAILED_DEPENDENCY (AwsDns.parseIpMsg t "example.com" h2))) :=
  ⟨by decide, c6_read_fails_on_bad_ip.1 "example.com" c6Listing (by decide)⟩

/-! ### Claim C10: one non-A record per hostname in a read result. -/

/-- Membership in a `mapInsert`. -/
theorem mapInsert_mem {β : Type} (m : List (String × β)) (k : String) (v : β)
    (q : String × β) :
    q ∈ mapInsert m k v ↔ (q ∈ m ∧ q.1 ≠ k) ∨ q = (k, v) := by
  simp [mapInsert, List.mem_filter, List.mem_append]

/-- `mapInsert` preserves distinctness of keys. -/
theorem mapInsert_keys_nodup {β : Type} (m : List (String × β)) (k : String) (v : β)
    (h : (m.map Prod.fst).Nodup) : ((mapInsert m k v).map Prod.fst).Nodup := by
  unfold mapInsert
  rw [List.map_append, List.nodup_append]
  refine ⟨h.sublist ((List.filter_sublist m).map Prod.fst), by simp, ?_⟩
  intro a ha hk
  simp only [List.mem_singleton, List.map_cons, List.map_nil] at hk
  obtain ⟨q, hq, rfl⟩ := List.mem_map.mp ha
  have := (List.mem_filter.mp hq).2
  simp only [decide_not, Bool.not_eq_eq_eq_not, Bool.not_true, decide_eq_false_iff_not] at this
  exact this hk

/-- In a list with distinct keys, two entries with equal keys are the same
entry. -/
theorem keys_nodup_entry_eq {β : Type} (m : List (String × β))
    (h : (m.map Prod.fst).Nodup) :
    ∀ q1 ∈ m, ∀ q2 ∈ m, q1.1 = q2.1 → q1 = q2 := by
  induction m with
  | nil => intro q1 hq1; exact absurd hq1 (List.not_mem_nil q1)
  | cons x rest ih =>
    intro q1 hq1 q2 hq2 hkeys
    rw [List.map_cons, List.nodup_cons] at h
    rcases List.mem_cons.mp hq1 with rfl | h1 <;> rcases List.mem_cons.mp hq2 with rfl | h2
    · rfl
    · exact absurd (hkeys ▸ List.mem_map_of_mem Prod.fst h2) h.1
    · exact absurd (hkeys ▸ List.mem_map_of_mem Prod.fst h1) (hkeys ▸ h.1)
    · exact ih h.2 q1 h1 q2 h2 hkeys

/-- The shared CNAME/TXT map built by the AWS read loop has distinct keys,
and every key is the name of some listed record. -/
theorem aws_readLoop_other (domain : String) (listing : List (Nat × AwsDns.ExtendedDnsRecord)) :
    ∀ aI o aOut oOut, AwsDns.readLoop domain listing aI o = .ok (aOut, oOut) →
    ((o.map Prod.fst).Nodup → (oOut.map Prod.fst).Nodup) ∧
    (∀ q ∈ oOut, q ∈ o ∨ q.1 ∈ listing.map (fun p => p.2.name)) := by
  induction listing with
  | nil =>
    intro aI o aOut oOut hok
    obtain ⟨-, h2⟩ := Prod.mk.injEq _ _ _ _ ▸ Except.ok.inj hok
    subst h2
    exact ⟨fun hn => hn, fun q hq => Or.inl hq⟩
  | cons p rest ih =>
    intro aI o aOut oOut hok
    obtain ⟨id, r⟩ := p
    have step : ∀ (o2 : List (String × DnsRecord)),
        ((o.map Prod.fst).Nodup → (o2.map Prod.fst).Nodup) →
        (∀ q ∈ o2, q ∈ o ∨ q.1 = r.name) →
        (∀ aI2, AwsDns.readLoop domain rest aI2 o2 = .ok (aOut, oOut) →
        ((o.map Prod.fst).Nodup → (oOut.map Prod.fst).Nodup) ∧
        (∀ q ∈ oOut, q ∈ o ∨ q.1 ∈ ((id, r) :: rest).map (fun p => p.2.name))) := by
      intro o2 hnd hsub aI2 hok2
      obtain ⟨ha, hb⟩ := ih aI2 o2 aOut oOut hok2
      refine ⟨fun h0 => ha (hnd h0), ?_⟩
      intro q hq
      rcases hb q hq with hq2 | hname
      · rcases hsub q hq2 with hqo | hqn
        · exact Or.inl hqo
        · exact Or.inr (by simp [hqn])
      · exact Or.inr (by simp only [List.map_cons, List.mem_cons]; exact Or.inr hname)
    have hsingle : ∀ mk, ((o.map Prod.fst).Nodup →
          ((AwsDns.singleTargetInsert o r.name r.targets mk).map Prod.fst).Nodup) ∧
        (∀ q ∈ AwsDns.singleTargetInsert o r.name r.targets mk, q ∈ o ∨ q.1 = r.name) := by
      intro mk
      unfold AwsDns.singleTargetInsert
      cases r.targets with
      | nil => exact ⟨fun hn => hn, fun q hq => Or.inl hq⟩
      | cons t ts =>
        cases ts with
        | nil =>
          refine ⟨fun hn => mapInsert_keys_nodup o r.name (mk t) hn, ?_⟩
          intro q hq
          rcases (mapInsert_mem o r.name (mk t) q).mp hq with ⟨hqo, -⟩ | rfl
          · exact Or.inl hqo
          · exact Or.inr rfl
        | cons t2 ts2 => exact ⟨fun hn => hn, fun q hq => Or.inl hq⟩
    cases hrt : r.record_type
    case a =>
      simp only [AwsDns.readLoop, hrt] at hok
      cases hpt : AwsDns.parseTargets r.targets domain r.name with
      | error e => rw [hpt] at hok; exact Except.noConfusion hok
      | ok ips =>
        rw [hpt] at hok
        exact step o (fun hn => hn) (fun q hq => Or.inl hq) _ hok
    case cname =>
      simp only [AwsDns.readLoop, hrt] at hok
      exact step _ (hsingle DnsRecord.cname).1 (hsingle DnsRecord.cname).2 _ hok
    case txt =>
      simp only [AwsDns.readLoop, hrt] at hok
      exact step _ (hsingle DnsRecord.txt).1 (hsingle DnsRecord.txt).2 _ hok
    case mx =>
      simp only [AwsDns.readLoop, hrt] at hok
      exact step o (fun hn => hn) (fun q hq => Or.inl hq) _ hok
    case srv =>
      simp only [AwsDns.readLoop, hrt] at hok
      exact step o (fun hn => hn) (fun q hq => Or.inl hq) _ hok
    case other =>
      simp only [AwsDns.readLoop, hrt] at hok
      exact step o (fun hn => hn) (fun q hq => Or.inl hq) _ hok

/-- The shared CNAME/TXT map built by the Linode read loop has distinct
keys. -/
theorem linode_readLoop_other (domain : String) (data : List LinodeDns.LinodeRecordResponse) :
    ∀ aI o aOut oOut, LinodeDns.readLoop domain data aI o = .ok (aOut, oOut) →
    (o.map Prod.fst).Nodup → (oOut.map Prod.fst).Nodup := by
  induction data with
  | nil =>
    intro aI o aOut oOut hok
    obtain ⟨-, h2⟩ := Prod.mk.injEq _ _ _ _ ▸ Except.ok.inj hok
    subst h2
    exact fun hn => hn
  | cons rr rest ih =>
    intro aI o aOut oOut hok
    cases hrt : rr.record.record_type
    case a =>
      simp only [LinodeDns.readLoop, hrt] at hok
      cases hp : LinodeDns.parse_ip rr.record.target domain rr.record.name with
      | error e => rw [hp] at hok; exact Except.noConfusion hok
      | ok ip => rw [hp] at hok; exact ih _ _ _ _ hok
    case cname =>
      simp only [LinodeDns.readLoop, hrt] at hok
      exact fun hn => ih _ _ _ _ hok
        (mapInsert_keys_nodup o rr.record.name (DnsRecord.cname rr.record.target) hn)
    case txt =>
      simp only [LinodeDns.readLoop, hrt] at hok
      exact fun hn => ih _ _ _ _ hok
        (mapInsert_keys_nodup o rr.record.name (DnsRecord.txt rr.record.target) hn)
    case aaaa => simp only [LinodeDns.readLoop, hrt] at hok; exact ih _ _ _ _ hok
    case ns => simp only [LinodeDns.readLoop, hrt] at hok; exact ih _ _ _ _ hok
    case mx => simp only [LinodeDns.readLoop, hrt] at hok; exact ih _ _ _ _ hok
    case srv => simp only [LinodeDns.readLoop, hrt] at hok; exact ih _ _ _ _ hok
    case caa => simp only [LinodeDns.readLoop, hrt] at hok; exact ih _ _ _ _ hok
    case ptr => simp only [LinodeDns.readLoop, hrt] at hok; exact ih _ _ _ _ hok

/-- The keys of the Linode shared map are record names from the data
list. -/
theorem linode_readLoop_other_keys (domain : String)
    (data : List LinodeDns.LinodeRecordResponse) :
    ∀ aI o aOut oOut, LinodeDns.readLoop domain data aI o = .ok (aOut, oOut) →
    ∀ q ∈ oOut, q ∈ o ∨ q.1 ∈ data.map (fun rr => rr.record.name) := by
  induction data with
  | nil =>
    intro aI o aOut oOut hok
    obtain ⟨-, h2⟩ := Prod.mk.injEq _ _ _ _ ▸ Except.ok.inj hok
    subst h2
    exact fun q hq => Or.inl hq
  | cons rr rest ih =>
    intro aI o aOut oOut hok q hq
    have lift : q ∈ o ∨ q.1 = rr.record.name ∨ q.1 ∈ rest.map (fun r2 => r2.record.name) →
        q ∈ o ∨ q.1 ∈ (rr :: rest).map (fun r2 => r2.record.name) := by
      intro h
      rcases h with h | h | h
      · exact Or.inl h
      · exact Or.inr (by simp [h])
      · exact Or.inr (by simp only [List.map_cons, List.mem_cons]; exact Or.inr h)
    cases hrt : rr.record.record_type
    case a =>
      simp only [LinodeDns.readLoop, hrt] at hok
      cases hp : LinodeDns.parse_ip rr.record.target domain rr.record.name with
      | error e => rw [hp] at hok; exact Except.noConfusion hok
      | ok ip =>
        rw [hp] at hok
        exact lift (Or.elim (ih _ _ _ _ hok q hq) Or.inl (fun h => Or.inr (Or.inr h)))
    case cname =>
      simp only [LinodeDns.readLoop, hrt] at hok
      rcases ih _ _ _ _ hok q hq with hq2 | hname
      · rcases (mapInsert_mem _ _ _ q).mp hq2 with ⟨hqo, -⟩ | rfl
        · exact lift (Or.inl hqo)
        · exact lift (Or.inr (Or.inl rfl))
      · exact lift (Or.inr (Or.inr hname))
    case txt =>
      simp only [LinodeDns.readLoop, hrt] at hok
      rcases ih _ _ _ _ hok q hq with hq2 | hname
      · rcases (mapInsert_mem _ _ _ q).mp hq2 with ⟨hqo, -⟩ | rfl
        · exact lift (Or.inl hqo)
        · exact lift (Or.inr (Or.inl rfl))
      · exact lift (Or.inr (Or.inr hname))
    case aaaa =>
      simp only [LinodeDns.readLoop, hrt] at hok
      exact lift (Or.elim (ih _ _ _ _ hok q hq) Or.inl (fun h => Or.inr (Or.inr h)))
    case ns =>
      simp only [LinodeDns.readLoop, hrt] at hok
      exact lift (Or.elim (ih _ _ _ _ hok q hq) Or.inl (fun h => Or.inr (Or.inr h)))
    case mx =>
      simp only [LinodeDns.readLoop, hrt] at hok
      exact lift (Or.elim (ih _ _ _ _ hok q hq) Or.inl (fun h => Or.inr (Or.inr h)))
    case srv =>
      simp only [LinodeDns.readLoop, hrt] at hok
      exact lift (Or.elim (ih _ _ _ _ hok q hq) Or.inl (fun h => Or.inr (Or.inr h)))
    case caa =>
      simp only [LinodeDns.readLoop, hrt] at hok
      exact lift (Or.elim (ih _ _ _ _ hok q hq) Or.inl (fun h => Or.inr (Or.inr h)))
    case ptr =>
      simp only [LinodeDns.readLoop, hrt] at hok
      exact lift (Or.elim (ih _ _ _ _ hok q hq) Or.inl (fun h => Or.inr (Or.inr h)))

/-- C10: a `read_dns_records` result set holds at most one non-A record
(CNAME or TXT) per hostname, in both adapters — CNAME and TXT results are
accumulated in one map keyed by hostname alone, so a later record
overwrites an earlier one.  (For AWS the relative hostnames must be
distinct, i.e. `sans_domain` must not collide on the listed names —
providers always return names under the queried domain, so this holds in
practice.) -/
theorem c10_read_single_non_a_per_hostname :
    (∀ (domain : String) (listing : List (Nat × AwsDns.ExtendedDnsRecord)) rs,
      AwsDns.read_dns_records domain listing = .ok rs →
      (∀ n1 ∈ listing.map (fun p => p.2.name), ∀ n2 ∈ listing.map (fun p => p.2.name),
        AwsDns.sans_domain domain n1 = AwsDns.sans_domain domain n2 → n1 = n2) →
      ∀ h r1 r2, (h, r1) ∈ rs → (h, r2) ∈ rs →
        r1.isA = false → r2.isA = false → r1 = r2) ∧
    (∀ (domain : String) (data : List LinodeDns.LinodeRecordResponse) rs,
      LinodeDns.read_dns_records domain data = .ok rs →
      ∀ h r1 r2, (h, r1) ∈ rs → (h, r2) ∈ rs →
        r1.isA = false → r2.isA = false → r1 = r2) := by
  constructor
  · intro domain listing rs hok hinj h r1 r2 h1 h2 hA1 hA2
    simp only [AwsDns.read_dns_records] at hok
    cases hrl : AwsDns.readLoop domain listing [] [] with
    | error e => rw [hrl] at hok; exact Except.noConfusion hok
    | ok bkt =>
      obtain ⟨aOut, oOut⟩ := bkt
      rw [hrl] at hok
      have hrs := (Except.ok.inj hok).symm
      subst hrs
      obtain ⟨hnodup, hkeys⟩ := aws_readLoop_other domain listing [] [] aOut oOut hrl
      have hother : ∀ r0 : DnsRecord, r0.isA = false →
          (h, r0) ∈ aOut.foldl (fun s p =>
            hsInsert s (AwsDns.sans_domain domain p.1, DnsRecord.a p.2))
            (oOut.foldl (fun s p =>
              hsInsert s (AwsDns.sans_domain domain p.1, p.2)) []) →
          ∃ p ∈ oOut, AwsDns.sans_domain domain p.1 = h ∧ p.2 = r0 := by
        intro r0 hA0 hmem
        rcases (hsInsert_foldl_mem (fun p =>
            (AwsDns.sans_domain domain p.1, DnsRecord.a p.2)) aOut _ (h, r0)).mp hmem with
          hin | ⟨p, hp, hfp⟩
        · rcases (hsInsert_foldl_mem (fun p =>
              (AwsDns.sans_domain domain p.1, p.2)) oOut [] (h, r0)).mp hin with
            hnil | ⟨p, hp, hfp⟩
          · exact absurd hnil (List.not_mem_nil _)
          · obtain ⟨hk, hv⟩ := Prod.mk.injEq _ _ _ _ ▸ hfp
            exact ⟨p, hp, hk, hv⟩
        · obtain ⟨-, hv⟩ := Prod.mk.injEq _ _ _ _ ▸ hfp
          rw [← hv] at hA0
          exact absurd hA0 (by simp [DnsRecord.isA])
      obtain ⟨p1, hp1, hk1, hv1⟩ := hother r1 hA1 h1
      obtain ⟨p2, hp2, hk2, hv2⟩ := hother r2 hA2 h2
      have hn1 : p1.1 ∈ listing.map (fun p => p.2.name) := by
        rcases hkeys p1 hp1 with hnil | hn
        · exact absurd hnil (List.not_mem_nil _)
        · exact hn
      have hn2 : p2.1 ∈ listing.map (fun p => p.2.name) := by
        rcases hkeys p2 hp2 with hnil | hn
        · exact absurd hnil (List.not_mem_nil _)
        · exact hn
      have hkeq : p1.1 = p2.1 := hinj p1.1 hn1 p2.1 hn2 (hk1.trans hk2.symm)
      have hpe := keys_nodup_entry_eq oOut (hnodup (by simp)) p1 hp1 p2 hp2 hkeq
      rw [← hv1, ← hv2, hpe]
  · intro domain data rs hok h r1 r2 h1 h2 hA1 hA2
    simp only [LinodeDns.read_dns_records] at hok
    cases hrl : LinodeDns.readLoop domain data [] [] with
    | error e => rw [hrl] at hok; exact Except.noConfusion hok
    | ok bkt =>
      obtain ⟨aOut, oOut⟩ := bkt
      rw [hrl] at hok
      have hrs := (Except.ok.inj hok).symm
      subst hrs
      have hnodup := linode_readLoop_other domain data [] [] aOut oOut hrl
      have hother : ∀ r0 : DnsRecord, r0.isA = false →
          (h, r0) ∈ aOut.foldl (fun s p =>
            hsInsert s (p.1, DnsRecord.a (p.2.map (fun ip => (ip, Option.none)))))
            (oOut.foldl (fun s p => hsInsert s (p.1, p.2)) []) →
          ∃ p ∈ oOut, p.1 = h ∧ p.2 = r0 := by
        intro r0 hA0 hmem
        rcases (hsInsert_foldl_mem (fun p =>
            (p.1, DnsRecord.a (p.2.map (fun ip => (ip, Option.none))))) aOut _ (h, r0)).mp
            hmem with hin | ⟨p, hp, hfp⟩
        · rcases (hsInsert_foldl_mem (fun p => (p.1, p.2)) oOut [] (h, r0)).mp hin with
            hnil | ⟨p, hp, hfp⟩
          · exact absurd hnil (List.not_mem_nil _)
          · obtain ⟨hk, hv⟩ := Prod.mk.injEq _ _ _ _ ▸ hfp
            exact ⟨p, hp, hk, hv⟩
        · obtain ⟨-, hv⟩ := Prod.mk.injEq _ _ _ _ ▸ hfp
          rw [← hv] at hA0
          exact absurd hA0 (by simp [DnsRecord.isA])
      obtain ⟨p1, hp1, hk1, hv1⟩ := hother r1 hA1 h1
      obtain ⟨p2, hp2, hk2, hv2⟩ := hother r2 hA2 h2
      have hpe := keys_nodup_entry_eq oOut (hnodup (by simp)) p1 hp1 p2 hp2
        (hk1.trans hk2.symm)
      rw [← hv1, ← hv2, hpe]

/-! ### Claim C2: failure behaviour of whole-set convergence. -/

/-- Appending a failing entry after successfully processed entries makes
the whole partition pass return exactly that error. -/
theorem awsConvergeEntries_fail (domain : String) (isMeta : Bool) :
    ∀ (xs : List (String × DnsRecord)) s s2 ops2 log2 (h : String) (r : DnsRecord) ys e,
    AwsDns.awsConvergeEntries domain isMeta xs s = .ok (s2, ops2, log2) →
    (if isMeta then AwsDns.update_dns_metadata else AwsDns.update_dns_route)
        domain h r Option.none (AwsDns.awsListing s2) = .error e →
    AwsDns.awsConvergeEntries domain isMeta (xs ++ (h, r) :: ys) s = .error e := by
  intro xs
  induction xs with
  | nil =>
    intro s s2 ops2 log2 h r ys e hok hupd
    obtain ⟨hs, -⟩ := Prod.mk.injEq _ _ _ _ ▸ Except.ok.inj hok
    subst hs
    simp only [List.nil_append, AwsDns.awsConvergeEntries, hupd]
  | cons p rest ih =>
    intro s s2 ops2 log2 h r ys e hok hupd
    obtain ⟨h0, r0⟩ := p
    simp only [AwsDns.awsConvergeEntries] at hok
    cases hu0 : (if isMeta then AwsDns.update_dns_metadata else AwsDns.update_dns_route)
        domain h0 r0 Option.none (AwsDns.awsListing s) with
    | error e0 => rw [hu0] at hok; exact Except.noConfusion hok
    | ok ol =>
      obtain ⟨ops, log⟩ := ol
      simp only [hu0] at hok
      cases hrest : AwsDns.awsConvergeEntries domain isMeta rest
          (AwsDns.awsApplyOps s ops) with
      | error e0 => simp only [hrest] at hok; exact Except.noConfusion hok
      | ok out =>
        obtain ⟨s3, ops3, log3⟩ := out
        simp only [hrest] at hok
        obtain ⟨hs, -⟩ := Prod.mk.injEq _ _ _ _ ▸ Except.ok.inj hok
        subst hs
        simp only [List.cons_append, List.append_eq, AwsDns.awsConvergeEntries, hu0,
          ih _ _ _ _ h r ys e hrest hupd]

/-- The operation log accumulated before the failing entry is exactly the
log of the successfully processed prefix. -/
theorem awsPrefixLog_fail (domain : String) (isMeta : Bool) :
    ∀ (xs : List (String × DnsRecord)) s s2 ops2 log2 (h : String) (r : DnsRecord) ys e,
    AwsDns.awsConvergeEntries domain isMeta xs s = .ok (s2, ops2, log2) →
    (if isMeta then AwsDns.update_dns_metadata else AwsDns.update_dns_route)
        domain h r Option.none (AwsDns.awsListing s2) = .error e →
    awsPrefixLog domain isMeta (xs ++ (h, r) :: ys) s = log2 := by
  intro xs
  induction xs with
  | nil =>
    intro s s2 ops2 log2 h r ys e hok hupd
    obtain ⟨hs, hrest⟩ := Prod.mk.injEq _ _ _ _ ▸ Except.ok.inj hok
    obtain ⟨-, hlog⟩ := Prod.mk.injEq _ _ _ _ ▸ hrest
    subst hs
    simp only [List.nil_append, awsPrefixLog, hupd, ← hlog]
  | cons p rest ih =>
    intro s s2 ops2 log2 h r ys e hok hupd
    obtain ⟨h0, r0⟩ := p
    simp only [AwsDns.awsConvergeEntries] at hok
    cases hu0 : (if isMeta then AwsDns.update_dns_metadata else AwsDns.update_dns_route)
        domain h0 r0 Option.none (AwsDns.awsListing s) with
    | error e0 => rw [hu0] at hok; exact Except.noConfusion hok
    | ok ol =>
      obtain ⟨ops, log⟩ := ol
      simp only [hu0] at hok
      cases hrest : AwsDns.awsConvergeEntries domain isMeta rest
          (AwsDns.awsApplyOps s ops) with
      | error e0 => simp only [hrest] at hok; exact Except.noConfusion hok
      | ok out =>
        obtain ⟨s3, ops3, log3⟩ := out
        simp only [hrest] at hok
        obtain ⟨hs, hpair⟩ := Prod.mk.injEq _ _ _ _ ▸ Except.ok.inj hok
        obtain ⟨-, hlog⟩ := Prod.mk.injEq _ _ _ _ ▸ hpair
        subst hs
        simp only [List.cons_append, List.append_eq, awsPrefixLog, hu0,
          ih _ _ _ _ h r ys e hrest hupd, ← hlog]

/-- C2 counterexample: a whole-set convergence that converges one
metadata hostname (accumulating a create log line) and then fails on a
route hostname returns only the error — the accumulated log line is not
delivered to the caller. -/
theorem c2_counterexample : ¬ c2ClaimProp := by
  intro hc
  have h2 := hc "example.com" c2State c2Set
    (.http FAILED_DEPENDENCY (AwsDns.parseIpMsg "banana" "example.com" "z.example.com"))
    (by decide)
  exact absurd h2 (by decide)

/-- C2 (amended): whole-set convergence is fail-fast and its
`Result<String, Error>` signature discards the partial log on failure:
when the metadata partition succeeds, a prefix of the routes partition
succeeds and the next route entry fails with `e`, the caller receives
exactly `.error e` — an error value carrying none of the operation log
lines accumulated before the failure, which are precisely
`log1 ++ log2`. -/
theorem c2_error_drops_log (domain : String) (s : AwsDns.AwsState) (S : DnsRecordSet)
    (s1 : AwsDns.AwsState) (ops1 : List AwsDns.AwsOp) (log1 : List String)
    (xs : List (String × DnsRecord)) (h : String) (r : DnsRecord)
    (ys : List (String × DnsRecord)) (s2 : AwsDns.AwsState) (ops2 : List AwsDns.AwsOp)
    (log2 : List String) (e : Error)
    (hmeta : AwsDns.awsConvergeEntries domain true (DnsRecordSet.metadata S) s =
      .ok (s1, ops1, log1))
    (hroutes : DnsRecordSet.routes S = xs ++ (h, r) :: ys)
    (hpre : AwsDns.awsConvergeEntries domain false xs s1 = .ok (s2, ops2, log2))
    (hfail : AwsDns.update_dns_route domain h r Option.none (AwsDns.awsListing s2) =
      .error e) :
    AwsDns.update_dns_records domain s S = .error e ∧
    awsRecordsPrefixLog domain s S = log1 ++ log2 := by
  have hfail2 : (if false then AwsDns.update_dns_metadata else AwsDns.update_dns_route)
      domain h r Option.none (AwsDns.awsListing s2) = .error e := hfail
  have hentries := awsConvergeEntries_fail domain false xs s1 s2 ops2 log2 h r ys e
    hpre hfail2
  have hplog := awsPrefixLog_fail domain false xs s1 s2 ops2 log2 h r ys e hpre hfail2
  constructor
  · simp only [AwsDns.update_dns_records, hmeta, hroutes ▸ hentries]
  · simp only [awsRecordsPrefixLog, hmeta, hroutes, hplog]

/-- C2 witness: the amended behaviour at the concrete corrupt-record
scenario (one metadata line accumulated, then the route entry fails). -/
theorem c2_witness :
    (AwsDns.awsConvergeEntries "example.com" true (DnsRecordSet.metadata c2Set) c2State =
      .ok (⟨2, [(0, ⟨"z.example.com", AwsDns.RrType.a, ["banana"], 30, Option.none, false⟩),
                (1, ⟨"a.example.com", AwsDns.RrType.txt, ["\"x\""], 30, Option.none, false⟩)]⟩,
        [AwsDns.AwsOp.create ⟨Option.none, "a.example.com", ["\"x\""], 30, AwsDns.RrType.txt⟩],
        ["hostname a.example.com create record"])) ∧
    (AwsDns.update_dns_records "example.com" c2State c2Set =
      .error (.http FAILED_DEPENDENCY
        (AwsDns.parseIpMsg "banana" "example.com" "z.example.com")) ∧
      awsRecordsPrefixLog "example.com" c2State c2Set =
        ["hostname a.example.com create record"] ++ []) :=
  ⟨by decide,
    c2_error_drops_log "example.com" c2State c2Set
      ⟨2, [(0, ⟨"z.example.com", AwsDns.RrType.a, ["banana"], 30, Option.none, false⟩),
           (1, ⟨"a.example.com", AwsDns.RrType.txt, ["\"x\""], 30, Option.none, false⟩)]⟩
      [AwsDns.AwsOp.create ⟨Option.none, "a.example.com", ["\"x\""], 30, AwsDns.RrType.txt⟩]
      ["hostname a.example.com create record"]
      [] "z" (DnsRecord.new_a ipA) []
      ⟨2, [(0, ⟨"z.example.com", AwsDns.RrType.a, ["banana"], 30, Option.none, false⟩),
           (1, ⟨"a.example.com", AwsDns.RrType.txt, ["\"x\""], 30, Option.none, false⟩)]⟩
      [] []
      (.http FAILED_DEPENDENCY (AwsDns.parseIpMsg "banana" "example.com" "z.example.com"))
      (by decide) (by decide) (by decide) (by decide)⟩

/-- C10 witness: a Linode zone with a live CNAME and a live TXT at the
same hostname reads back with a single non-A record. -/
theorem c10_witness :
    LinodeDns.read_dns_records "example.com" c10Data = .ok [("h", DnsRecord.txt "token")] ∧
    DnsRecord.txt "token" = DnsRecord.txt "token" :=
  ⟨by decide,
    c10_read_single_non_a_per_hostname.2 "example.com" c10Data
      [("h", DnsRecord.txt "token")] (by decide) "h" (DnsRecord.txt "token")
      (DnsRecord.txt "token") (by decide) (by decide) rfl rfl⟩

/-! ### Claim C1: idempotence of whole-set convergence.

Helper lemmas about name normalisation, the zone state and the loops of
the update entry points, followed by the counterexample (a TXT entry is
deleted and recreated on every call) and the amended idempotence theorem
for backslash-free, TXT-free record sets whose affinity groups survive
the AWS region round trip. -/

/-- `replace052` leaves a backslash-free character list unchanged. -/
theorem replace052_id : ∀ cs : List Char, '\\' ∉ cs → AwsDns.replace052 cs = cs := by
  intro cs
  induction cs with
  | nil => intro _; rfl
  | cons c rest ih =>
    intro h
    have hc : c ≠ '\\' := by
      intro he; exact h (by rw [he]; exact List.mem_cons_self _ _)
    have hrest : '\\' ∉ rest := fun hm => h (List.mem_cons_of_mem _ hm)
    have hstep : AwsDns.replace052 (c :: rest) = c :: AwsDns.replace052 rest := by
      rw [AwsDns.replace052.eq_def]
      split
      all_goals rename_i heq
      · injection heq with h1 _
        exact absurd h1 hc
      · injection heq with h1 h2
        rw [← h1, ← h2]
      · exact absurd heq (List.cons_ne_nil c rest)
    rw [hstep, ih hrest]

/-- Listing a stored backslash-free name round-trips: `parse_name`
undoes the trailing-dot rendering. -/
theorem parse_name_roundtrip (n : String) (hb : noBackslash n) :
    AwsDns.parse_name (AwsDns.awsRenderName n) = n := by
  have hdata : (AwsDns.awsRenderName n).data = n.data ++ ['.'] := rfl
  have hnb : '\\' ∉ n.data ++ ['.'] := by
    intro hm
    rcases List.mem_append.mp hm with hm1 | hm2
    · exact hb hm1
    · simp at hm2
  unfold AwsDns.parse_name AwsDns.sans_trailing_dot
  rw [hdata, replace052_id _ hnb]
  rw [if_pos]
  · show (⟨(n.data ++ ['.']).dropLast⟩ : String) = n
    rw [List.dropLast_concat]
  · show (⟨n.data ++ ['.']⟩ : String).data.getLast? = some '.'
    exact List.getLast?_concat _

/-- `fully_qualified` of backslash-free names is backslash-free. -/
theorem noBackslash_fully_qualified (h domain : String) (hh : noBackslash h)
    (hd : noBackslash domain) : noBackslash (AwsDns.fully_qualified h domain) := by
  unfold AwsDns.fully_qualified
  split
  · exact hd
  · split
    · exact hh
    · intro hm
      have hdm : (h ++ "." ++ domain).data = h.data ++ ['.'] ++ domain.data := rfl
      rw [hdm] at hm
      rcases List.mem_append.mp hm with hm1 | hm2
      · rcases List.mem_append.mp hm1 with hm3 | hm4
        · exact hh hm3
        · simp at hm4
      · exact hd hm2

/-- Rendered IPs parse back to themselves, listwise. -/
theorem parseTargets_map_ipToString (d h : String) :
    ∀ l : List (IpAddr × Option CloudDatacenter),
    AwsDns.parseTargets (l.map (fun q => ipToString q.1)) d h = .ok (l.map Prod.fst) := by
  intro l
  induction l with
  | nil => rfl
  | cons q rest ih =>
    have hp : AwsDns.parse_ip (ipToString q.1) d h = .ok q.1 := by
      unfold AwsDns.parse_ip
      rw [parseIp_ipToString]
    simp only [List.map_cons, AwsDns.parseTargets, hp, ih]

/-- With unique IP keys, `lookupGeo` returns each pair's datacenter. -/
theorem lookupGeo_self (ipgeos : List (IpAddr × Option CloudDatacenter))
    (hk : (ipgeos.map Prod.fst).Nodup) :
    ∀ q ∈ ipgeos, AwsDns.lookupGeo ipgeos q.1 = some q.2 := by
  induction ipgeos with
  | nil => intro q hq; exact absurd hq (List.not_mem_nil q)
  | cons p rest ih =>
    rw [List.map_cons, List.nodup_cons] at hk
    intro q hq
    rcases List.mem_cons.mp hq with hq1 | hq2
    · subst hq1
      unfold AwsDns.lookupGeo
      rw [List.find?_cons_of_pos _ (by simp)]
      rfl
    · have hne : ¬(p.1 = q.1) := fun he =>
        hk.1 (he ▸ List.mem_map_of_mem Prod.fst hq2)
      have hskip : AwsDns.lookupGeo (p :: rest) q.1 = AwsDns.lookupGeo rest q.1 := by
        unfold AwsDns.lookupGeo
        rw [List.find?_cons_of_neg _ (by simp [hne])]
      rw [hskip]
      exact ih hk.2 q hq2

/-- Applying a concatenated operation list is sequential application. -/
theorem awsApplyOps_append (s : AwsDns.AwsState) (l1 l2 : List AwsDns.AwsOp) :
    AwsDns.awsApplyOps s (l1 ++ l2) =
      AwsDns.awsApplyOps (AwsDns.awsApplyOps s l1) l2 :=
  List.foldl_append _ _ _ _

/-- Every provider operation preserves well-formed ids. -/
theorem idsWF_applyOp (s : AwsDns.AwsState) (op : AwsDns.AwsOp)
    (h : AwsDns.idsWF s) : AwsDns.idsWF (AwsDns.awsApplyOp s op) := by
  obtain ⟨hb, hn⟩ := h
  cases op with
  | delete id =>
    refine ⟨?_, ?_⟩
    · intro p hp
      exact hb p (List.mem_of_mem_filter hp)
    · exact List.Nodup.sublist (List.Sublist.map _ (List.filter_sublist _)) hn
  | create r =>
    refine ⟨?_, ?_⟩
    · intro p hp
      rcases List.mem_append.mp hp with h1 | h2
      · exact Nat.lt_succ_of_lt (hb p (List.mem_of_mem_filter h1))
      · obtain rfl := List.mem_singleton.mp h2
        exact Nat.lt_succ_self _
    · show ((List.filter _ s.records ++ [(s.nextId, _)]).map Prod.fst).Nodup
      rw [List.map_append]
      refine List.Nodup.append ?_ (List.nodup_singleton _) ?_
      · exact List.Nodup.sublist (List.Sublist.map _ (List.filter_sublist _)) hn
      · intro a ha ha2
        rw [List.map_singleton, List.mem_singleton] at ha2
        subst ha2
        rcases List.mem_map.mp ha with ⟨p, hp, hfst⟩
        have hlt := hb p (List.mem_of_mem_filter hp)
        rw [hfst] at hlt
        exact Nat.lt_irrefl _ hlt

/-- Applying any operation list preserves well-formed ids. -/
theorem idsWF_applyOps (ops : List AwsDns.AwsOp) : ∀ s : AwsDns.AwsState,
    AwsDns.idsWF s → AwsDns.idsWF (AwsDns.awsApplyOps s ops) := by
  induction ops with
  | nil => intro s h; exact h
  | cons op rest ih => intro s h; exact ih _ (idsWF_applyOp s op h)

/-- Membership in the state after a batch of deletions. -/
theorem applyDeletes_mem (dels : List Nat) :
    ∀ (s : AwsDns.AwsState) (p : Nat × AwsDns.AwsWireRecord),
    p ∈ (AwsDns.awsApplyOps s (dels.map AwsDns.AwsOp.delete)).records ↔
      p ∈ s.records ∧ p.1 ∉ dels := by
  induction dels with
  | nil => intro s p; simp [AwsDns.awsApplyOps]
  | cons d rest ih =>
    intro s p
    rw [List.map_cons,
      show AwsDns.awsApplyOps s (AwsDns.AwsOp.delete d :: rest.map AwsDns.AwsOp.delete) =
        AwsDns.awsApplyOps (AwsDns.awsApplyOp s (AwsDns.AwsOp.delete d))
          (rest.map AwsDns.AwsOp.delete) from rfl, ih]
    constructor
    · rintro ⟨h1, h2⟩
      have h3 := List.mem_filter.mp h1
      refine ⟨h3.1, ?_⟩
      intro hm
      rcases List.mem_cons.mp hm with he | hm2
      · have h4 := h3.2
        simp only [decide_eq_true_eq] at h4
        exact h4 he
      · exact h2 hm2
    · rintro ⟨h1, h2⟩
      refine ⟨List.mem_filter.mpr ⟨h1, ?_⟩, fun hm => h2 (List.mem_cons_of_mem _ hm)⟩
      simp only [decide_eq_true_eq]
      exact fun he => h2 (he ▸ List.mem_cons_self _ _)

/-- Deletions do not touch the fresh-id counter. -/
theorem applyDeletes_nextId (dels : List Nat) : ∀ s : AwsDns.AwsState,
    (AwsDns.awsApplyOps s (dels.map AwsDns.AwsOp.delete)).nextId = s.nextId := by
  induction dels with
  | nil => intro s; rfl
  | cons d rest ih => intro s; exact ih _

/-- The fresh-id counter only grows under creations. -/
theorem applyCreates_nextId_le (creates : List AwsDns.ExtendedDnsRecord) :
    ∀ s : AwsDns.AwsState,
    s.nextId ≤ (AwsDns.awsApplyOps s (creates.map AwsDns.AwsOp.create)).nextId := by
  induction creates with
  | nil => intro s; exact Nat.le_refl _
  | cons c rest ih =>
    intro s
    exact Nat.le_trans (Nat.le_succ _) (ih (AwsDns.awsApplyOp s (.create c)))

/-- Forward classification of the records after a batch of creations:
a surviving original (mismatching every create's upsert key) or a fresh
record holding the wire form of one of the creates. -/
theorem applyCreates_mem_forward (creates : List AwsDns.ExtendedDnsRecord) :
    ∀ (s : AwsDns.AwsState) (p : Nat × AwsDns.AwsWireRecord),
    p ∈ (AwsDns.awsApplyOps s (creates.map AwsDns.AwsOp.create)).records →
    (p ∈ s.records ∧ ∀ c ∈ creates, ¬AwsDns.wireKeyMatch p.2 c) ∨
    (∃ c ∈ creates, p.2 = AwsDns.createWire c ∧ s.nextId ≤ p.1) := by
  induction creates with
  | nil => intro s p hp; exact Or.inl ⟨hp, by simp⟩
  | cons c rest ih =>
    intro s p hp
    rcases ih (AwsDns.awsApplyOp s (.create c)) p hp with ⟨hmem, hmis⟩ | ⟨c2, hc2, hw, hid⟩
    · rcases List.mem_append.mp hmem with h1 | h2
      · left
        have h3 := List.mem_filter.mp h1
        refine ⟨h3.1, ?_⟩
        intro c2 hc2m
        rcases List.mem_cons.mp hc2m with he | hm2
        · subst he
          have h4 := h3.2
          simp only [decide_eq_true_eq] at h4
          exact fun hk => h4 ⟨hk.1, hk.2.1, hk.2.2⟩
        · exact hmis c2 hm2
      · right
        obtain rfl := List.mem_singleton.mp h2
        exact ⟨c, List.mem_cons_self _ _, rfl, Nat.le_refl _⟩
    · right
      exact ⟨c2, List.mem_cons_of_mem _ hc2, hw, Nat.le_trans (Nat.le_succ _) hid⟩

/-- An original record whose upsert key matches no create survives a batch
of creations. -/
theorem applyCreates_keep (creates : List AwsDns.ExtendedDnsRecord) :
    ∀ (s : AwsDns.AwsState) (p : Nat × AwsDns.AwsWireRecord), p ∈ s.records →
    (∀ c ∈ creates, ¬AwsDns.wireKeyMatch p.2 c) →
    p ∈ (AwsDns.awsApplyOps s (creates.map AwsDns.AwsOp.create)).records := by
  induction creates with
  | nil => intro s p hp _; exact hp
  | cons c rest ih =>
    intro s p hp hmis
    refine ih _ p ?_ (fun c2 h2 => hmis c2 (List.mem_cons_of_mem _ h2))
    refine List.mem_append_left _ (List.mem_filter.mpr ⟨hp, ?_⟩)
    simp only [decide_eq_true_eq]
    exact fun hk => hmis c (List.mem_cons_self _ _) ⟨hk.1, hk.2.1, hk.2.2⟩

/-- Every create whose upsert key is unique within the batch leaves its
wire record present after the batch. -/
theorem applyCreates_present (creates : List AwsDns.ExtendedDnsRecord) :
    ∀ (s : AwsDns.AwsState) (c : AwsDns.ExtendedDnsRecord), c ∈ creates →
    (∀ c2 ∈ creates, AwsDns.wireKeyMatch (AwsDns.createWire c) c2 → c2 = c) →
    ∃ id, (id, AwsDns.createWire c) ∈
      (AwsDns.awsApplyOps s (creates.map AwsDns.AwsOp.create)).records := by
  induction creates with
  | nil => intro s c hc _; exact absurd hc (List.not_mem_nil c)
  | cons d rest ih =>
    intro s c hc huniq
    by_cases hcr : c ∈ rest
    · exact ih _ c hcr (fun c2 h2 hk => huniq c2 (List.mem_cons_of_mem _ h2) hk)
    · have hcd : c = d := by
        rcases List.mem_cons.mp hc with h | h
        · exact h
        · exact absurd h hcr
      subst hcd
      refine ⟨s.nextId, applyCreates_keep rest _ _ ?_ ?_⟩
      · exact List.mem_append_right _ (List.mem_singleton.mpr rfl)
      · intro c2 h2 hk
        exact hcr ((huniq c2 (List.mem_cons_of_mem _ h2) hk) ▸ h2)

/-- One operation preserves key-uniqueness of fresh records. -/
theorem freshKeyUnique_applyOp (n0 : Nat) (s : AwsDns.AwsState) (op : AwsDns.AwsOp)
    (h : AwsDns.freshKeyUnique n0 s) :
    AwsDns.freshKeyUnique n0 (AwsDns.awsApplyOp s op) := by
  cases op with
  | delete id =>
    intro p hp p2 hp2 h1 h2 hk
    exact h p (List.mem_of_mem_filter hp) p2 (List.mem_of_mem_filter hp2) h1 h2 hk
  | create r =>
    intro p hp p2 hp2 h1 h2 hk
    simp only [AwsDns.wireKey, Prod.mk.injEq] at hk
    rcases List.mem_append.mp hp with hpo | hpn
    · rcases List.mem_append.mp hp2 with hp2o | hp2n
      · exact h p (List.mem_of_mem_filter hpo) p2 (List.mem_of_mem_filter hp2o) h1 h2
          (by simp only [AwsDns.wireKey, Prod.mk.injEq]; exact hk)
      · obtain rfl := List.mem_singleton.mp hp2n
        have h3 := (List.mem_filter.mp hpo).2
        simp only [decide_eq_true_eq] at h3
        exact absurd ⟨hk.1, hk.2.1, hk.2.2⟩ h3
    · obtain rfl := List.mem_singleton.mp hpn
      rcases List.mem_append.mp hp2 with hp2o | hp2n
      · have h3 := (List.mem_filter.mp hp2o).2
        simp only [decide_eq_true_eq] at h3
        exact absurd ⟨hk.1.symm, hk.2.1.symm, hk.2.2.symm⟩ h3
      · exact (List.mem_singleton.mp hp2n).symm ▸ rfl

/-- Any operation list preserves key-uniqueness of fresh records. -/
theorem freshKeyUnique_applyOps (n0 : Nat) (ops : List AwsDns.AwsOp) :
    ∀ s : AwsDns.AwsState, AwsDns.freshKeyUnique n0 s →
    AwsDns.freshKeyUnique n0 (AwsDns.awsApplyOps s ops) := by
  induction ops with
  | nil => intro s h; exact h
  | cons op rest ih => intro s h; exact ih _ (freshKeyUnique_applyOp n0 s op h)

/-- In a well-formed state nothing is fresh, so fresh-key-uniqueness
holds vacuously at the current counter. -/
theorem idsWF_freshKeyUnique (s : AwsDns.AwsState) (h : AwsDns.idsWF s) :
    AwsDns.freshKeyUnique s.nextId s := by
  intro p hp p2 hp2 h1 _ _
  exact absurd (h.1 p hp) (Nat.not_lt.mpr h1)

/-- Listing membership in terms of the stored records. -/
theorem awsListing_mem (s : AwsDns.AwsState) (q : Nat × AwsDns.ExtendedDnsRecord) :
    q ∈ AwsDns.awsListing s ↔ ∃ w, (q.1, w) ∈ s.records ∧ w.aliasTarget = false ∧
      q.2 = AwsDns.wireToExtended w := by
  unfold AwsDns.awsListing
  constructor
  · intro hq
    rcases List.mem_map.mp hq with ⟨p, hp, he⟩
    have h2 := List.mem_filter.mp hp
    have hq1 : p.1 = q.1 := congrArg Prod.fst he
    have hq2 : AwsDns.wireToExtended p.2 = q.2 := congrArg Prod.snd he
    refine ⟨p.2, ?_, ?_, hq2.symm⟩
    · rw [← hq1]
      exact Prod.mk.eta ▸ h2.1
    · simpa using h2.2
  · rintro ⟨w, hw, ha, he⟩
    refine List.mem_map.mpr ⟨(q.1, w), List.mem_filter.mpr ⟨hw, by simp [ha]⟩, ?_⟩
    show (q.1, AwsDns.wireToExtended w) = q
    rw [← he]

/-- The listing of a well-formed state has pairwise distinct ids. -/
theorem awsListing_ids_nodup (s : AwsDns.AwsState) (h : AwsDns.idsWF s) :
    ((AwsDns.awsListing s).map Prod.fst).Nodup := by
  unfold AwsDns.awsListing
  rw [List.map_map]
  exact List.Nodup.sublist (List.Sublist.map _ (List.filter_sublist _)) h.2

/-- Membership in the per-hostname listing. -/
theorem fqListing_mem (s : AwsDns.AwsState) (fq : String)
    (q : Nat × AwsDns.ExtendedDnsRecord) :
    q ∈ AwsDns.fqListing s fq ↔ q ∈ AwsDns.awsListing s ∧ q.2.name = fq := by
  unfold AwsDns.fqListing
  rw [List.mem_filter]
  simp only [decide_eq_true_eq]

/-- The per-hostname listing of a well-formed state has pairwise distinct
ids. -/
theorem fqListing_ids_nodup (s : AwsDns.AwsState) (fq : String)
    (h : AwsDns.idsWF s) : ((AwsDns.fqListing s fq).map Prod.fst).Nodup := by
  unfold AwsDns.fqListing
  exact List.Nodup.sublist (List.Sublist.map _ (List.filter_sublist _))
    (awsListing_ids_nodup s h)

/-- The per-hostname listing of a well-formed state has no duplicate
entries. -/
theorem fqListing_nodup (s : AwsDns.AwsState) (fq : String)
    (h : AwsDns.idsWF s) : (AwsDns.fqListing s fq).Nodup :=
  List.Nodup.of_map _ (fqListing_ids_nodup s fq h)

/-- Classification soundness of the `upsert_a_record` loop: CNAMEs are
removed; a kept A record parses to IPs that are desired with exactly its
datacenter, covers its datacenter completely, and claims only fresh IPs;
the found set is exactly the IPs of the kept records; removals come from
the input; kept records claim pairwise disjoint IPs. -/
theorem upsert_loop_sound (domain fq : String)
    (ipgeos : List (IpAddr × Option CloudDatacenter)) :
    ∀ (rs : List (Nat × AwsDns.ExtendedDnsRecord)) (acc res : AwsDns.UpsertAcc),
    AwsDns.upsert_loop domain fq ipgeos rs acc = .ok res →
    (rs.map Prod.fst).Nodup →
    (∀ p ∈ rs, p.1 ∉ acc.removals) →
    (∀ p ∈ rs, p.2.record_type = AwsDns.RrType.cname → p.1 ∈ res.removals) ∧
    (∀ p ∈ rs, p.2.record_type = AwsDns.RrType.a → p.1 ∉ res.removals →
      ∃ ips, AwsDns.parseTargets p.2.targets domain fq = .ok ips ∧
        (∀ ip ∈ ips, AwsDns.lookupGeo ipgeos ip = some p.2.datacenter) ∧
        (∀ q ∈ ipgeos, q.2 = p.2.datacenter → q.1 ∈ ips) ∧
        (∀ ip ∈ ips, ip ∈ res.found) ∧ (∀ ip ∈ ips, ip ∉ acc.found)) ∧
    (∀ ip ∈ res.found, ip ∈ acc.found ∨ ∃ p ∈ rs,
      p.2.record_type = AwsDns.RrType.a ∧ p.1 ∉ res.removals ∧
      ∃ ips, AwsDns.parseTargets p.2.targets domain fq = .ok ips ∧ ip ∈ ips) ∧
    (∀ ip ∈ acc.found, ip ∈ res.found) ∧
    (∀ id ∈ acc.removals, id ∈ res.removals) ∧
    (∀ id ∈ res.removals, id ∈ acc.removals ∨ ∃ r, (id, r) ∈ rs) ∧
    (∀ p ∈ rs, ∀ p2 ∈ rs, p.1 ≠ p2.1 → p.2.record_type = AwsDns.RrType.a →
      p2.2.record_type = AwsDns.RrType.a → p.1 ∉ res.removals → p2.1 ∉ res.removals →
      ∀ ips ips2, AwsDns.parseTargets p.2.targets domain fq = .ok ips →
        AwsDns.parseTargets p2.2.targets domain fq = .ok ips2 →
        ∀ ip ∈ ips, ip ∉ ips2) := by
  intro rs
  induction rs with
  | nil =>
    intro acc res hok _ _
    obtain rfl : acc = res := Except.ok.inj hok
    exact ⟨by simp, by simp, fun ip hip => Or.inl hip, fun ip h => h, fun id h => h,
      fun id hid => Or.inl hid, by simp⟩
  | cons p rest ih =>
    intro acc res hok hnd hfr
    obtain ⟨id0, r0⟩ := p
    rw [List.map_cons, List.nodup_cons] at hnd
    cases hrt : r0.record_type with
    | a =>
      simp only [AwsDns.upsert_loop, hrt] at hok
      cases hpt : AwsDns.parseTargets r0.targets domain fq with
      | error e => simp only [hpt] at hok; exact Except.noConfusion hok
      | ok ips0 =>
        simp only [hpt] at hok
        by_cases hc : (∀ ip ∈ ips0, AwsDns.lookupGeo ipgeos ip = some r0.datacenter ∧
            ip ∉ acc.found) ∧ (∀ q ∈ ipgeos, q.2 = r0.datacenter → q.1 ∈ ips0)
        · rw [if_pos hc] at hok
          have hfr' : ∀ q ∈ rest,
              q.1 ∉ (⟨acc.removals, acc.found ++ ips0⟩ : AwsDns.UpsertAcc).removals :=
            fun q hq => hfr q (List.mem_cons_of_mem _ hq)
          obtain ⟨i1, i2, i3, i4, i5, i6, i7⟩ := ih _ res hok hnd.2 hfr'
          have hid0nr : id0 ∉ res.removals := by
            intro hmem
            rcases i6 id0 hmem with h1 | ⟨r2, hr2⟩
            · exact hfr (id0, r0) (List.mem_cons_self _ _) h1
            · exact hnd.1 (show id0 ∈ List.map Prod.fst rest from
                List.mem_map_of_mem Prod.fst hr2)
          refine ⟨?_, ?_, ?_, ?_, ?_, ?_, ?_⟩
          · intro q hq hcn
            rcases List.mem_cons.mp hq with rfl | hq2
            · exact absurd (hrt.symm.trans hcn) (by decide)
            · exact i1 q hq2 hcn
          · intro q hq hat hnr
            rcases List.mem_cons.mp hq with rfl | hq2
            · exact ⟨ips0, hpt, fun ip hip => (hc.1 ip hip).1, hc.2,
                fun ip hip => i4 ip (List.mem_append_right _ hip),
                fun ip hip => (hc.1 ip hip).2⟩
            · obtain ⟨ips, hp, hl, hcm, hf, hna⟩ := i2 q hq2 hat hnr
              exact ⟨ips, hp, hl, hcm, hf,
                fun ip hip hm => hna ip hip (List.mem_append_left _ hm)⟩
          · intro ip hip
            rcases i3 ip hip with ha | ⟨q, hq, hat, hnr, ips, hp, hip2⟩
            · rcases List.mem_append.mp ha with h1 | h2
              · exact Or.inl h1
              · exact Or.inr ⟨(id0, r0), List.mem_cons_self _ _, hrt, hid0nr, ips0, hpt, h2⟩
            · exact Or.inr ⟨q, List.mem_cons_of_mem _ hq, hat, hnr, ips, hp, hip2⟩
          · exact fun ip hm => i4 ip (List.mem_append_left _ hm)
          · exact i5
          · intro idq hm
            rcases i6 idq hm with h1 | ⟨r2, hr2⟩
            · exact Or.inl h1
            · exact Or.inr ⟨r2, List.mem_cons_of_mem _ hr2⟩
          · intro q hq q2 hq2 hne hat hat2 hnr hnr2 ips ips2 hp hp2 ip hip hip2
            rcases List.mem_cons.mp hq with rfl | hqr
            · rcases List.mem_cons.mp hq2 with heq2 | hq2r
              · exact hne (congrArg Prod.fst heq2.symm)
              · obtain rfl : ips0 = ips := Except.ok.inj (hpt.symm.trans hp)
                obtain ⟨ips2x, hp2x, _, _, _, hna2⟩ := i2 q2 hq2r hat2 hnr2
                obtain rfl : ips2x = ips2 := Except.ok.inj (hp2x.symm.trans hp2)
                exact hna2 ip hip2 (List.mem_append_right _ hip)
            · rcases List.mem_cons.mp hq2 with rfl | hq2r
              · obtain rfl : ips0 = ips2 := Except.ok.inj (hpt.symm.trans hp2)
                obtain ⟨ipsx, hpx, _, _, _, hna⟩ := i2 q hqr hat hnr
                obtain rfl : ipsx = ips := Except.ok.inj (hpx.symm.trans hp)
                exact hna ip hip (List.mem_append_right _ hip2)
              · exact i7 q hqr q2 hq2r hne hat hat2 hnr hnr2 ips ips2 hp hp2 ip hip hip2
        · rw [if_neg hc] at hok
          have hfr' : ∀ q ∈ rest,
              q.1 ∉ (⟨acc.removals ++ [id0], acc.found⟩ : AwsDns.UpsertAcc).removals := by
            intro q hq hm
            rcases List.mem_append.mp hm with h1 | h2
            · exact hfr q (List.mem_cons_of_mem _ hq) h1
            · have hmm := List.mem_map_of_mem Prod.fst hq
              rw [List.mem_singleton.mp h2] at hmm
              exact hnd.1 hmm
          obtain ⟨i1, i2, i3, i4, i5, i6, i7⟩ := ih _ res hok hnd.2 hfr'
          have hid0r : id0 ∈ res.removals :=
            i5 id0 (List.mem_append_right _ (List.mem_singleton.mpr rfl))
          refine ⟨?_, ?_, ?_, i4, ?_, ?_, ?_⟩
          · intro q hq hcn
            rcases List.mem_cons.mp hq with rfl | hq2
            · exact absurd (hrt.symm.trans hcn) (by decide)
            · exact i1 q hq2 hcn
          · intro q hq hat hnr
            rcases List.mem_cons.mp hq with rfl | hq2
            · exact absurd hid0r hnr
            · exact i2 q hq2 hat hnr
          · intro ip hip
            rcases i3 ip hip with ha | ⟨q, hq, hat, hnr, ips, hp, hip2⟩
            · exact Or.inl ha
            · exact Or.inr ⟨q, List.mem_cons_of_mem _ hq, hat, hnr, ips, hp, hip2⟩
          · exact fun id hm => i5 id (List.mem_append_left _ hm)
          · intro idq hm
            rcases i6 idq hm with h1 | ⟨r2, hr2⟩
            · rcases List.mem_append.mp h1 with h3 | h4
              · exact Or.inl h3
              · exact Or.inr ⟨r0, (List.mem_singleton.mp h4) ▸ List.mem_cons_self _ _⟩
            · exact Or.inr ⟨r2, List.mem_cons_of_mem _ hr2⟩
          · intro q hq q2 hq2 hne hat hat2 hnr hnr2 ips ips2 hp hp2 ip hip hip2
            rcases List.mem_cons.mp hq with rfl | hqr
            · exact absurd hid0r hnr
            · rcases List.mem_cons.mp hq2 with rfl | hq2r
              · exact absurd hid0r hnr2
              · exact i7 q hqr q2 hq2r hne hat hat2 hnr hnr2 ips ips2 hp hp2 ip hip hip2
    | cname =>
      simp only [AwsDns.upsert_loop, hrt] at hok
      have hfr' : ∀ q ∈ rest,
          q.1 ∉ (⟨acc.removals ++ [id0], acc.found⟩ : AwsDns.UpsertAcc).removals := by
        intro q hq hm
        rcases List.mem_append.mp hm with h1 | h2
        · exact hfr q (List.mem_cons_of_mem _ hq) h1
        · have hmm := List.mem_map_of_mem Prod.fst hq
          rw [List.mem_singleton.mp h2] at hmm
          exact hnd.1 hmm
      obtain ⟨i1, i2, i3, i4, i5, i6, i7⟩ := ih _ res hok hnd.2 hfr'
      have hid0r : id0 ∈ res.removals :=
        i5 id0 (List.mem_append_right _ (List.mem_singleton.mpr rfl))
      refine ⟨?_, ?_, ?_, i4, ?_, ?_, ?_⟩
      · intro q hq hcn
        rcases List.mem_cons.mp hq with rfl | hq2
        · exact hid0r
        · exact i1 q hq2 hcn
      · intro q hq hat hnr
        rcases List.mem_cons.mp hq with rfl | hq2
        · exact absurd (hrt.symm.trans hat) (by decide)
        · exact i2 q hq2 hat hnr
      · intro ip hip
        rcases i3 ip hip with ha | ⟨q, hq, hat, hnr, ips, hp, hip2⟩
        · exact Or.inl ha
        · exact Or.inr ⟨q, List.mem_cons_of_mem _ hq, hat, hnr, ips, hp, hip2⟩
      · exact fun id hm => i5 id (List.mem_append_left _ hm)
      · intro idq hm
        rcases i6 idq hm with h1 | ⟨r2, hr2⟩
        · rcases List.mem_append.mp h1 with h3 | h4
          · exact Or.inl h3
          · exact Or.inr ⟨r0, (List.mem_singleton.mp h4) ▸ List.mem_cons_self _ _⟩
        · exact Or.inr ⟨r2, List.mem_cons_of_mem _ hr2⟩
      · intro q hq q2 hq2 hne hat hat2 hnr hnr2 ips ips2 hp hp2 ip hip hip2
        rcases List.mem_cons.mp hq with rfl | hqr
        · exact absurd (hrt.symm.trans hat) (by decide)
        · rcases List.mem_cons.mp hq2 with rfl | hq2r
          · exact absurd (hrt.symm.trans hat2) (by decide)
          · exact i7 q hqr q2 hq2r hne hat hat2 hnr hnr2 ips ips2 hp hp2 ip hip hip2
    | txt =>
      simp only [AwsDns.upsert_loop, hrt] at hok
      obtain ⟨i1, i2, i3, i4, i5, i6, i7⟩ := ih _ res hok hnd.2
        (fun q hq => hfr q (List.mem_cons_of_mem _ hq))
      refine ⟨?_, ?_, ?_, i4, i5, ?_, ?_⟩
      · intro q hq hcn
        rcases List.mem_cons.mp hq with rfl | hq2
        · exact absurd (hrt.symm.trans hcn) (by decide)
        · exact i1 q hq2 hcn
      · intro q hq hat hnr
        rcases List.mem_cons.mp hq with rfl | hq2
        · exact absurd (hrt.symm.trans hat) (by decide)
        · exact i2 q hq2 hat hnr
      · intro ip hip
        rcases i3 ip hip with ha | ⟨q, hq, hat, hnr, ips, hp, hip2⟩
        · exact Or.inl ha
        · exact Or.inr ⟨q, List.mem_cons_of_mem _ hq, hat, hnr, ips, hp, hip2⟩
      · intro idq hm
        rcases i6 idq hm with h1 | ⟨r2, hr2⟩
        · exact Or.inl h1
        · exact Or.inr ⟨r2, List.mem_cons_of_mem _ hr2⟩
      · intro q hq q2 hq2 hne hat hat2 hnr hnr2 ips ips2 hp hp2 ip hip hip2
        rcases List.mem_cons.mp hq with rfl | hqr
        · exact absurd (hrt.symm.trans hat) (by decide)
        · rcases List.mem_cons.mp hq2 with rfl | hq2r
          · exact absurd (hrt.symm.trans hat2) (by decide)
          · exact i7 q hqr q2 hq2r hne hat hat2 hnr hnr2 ips ips2 hp hp2 ip hip hip2
    | mx =>
      simp only [AwsDns.upsert_loop, hrt] at hok
      obtain ⟨i1, i2, i3, i4, i5, i6, i7⟩ := ih _ res hok hnd.2
        (fun q hq => hfr q (List.mem_cons_of_mem _ hq))
      refine ⟨?_, ?_, ?_, i4, i5, ?_, ?_⟩
      · intro q hq hcn
        rcases List.mem_cons.mp hq with rfl | hq2
        · exact absurd (hrt.symm.trans hcn) (by decide)
        · exact i1 q hq2 hcn
      · intro q hq hat hnr
        rcases List.mem_cons.mp hq with rfl | hq2
        · exact absurd (hrt.symm.trans hat) (by decide)
        · exact i2 q hq2 hat hnr
      · intro ip hip
        rcases i3 ip hip with ha | ⟨q, hq, hat, hnr, ips, hp, hip2⟩
        · exact Or.inl ha
        · exact Or.inr ⟨q, List.mem_cons_of_mem _ hq, hat, hnr, ips, hp, hip2⟩
      · intro idq hm
        rcases i6 idq hm with h1 | ⟨r2, hr2⟩
        · exact Or.inl h1
        · exact Or.inr ⟨r2, List.mem_cons_of_mem _ hr2⟩
      · intro q hq q2 hq2 hne hat hat2 hnr hnr2 ips ips2 hp hp2 ip hip hip2
        rcases List.mem_cons.mp hq with rfl | hqr
        · exact absurd (hrt.symm.trans hat) (by decide)
        · rcases List.mem_cons.mp hq2 with rfl | hq2r
          · exact absurd (hrt.symm.trans hat2) (by decide)
          · exact i7 q hqr q2 hq2r hne hat hat2 hnr hnr2 ips ips2 hp hp2 ip hip hip2
    | srv =>
      simp only [AwsDns.upsert_loop, hrt] at hok
      obtain ⟨i1, i2, i3, i4, i5, i6, i7⟩ := ih _ res hok hnd.2
        (fun q hq => hfr q (List.mem_cons_of_mem _ hq))
      refine ⟨?_, ?_, ?_, i4, i5, ?_, ?_⟩
      · intro q hq hcn
        rcases List.mem_cons.mp hq with rfl | hq2
        · exact absurd (hrt.symm.trans hcn) (by decide)
        · exact i1 q hq2 hcn
      · intro q hq hat hnr
        rcases List.mem_cons.mp hq with rfl | hq2
        · exact absurd (hrt.symm.trans hat) (by decide)
        · exact i2 q hq2 hat hnr
      · intro ip hip
        rcases i3 ip hip with ha | ⟨q, hq, hat, hnr, ips, hp, hip2⟩
        · exact Or.inl ha
        · exact Or.inr ⟨q, List.mem_cons_of_mem _ hq, hat, hnr, ips, hp, hip2⟩
      · intro idq hm
        rcases i6 idq hm with h1 | ⟨r2, hr2⟩
        · exact Or.inl h1
        · exact Or.inr ⟨r2, List.mem_cons_of_mem _ hr2⟩
      · intro q hq q2 hq2 hne hat hat2 hnr hnr2 ips ips2 hp hp2 ip hip hip2
        rcases List.mem_cons.mp hq with rfl | hqr
        · exact absurd (hrt.symm.trans hat) (by decide)
        · rcases List.mem_cons.mp hq2 with rfl | hq2r
          · exact absurd (hrt.symm.trans hat2) (by decide)
          · exact i7 q hqr q2 hq2r hne hat hat2 hnr hnr2 ips ips2 hp hp2 ip hip hip2
    | other =>
      simp only [AwsDns.upsert_loop, hrt] at hok
      obtain ⟨i1, i2, i3, i4, i5, i6, i7⟩ := ih _ res hok hnd.2
        (fun q hq => hfr q (List.mem_cons_of_mem _ hq))
      refine ⟨?_, ?_, ?_, i4, i5, ?_, ?_⟩
      · intro q hq hcn
        rcases List.mem_cons.mp hq with rfl | hq2
        · exact absurd (hrt.symm.trans hcn) (by decide)
        · exact i1 q hq2 hcn
      · intro q hq hat hnr
        rcases List.mem_cons.mp hq with rfl | hq2
        · exact absurd (hrt.symm.trans hat) (by decide)
        · exact i2 q hq2 hat hnr
      · intro ip hip
        rcases i3 ip hip with ha | ⟨q, hq, hat, hnr, ips, hp, hip2⟩
        · exact Or.inl ha
        · exact Or.inr ⟨q, List.mem_cons_of_mem _ hq, hat, hnr, ips, hp, hip2⟩
      · intro idq hm
        rcases i6 idq hm with h1 | ⟨r2, hr2⟩
        · exact Or.inl h1
        · exact Or.inr ⟨r2, List.mem_cons_of_mem _ hr2⟩
      · intro q hq q2 hq2 hne hat hat2 hnr hnr2 ips ips2 hp hp2 ip hip hip2
        rcases List.mem_cons.mp hq with rfl | hqr
        · exact absurd (hrt.symm.trans hat) (by decide)
        · rcases List.mem_cons.mp hq2 with rfl | hq2r
          · exact absurd (hrt.symm.trans hat2) (by decide)
          · exact i7 q hqr q2 hq2r hne hat hat2 hnr hnr2 ips ips2 hp hp2 ip hip hip2

/-- On a converged listing the classification loop removes nothing and
finds exactly the listed IPs. -/
theorem upsert_loop_noop (domain fq : String)
    (ipgeos : List (IpAddr × Option CloudDatacenter)) (rem0 : List Nat) :
    ∀ (rs : List (Nat × AwsDns.ExtendedDnsRecord)) (found : List IpAddr),
    (rs.map Prod.fst).Nodup →
    (∀ p ∈ rs, p.2.record_type ≠ AwsDns.RrType.cname) →
    (∀ p ∈ rs, p.2.record_type = AwsDns.RrType.a → ∃ ips,
      AwsDns.parseTargets p.2.targets domain fq = .ok ips ∧
      (∀ ip ∈ ips, AwsDns.lookupGeo ipgeos ip = some p.2.datacenter ∧ ip ∉ found) ∧
      (∀ q ∈ ipgeos, q.2 = p.2.datacenter → q.1 ∈ ips)) →
    (∀ p ∈ rs, ∀ p2 ∈ rs, p.1 ≠ p2.1 → p.2.record_type = AwsDns.RrType.a →
      p2.2.record_type = AwsDns.RrType.a → ∀ ips ips2,
      AwsDns.parseTargets p.2.targets domain fq = .ok ips →
      AwsDns.parseTargets p2.2.targets domain fq = .ok ips2 → ∀ ip ∈ ips, ip ∉ ips2) →
    ∃ found2, AwsDns.upsert_loop domain fq ipgeos rs ⟨rem0, found⟩ = .ok ⟨rem0, found2⟩ ∧
      ∀ ip, ip ∈ found2 ↔ (ip ∈ found ∨ ∃ p ∈ rs,
        p.2.record_type = AwsDns.RrType.a ∧
        ∃ ips, AwsDns.parseTargets p.2.targets domain fq = .ok ips ∧ ip ∈ ips) := by
  intro rs
  induction rs with
  | nil =>
    intro found _ _ _ _
    refine ⟨found, rfl, fun ip => ⟨Or.inl, ?_⟩⟩
    rintro (h | ⟨p, hp, _⟩)
    · exact h
    · exact absurd hp (List.not_mem_nil p)
  | cons p rest ih =>
    intro found hnd hnc hP hdisj
    obtain ⟨id0, r0⟩ := p
    rw [List.map_cons, List.nodup_cons] at hnd
    cases hrt : r0.record_type with
    | cname => exact absurd hrt (hnc (id0, r0) (List.mem_cons_self _ _))
    | a =>
      obtain ⟨ips0, hpt, hcond1, hcond2⟩ := hP (id0, r0) (List.mem_cons_self _ _) hrt
      have hP' : ∀ p ∈ rest, p.2.record_type = AwsDns.RrType.a → ∃ ips,
          AwsDns.parseTargets p.2.targets domain fq = .ok ips ∧
          (∀ ip ∈ ips, AwsDns.lookupGeo ipgeos ip = some p.2.datacenter ∧
            ip ∉ found ++ ips0) ∧
          (∀ q ∈ ipgeos, q.2 = p.2.datacenter → q.1 ∈ ips) := by
        intro q hq hat
        obtain ⟨ips, hp, h1, h2⟩ := hP q (List.mem_cons_of_mem _ hq) hat
        refine ⟨ips, hp, ?_, h2⟩
        intro ip hip
        refine ⟨(h1 ip hip).1, ?_⟩
        intro hm
        rcases List.mem_append.mp hm with hm1 | hm2
        · exact (h1 ip hip).2 hm1
        · have hne : q.1 ≠ id0 := by
            intro he
            have hmm := List.mem_map_of_mem Prod.fst hq
            rw [he] at hmm
            exact hnd.1 hmm
          exact hdisj q (List.mem_cons_of_mem _ hq) (id0, r0) (List.mem_cons_self _ _)
            hne hat hrt ips ips0 hp hpt ip hip hm2
      have hdisj' : ∀ p ∈ rest, ∀ p2 ∈ rest, p.1 ≠ p2.1 →
          p.2.record_type = AwsDns.RrType.a → p2.2.record_type = AwsDns.RrType.a →
          ∀ ips ips2, AwsDns.parseTargets p.2.targets domain fq = .ok ips →
          AwsDns.parseTargets p2.2.targets domain fq = .ok ips2 →
          ∀ ip ∈ ips, ip ∉ ips2 :=
        fun q hq q2 hq2 => hdisj q (List.mem_cons_of_mem _ hq) q2 (List.mem_cons_of_mem _ hq2)
      obtain ⟨found2, heq, hchar⟩ := ih (found ++ ips0) hnd.2
        (fun q hq => hnc q (List.mem_cons_of_mem _ hq)) hP' hdisj'
      refine ⟨found2, ?_, ?_⟩
      · simp only [AwsDns.upsert_loop, hrt, hpt]
        rw [if_pos ⟨hcond1, hcond2⟩]
        exact heq
      · intro ip
        constructor
        · intro h
          rcases (hchar ip).mp h with hf | ⟨q, hq, hat, ips, hpp, hip⟩
          · rcases List.mem_append.mp hf with h1 | h2
            · exact Or.inl h1
            · exact Or.inr ⟨(id0, r0), List.mem_cons_self _ _, hrt, ips0, hpt, h2⟩
          · exact Or.inr ⟨q, List.mem_cons_of_mem _ hq, hat, ips, hpp, hip⟩
        · intro h
          rcases h with h1 | ⟨q, hq, hat, ips, hpp, hip⟩
          · exact (hchar ip).mpr (Or.inl (List.mem_append_left _ h1))
          · rcases List.mem_cons.mp hq with rfl | hq2
            · obtain rfl : ips0 = ips := Except.ok.inj (hpt.symm.trans hpp)
              exact (hchar ip).mpr (Or.inl (List.mem_append_right _ hip))
            · exact (hchar ip).mpr (Or.inr ⟨q, hq2, hat, ips, hpp, hip⟩)
    | txt =>
      obtain ⟨found2, heq, hchar⟩ := ih found hnd.2
        (fun q hq => hnc q (List.mem_cons_of_mem _ hq))
        (fun q hq => hP q (List.mem_cons_of_mem _ hq))
        (fun q hq q2 hq2 => hdisj q (List.mem_cons_of_mem _ hq) q2
          (List.mem_cons_of_mem _ hq2))
      refine ⟨found2, by simp only [AwsDns.upsert_loop, hrt]; exact heq, ?_⟩
      intro ip
      rw [hchar ip]
      constructor
      · rintro (h1 | ⟨q, hq, hat, ips, hpp, hip⟩)
        · exact Or.inl h1
        · exact Or.inr ⟨q, List.mem_cons_of_mem _ hq, hat, ips, hpp, hip⟩
      · rintro (h1 | ⟨q, hq, hat, ips, hpp, hip⟩)
        · exact Or.inl h1
        · rcases List.mem_cons.mp hq with rfl | hq2
          · exact absurd (hrt.symm.trans hat) (by decide)
          · exact Or.inr ⟨q, hq2, hat, ips, hpp, hip⟩
    | mx =>
      obtain ⟨found2, heq, hchar⟩ := ih found hnd.2
        (fun q hq => hnc q (List.mem_cons_of_mem _ hq))
        (fun q hq => hP q (List.mem_cons_of_mem _ hq))
        (fun q hq q2 hq2 => hdisj q (List.mem_cons_of_mem _ hq) q2
          (List.mem_cons_of_mem _ hq2))
      refine ⟨found2, by simp only [AwsDns.upsert_loop, hrt]; exact heq, ?_⟩
      intro ip
      rw [hchar ip]
      constructor
      · rintro (h1 | ⟨q, hq, hat, ips, hpp, hip⟩)
        · exact Or.inl h1
        · exact Or.inr ⟨q, List.mem_cons_of_mem _ hq, hat, ips, hpp, hip⟩
      · rintro (h1 | ⟨q, hq, hat, ips, hpp, hip⟩)
        · exact Or.inl h1
        · rcases List.mem_cons.mp hq with rfl | hq2
          · exact absurd (hrt.symm.trans hat) (by decide)
          · exact Or.inr ⟨q, hq2, hat, ips, hpp, hip⟩
    | srv =>
      obtain ⟨found2, heq, hchar⟩ := ih found hnd.2
        (fun q hq => hnc q (List.mem_cons_of_mem _ hq))
        (fun q hq => hP q (List.mem_cons_of_mem _ hq))
        (fun q hq q2 hq2 => hdisj q (List.mem_cons_of_mem _ hq) q2
          (List.mem_cons_of_mem _ hq2))
      refine ⟨found2, by simp only [AwsDns.upsert_loop, hrt]; exact heq, ?_⟩
      intro ip
      rw [hchar ip]
      constructor
      · rintro (h1 | ⟨q, hq, hat, ips, hpp, hip⟩)
        · exact Or.inl h1
        · exact Or.inr ⟨q, List.mem_cons_of_mem _ hq, hat, ips, hpp, hip⟩
      · rintro (h1 | ⟨q, hq, hat, ips, hpp, hip⟩)
        · exact Or.inl h1
        · rcases List.mem_cons.mp hq with rfl | hq2
          · exact absurd (hrt.symm.trans hat) (by decide)
          · exact Or.inr ⟨q, hq2, hat, ips, hpp, hip⟩
    | other =>
      obtain ⟨found2, heq, hchar⟩ := ih found hnd.2
        (fun q hq => hnc q (List.mem_cons_of_mem _ hq))
        (fun q hq => hP q (List.mem_cons_of_mem _ hq))
        (fun q hq q2 hq2 => hdisj q (List.mem_cons_of_mem _ hq) q2
          (List.mem_cons_of_mem _ hq2))
      refine ⟨found2, by simp only [AwsDns.upsert_loop, hrt]; exact heq, ?_⟩
      intro ip
      rw [hchar ip]
      constructor
      · rintro (h1 | ⟨q, hq, hat, ips, hpp, hip⟩)
        · exact Or.inl h1
        · exact Or.inr ⟨q, List.mem_cons_of_mem _ hq, hat, ips, hpp, hip⟩
      · rintro (h1 | ⟨q, hq, hat, ips, hpp, hip⟩)
        · exact Or.inl h1
        · rcases List.mem_cons.mp hq with rfl | hq2
          · exact absurd (hrt.symm.trans hat) (by decide)
          · exact Or.inr ⟨q, hq2, hat, ips, hpp, hip⟩

/-- `entryPush` either extends the unique existing entry of the
datacenter in place or appends a fresh entry. -/
theorem entryPush_spec (dc : Option CloudDatacenter) (t fq : String) (ttl : Nat) :
    ∀ adds : List (Option CloudDatacenter × AwsDns.ExtendedDnsRecord),
    (∃ hd r tl, adds = hd ++ (dc, r) :: tl ∧ (∀ q ∈ hd, q.1 ≠ dc) ∧
      AwsDns.entryPush dc t fq ttl adds =
        hd ++ (dc, { r with targets := r.targets ++ [t] }) :: tl) ∨
    ((∀ q ∈ adds, q.1 ≠ dc) ∧
      AwsDns.entryPush dc t fq ttl adds = adds ++ [(dc, ⟨dc, fq, [t], ttl, .a⟩)]) := by
  intro adds
  induction adds with
  | nil => right; exact ⟨by simp, rfl⟩
  | cons kr rest ih =>
    obtain ⟨k, r⟩ := kr
    by_cases hk : k = dc
    · subst hk
      left
      refine ⟨[], r, rest, rfl, by simp, ?_⟩
      simp only [AwsDns.entryPush, if_pos rfl]
      rfl
    · rcases ih with ⟨hd, r2, tl, heq, hhd, hpush⟩ | ⟨hall, hpush⟩
      · left
        refine ⟨(k, r) :: hd, r2, tl, by rw [heq]; rfl, ?_, ?_⟩
        · intro q hq
          rcases List.mem_cons.mp hq with rfl | hq2
          · exact hk
          · exact hhd q hq2
        · simp only [AwsDns.entryPush, if_neg hk]
          rw [hpush]
          rfl
      · right
        refine ⟨?_, ?_⟩
        · intro q hq
          rcases List.mem_cons.mp hq with rfl | hq2
          · exact hk
          · exact hall q hq2
        · simp only [AwsDns.entryPush, if_neg hk]
          rw [hpush]
          rfl

/-- A desired pair whose IP is already covered leaves the accumulation
invariant untouched. -/
theorem addsInv_extend_found (fq : String) (ttl : Nat) (found : List IpAddr)
    (processed : List (IpAddr × Option CloudDatacenter))
    (adds : List (Option CloudDatacenter × AwsDns.ExtendedDnsRecord))
    (ip : IpAddr) (dc : Option CloudDatacenter) (hf : ip ∈ found)
    (hinv : AwsDns.addsInv fq ttl found processed adds) :
    AwsDns.addsInv fq ttl found (processed ++ [(ip, dc)]) adds := by
  obtain ⟨h1, h2, h3, h4⟩ := hinv
  have hsing : ∀ g : Option CloudDatacenter,
      ([((ip, dc) : IpAddr × Option CloudDatacenter)].filter
        (fun q => q.1 ∉ found ∧ q.2 = g)) = [] := by
    intro g
    simp [hf]
  refine ⟨h1, ?_, ?_, ?_⟩
  · intro gr hgr
    obtain ⟨g1, g2, g3, g4, g5⟩ := h2 gr hgr
    refine ⟨g1, g2, g3, g4, ?_⟩
    rw [List.filter_append, hsing gr.1, List.append_nil]
    exact g5
  · intro q hq hnf
    rcases List.mem_append.mp hq with hq1 | hq2
    · exact h3 q hq1 hnf
    · obtain rfl := List.mem_singleton.mp hq2
      exact absurd hf hnf
  · intro gr hgr
    obtain ⟨q, hq, hqf, hqd⟩ := h4 gr hgr
    exact ⟨q, List.mem_append_left _ hq, hqf, hqd⟩

/-- A desired pair with an uncovered IP pushed through `entryPush`
preserves the accumulation invariant. -/
theorem addsInv_entryPush (fq : String) (ttl : Nat) (found : List IpAddr)
    (processed : List (IpAddr × Option CloudDatacenter))
    (adds : List (Option CloudDatacenter × AwsDns.ExtendedDnsRecord))
    (ip : IpAddr) (dc : Option CloudDatacenter) (hnf : ip ∉ found)
    (hinv : AwsDns.addsInv fq ttl found processed adds) :
    AwsDns.addsInv fq ttl found (processed ++ [(ip, dc)])
      (AwsDns.entryPush dc (ipToString ip) fq ttl adds) := by
  obtain ⟨h1, h2, h3, h4⟩ := hinv
  have hsing : ∀ g : Option CloudDatacenter,
      ([((ip, dc) : IpAddr × Option CloudDatacenter)].filter
        (fun q => q.1 ∉ found ∧ q.2 = g)).map (fun q => ipToString q.1) =
        if dc = g then [ipToString ip] else [] := by
    intro g
    by_cases hdg : dc = g
    · subst hdg
      simp [hnf]
    · simp [hdg]
  rcases entryPush_spec dc (ipToString ip) fq ttl adds with
    ⟨hd, r, tl, heq, hhd, hpush⟩ | ⟨hall, hpush⟩
  · have htl : ∀ q ∈ tl, q.1 ≠ dc := by
      have hkeys := h1
      rw [heq, List.map_append, List.map_cons] at hkeys
      intro q hq he
      have hdc : dc ∈ List.map Prod.fst tl := by
        rw [← he]
        exact List.mem_map_of_mem Prod.fst hq
      have := (List.nodup_append.mp hkeys).2.1
      rw [List.nodup_cons] at this
      exact this.1 hdc
    rw [hpush]
    refine ⟨?_, ?_, ?_, ?_⟩
    · have : (hd ++ (dc, { r with targets := r.targets ++ [ipToString ip] }) :: tl).map
          Prod.fst = (hd ++ (dc, r) :: tl).map Prod.fst := by
        simp [List.map_append]
      rw [this, ← heq]
      exact h1
    · intro gr hgr
      rcases List.mem_append.mp hgr with hgr1 | hgr2
      · have hmem : gr ∈ adds := by rw [heq]; exact List.mem_append_left _ hgr1
        obtain ⟨g1, g2, g3, g4, g5⟩ := h2 gr hmem
        refine ⟨g1, g2, g3, g4, ?_⟩
        rw [List.filter_append, List.map_append, hsing gr.1,
          if_neg (fun he => hhd gr hgr1 he.symm), List.append_nil]
        exact g5
      · rcases List.mem_cons.mp hgr2 with rfl | hgr3
        · have hmem : (dc, r) ∈ adds := by
            rw [heq]; exact List.mem_append_right _ (List.mem_cons_self _ _)
          obtain ⟨g1, g2, g3, g4, g5⟩ := h2 (dc, r) hmem
          refine ⟨g1, g2, g3, g4, ?_⟩
          show r.targets ++ [ipToString ip] = _
          rw [List.filter_append, List.map_append, hsing dc, if_pos rfl]
          rw [show ((dc, r).2.targets : List String) = r.targets from rfl] at g5
          rw [g5]
        · have hmem : gr ∈ adds := by
            rw [heq]; exact List.mem_append_right _ (List.mem_cons_of_mem _ hgr3)
          obtain ⟨g1, g2, g3, g4, g5⟩ := h2 gr hmem
          refine ⟨g1, g2, g3, g4, ?_⟩
          rw [List.filter_append, List.map_append, hsing gr.1,
            if_neg (fun he => htl gr hgr3 he.symm), List.append_nil]
          exact g5
    · intro q hq hqnf
      rcases List.mem_append.mp hq with hq1 | hq2
      · obtain ⟨rec, hrec⟩ := h3 q hq1 hqnf
        by_cases hqd : q.2 = dc
        · exact ⟨{ r with targets := r.targets ++ [ipToString ip] }, by
            rw [hqd]
            exact List.mem_append_right _ (List.mem_cons_self _ _)⟩
        · have : (q.2, rec) ∈ hd ++ (dc, r) :: tl := by rw [← heq]; exact hrec
          rcases List.mem_append.mp this with hh | ht
          · exact ⟨rec, List.mem_append_left _ hh⟩
          · rcases List.mem_cons.mp ht with he | ht2
            · exact absurd (congrArg Prod.fst he) hqd
            · exact ⟨rec, List.mem_append_right _ (List.mem_cons_of_mem _ ht2)⟩
      · obtain rfl := List.mem_singleton.mp hq2
        exact ⟨{ r with targets := r.targets ++ [ipToString ip] },
          List.mem_append_right _ (List.mem_cons_self _ _)⟩
    · intro gr hgr
      rcases List.mem_append.mp hgr with hgr1 | hgr2
      · have hmem : gr ∈ adds := by rw [heq]; exact List.mem_append_left _ hgr1
        obtain ⟨q, hq, hqf, hqd⟩ := h4 gr hmem
        exact ⟨q, List.mem_append_left _ hq, hqf, hqd⟩
      · rcases List.mem_cons.mp hgr2 with rfl | hgr3
        · exact ⟨(ip, dc), List.mem_append_right _ (List.mem_singleton.mpr rfl), hnf, rfl⟩
        · have hmem : gr ∈ adds := by
            rw [heq]; exact List.mem_append_right _ (List.mem_cons_of_mem _ hgr3)
          obtain ⟨q, hq, hqf, hqd⟩ := h4 gr hmem
          exact ⟨q, List.mem_append_left _ hq, hqf, hqd⟩
  · rw [hpush]
    refine ⟨?_, ?_, ?_, ?_⟩
    · rw [List.map_append, List.map_singleton]
      refine List.Nodup.append h1 (List.nodup_singleton _) ?_
      intro g hg hg2
      rw [List.mem_singleton] at hg2
      subst hg2
      rcases List.mem_map.mp hg with ⟨q, hq, hqf⟩
      exact hall q hq hqf
    · intro gr hgr
      rcases List.mem_append.mp hgr with hgr1 | hgr2
      · obtain ⟨g1, g2, g3, g4, g5⟩ := h2 gr hgr1
        refine ⟨g1, g2, g3, g4, ?_⟩
        rw [List.filter_append, List.map_append, hsing gr.1,
          if_neg (fun he => hall gr hgr1 he.symm), List.append_nil]
        exact g5
      · obtain rfl := List.mem_singleton.mp hgr2
        refine ⟨rfl, rfl, rfl, rfl, ?_⟩
        show [ipToString ip] = _
        rw [List.filter_append, List.map_append, hsing dc, if_pos rfl]
        have hempty : processed.filter (fun q => q.1 ∉ found ∧ q.2 = dc) = [] := by
          rw [List.filter_eq_nil_iff]
          intro q hq hcond
          simp only [decide_eq_true_eq] at hcond
          obtain ⟨rec, hrec⟩ := h3 q hq hcond.1
          rw [hcond.2] at hrec
          exact hall (dc, rec) hrec rfl
        rw [hempty]
        rfl
    · intro q hq hqnf
      rcases List.mem_append.mp hq with hq1 | hq2
      · obtain ⟨rec, hrec⟩ := h3 q hq1 hqnf
        exact ⟨rec, List.mem_append_left _ hrec⟩
      · obtain rfl := List.mem_singleton.mp hq2
        exact ⟨⟨dc, fq, [ipToString ip], ttl, .a⟩,
          List.mem_append_right _ (List.mem_singleton.mpr rfl)⟩
    · intro gr hgr
      rcases List.mem_append.mp hgr with hgr1 | hgr2
      · obtain ⟨q, hq, hqf, hqd⟩ := h4 gr hgr1
        exact ⟨q, List.mem_append_left _ hq, hqf, hqd⟩
      · obtain rfl := List.mem_singleton.mp hgr2
        exact ⟨(ip, dc), List.mem_append_right _ (List.mem_singleton.mpr rfl), hnf, rfl⟩

/-- The accumulation loop preserves its invariant over the processed
prefix. -/
theorem adds_loop_inv (fq : String) (ttl : Nat) (found : List IpAddr) :
    ∀ (l processed : List (IpAddr × Option CloudDatacenter))
      (adds : List (Option CloudDatacenter × AwsDns.ExtendedDnsRecord)),
    AwsDns.addsInv fq ttl found processed adds →
    AwsDns.addsInv fq ttl found (processed ++ l)
      (AwsDns.adds_loop fq ttl found l adds) := by
  intro l
  induction l with
  | nil =>
    intro processed adds hinv
    rw [List.append_nil]
    exact hinv
  | cons q rest ih =>
    intro processed adds hinv
    obtain ⟨ip, dc⟩ := q
    by_cases hf : ip ∈ found
    · have hstep := ih (processed ++ [(ip, dc)]) adds
        (addsInv_extend_found fq ttl found processed adds ip dc hf hinv)
      rw [List.append_assoc] at hstep
      simp only [AwsDns.adds_loop, if_pos hf]
      exact hstep
    · have hstep := ih (processed ++ [(ip, dc)]) _
        (addsInv_entryPush fq ttl found processed adds ip dc hf hinv)
      rw [List.append_assoc] at hstep
      simp only [AwsDns.adds_loop, if_neg hf]
      exact hstep

/-- The empty accumulation satisfies the invariant. -/
theorem addsInv_nil (fq : String) (ttl : Nat) (found : List IpAddr) :
    AwsDns.addsInv fq ttl found [] [] := by
  refine ⟨List.nodup_nil, by simp, by simp, by simp⟩

/-- When every desired IP is already covered the accumulation loop adds
nothing. -/
theorem adds_loop_all_found (fq : String) (ttl : Nat) (found : List IpAddr) :
    ∀ (l : List (IpAddr × Option CloudDatacenter))
      (adds : List (Option CloudDatacenter × AwsDns.ExtendedDnsRecord)),
    (∀ q ∈ l, q.1 ∈ found) → AwsDns.adds_loop fq ttl found l adds = adds := by
  intro l
  induction l with
  | nil => intro adds _; rfl
  | cons q rest ih =>
    intro adds hall
    obtain ⟨ip, dc⟩ := q
    simp only [AwsDns.adds_loop, if_pos (hall (ip, dc) (List.mem_cons_self _ _))]
    exact ih adds (fun q2 hq2 => hall q2 (List.mem_cons_of_mem _ hq2))

/-- The CNAME branch loop ignores records that are neither A nor CNAME. -/
theorem cname_loop_inert (link : String) :
    ∀ (rs : List (Nat × AwsDns.ExtendedDnsRecord)) (fnd : Bool) (rem : List Nat),
    (∀ p ∈ rs, p.2.record_type ≠ AwsDns.RrType.a ∧
      p.2.record_type ≠ AwsDns.RrType.cname) →
    AwsDns.cname_loop link rs fnd rem = (fnd, rem) := by
  intro rs
  induction rs with
  | nil => intro fnd rem _; rfl
  | cons p rest ih =>
    intro fnd rem hall
    obtain ⟨id0, r0⟩ := p
    have h0 := hall (id0, r0) (List.mem_cons_self _ _)
    cases hrt : r0.record_type with
    | a => exact absurd hrt h0.1
    | cname => exact absurd hrt h0.2
    | txt =>
      simp only [AwsDns.cname_loop, hrt]
      exact ih fnd rem (fun q hq => hall q (List.mem_cons_of_mem _ hq))
    | mx =>
      simp only [AwsDns.cname_loop, hrt]
      exact ih fnd rem (fun q hq => hall q (List.mem_cons_of_mem _ hq))
    | srv =>
      simp only [AwsDns.cname_loop, hrt]
      exact ih fnd rem (fun q hq => hall q (List.mem_cons_of_mem _ hq))
    | other =>
      simp only [AwsDns.cname_loop, hrt]
      exact ih fnd rem (fun q hq => hall q (List.mem_cons_of_mem _ hq))

/-- Classification soundness of the CNAME branch loop: A records are
removed, kept CNAMEs carry the desired target and are unique, removals
come from the input, and the flag reflects whether a matching CNAME was
kept. -/
theorem cname_loop_sound (link : String) :
    ∀ (rs : List (Nat × AwsDns.ExtendedDnsRecord)) (fou : Bool) (rem : List Nat)
      (res : Bool × List Nat),
    AwsDns.cname_loop link rs fou rem = res →
    (rs.map Prod.fst).Nodup →
    (∀ p ∈ rs, p.1 ∉ rem) →
    (∀ p ∈ rs, p.2.record_type = AwsDns.RrType.a → p.1 ∈ res.2) ∧
    (∀ p ∈ rs, p.2.record_type = AwsDns.RrType.cname → p.1 ∉ res.2 →
      p.2.targets = [link]) ∧
    (fou = true → ∀ p ∈ rs, p.2.record_type = AwsDns.RrType.cname → p.1 ∈ res.2) ∧
    (∀ p ∈ rs, ∀ p2 ∈ rs, p.2.record_type = AwsDns.RrType.cname →
      p2.2.record_type = AwsDns.RrType.cname → p.1 ∉ res.2 → p2.1 ∉ res.2 → p = p2) ∧
    (∀ id ∈ rem, id ∈ res.2) ∧
    (∀ id ∈ res.2, id ∈ rem ∨ ∃ r, (id, r) ∈ rs) ∧
    (res.1 = false → (fou = false ∧ ∀ p ∈ rs, p.2.record_type = AwsDns.RrType.cname →
      p.1 ∈ res.2)) ∧
    (res.1 = true → fou = true ∨ ∃ p ∈ rs, p.2.record_type = AwsDns.RrType.cname ∧
      p.1 ∉ res.2 ∧ p.2.targets = [link]) := by
  intro rs
  induction rs with
  | nil =>
    intro fou rem res hok _ _
    obtain rfl : (fou, rem) = res := hok
    refine ⟨by simp, by simp, by simp, by simp, fun id h => h, fun id hid => Or.inl hid,
      ?_, ?_⟩
    · intro hf
      exact ⟨hf, by simp⟩
    · intro hf
      exact Or.inl hf
  | cons p rest ih =>
    intro fou rem res hok hnd hfr
    obtain ⟨id0, r0⟩ := p
    rw [List.map_cons, List.nodup_cons] at hnd
    have hfr' : ∀ q ∈ rest, q.1 ∉ rem ++ [id0] := by
      intro q hq hm
      rcases List.mem_append.mp hm with h1 | h2
      · exact hfr q (List.mem_cons_of_mem _ hq) h1
      · have hmm := List.mem_map_of_mem Prod.fst hq
        rw [List.mem_singleton.mp h2] at hmm
        exact hnd.1 hmm
    cases hrt : r0.record_type with
    | a =>
      simp only [AwsDns.cname_loop, hrt] at hok
      obtain ⟨i1, i2, i3, i4, i5, i6, i7, i8⟩ := ih fou (rem ++ [id0]) res hok hnd.2 hfr'
      have hid0 : id0 ∈ res.2 :=
        i5 id0 (List.mem_append_right _ (List.mem_singleton.mpr rfl))
      refine ⟨?_, ?_, ?_, ?_, ?_, ?_, ?_, ?_⟩
      · intro q hq hat
        rcases List.mem_cons.mp hq with rfl | hq2
        · exact hid0
        · exact i1 q hq2 hat
      · intro q hq hcn hnr
        rcases List.mem_cons.mp hq with rfl | hq2
        · exact absurd (hrt.symm.trans hcn) (by decide)
        · exact i2 q hq2 hcn hnr
      · intro hf q hq hcn
        rcases List.mem_cons.mp hq with rfl | hq2
        · exact absurd (hrt.symm.trans hcn) (by decide)
        · exact i3 hf q hq2 hcn
      · intro q hq q2 hq2 hcn hcn2 hnr hnr2
        rcases List.mem_cons.mp hq with rfl | hqr
        · exact absurd (hrt.symm.trans hcn) (by decide)
        · rcases List.mem_cons.mp hq2 with rfl | hq2r
          · exact absurd (hrt.symm.trans hcn2) (by decide)
          · exact i4 q hqr q2 hq2r hcn hcn2 hnr hnr2
      · exact fun id hm => i5 id (List.mem_append_left _ hm)
      · intro idq hm
        rcases i6 idq hm with h1 | ⟨r2, hr2⟩
        · rcases List.mem_append.mp h1 with h3 | h4
          · exact Or.inl h3
          · exact Or.inr ⟨r0, (List.mem_singleton.mp h4) ▸ List.mem_cons_self _ _⟩
        · exact Or.inr ⟨r2, List.mem_cons_of_mem _ hr2⟩
      · intro hf
        obtain ⟨hfou, hrest⟩ := i7 hf
        refine ⟨hfou, ?_⟩
        intro q hq hcn
        rcases List.mem_cons.mp hq with rfl | hq2
        · exact absurd (hrt.symm.trans hcn) (by decide)
        · exact hrest q hq2 hcn
      · intro hf
        rcases i8 hf with h1 | ⟨q, hq, hcn, hnr, htar⟩
        · exact Or.inl h1
        · exact Or.inr ⟨q, List.mem_cons_of_mem _ hq, hcn, hnr, htar⟩
    | cname =>
      simp only [AwsDns.cname_loop, hrt] at hok
      by_cases hcnd : ¬(fou = true) ∧ r0.targets = [link]
      · rw [if_pos hcnd] at hok
        obtain ⟨i1, i2, i3, i4, i5, i6, i7, i8⟩ := ih true rem res hok hnd.2
          (fun q hq => hfr q (List.mem_cons_of_mem _ hq))
        have hid0nr : id0 ∉ res.2 := by
          intro hmem
          rcases i6 id0 hmem with h1 | ⟨r2, hr2⟩
          · exact hfr (id0, r0) (List.mem_cons_self _ _) h1
          · exact hnd.1 (show id0 ∈ List.map Prod.fst rest from
              List.mem_map_of_mem Prod.fst hr2)
        refine ⟨?_, ?_, ?_, ?_, i5, ?_, ?_, ?_⟩
        · intro q hq hat
          rcases List.mem_cons.mp hq with rfl | hq2
          · exact absurd (hrt.symm.trans hat) (by decide)
          · exact i1 q hq2 hat
        · intro q hq hcn hnr
          rcases List.mem_cons.mp hq with rfl | hq2
          · exact hcnd.2
          · exact i2 q hq2 hcn hnr
        · intro hf
          exact absurd hf hcnd.1
        · intro q hq q2 hq2 hcn hcn2 hnr hnr2
          rcases List.mem_cons.mp hq with rfl | hqr
          · rcases List.mem_cons.mp hq2 with rfl | hq2r
            · rfl
            · exact absurd (i3 rfl q2 hq2r hcn2) hnr2
          · rcases List.mem_cons.mp hq2 with rfl | hq2r
            · exact absurd (i3 rfl q hqr hcn) hnr
            · exact i4 q hqr q2 hq2r hcn hcn2 hnr hnr2
        · intro idq hm
          rcases i6 idq hm with h1 | ⟨r2, hr2⟩
          · exact Or.inl h1
          · exact Or.inr ⟨r2, List.mem_cons_of_mem _ hr2⟩
        · intro hf
          exact absurd (i7 hf).1 (by simp)
        · intro _
          exact Or.inr ⟨(id0, r0), List.mem_cons_self _ _, hrt, hid0nr, hcnd.2⟩
      · rw [if_neg hcnd] at hok
        obtain ⟨i1, i2, i3, i4, i5, i6, i7, i8⟩ := ih fou (rem ++ [id0]) res hok hnd.2 hfr'
        have hid0 : id0 ∈ res.2 :=
          i5 id0 (List.mem_append_right _ (List.mem_singleton.mpr rfl))
        refine ⟨?_, ?_, ?_, ?_, ?_, ?_, ?_, ?_⟩
        · intro q hq hat
          rcases List.mem_cons.mp hq with rfl | hq2
          · exact absurd (hrt.symm.trans hat) (by decide)
          · exact i1 q hq2 hat
        · intro q hq hcn hnr
          rcases List.mem_cons.mp hq with rfl | hq2
          · exact absurd hid0 hnr
          · exact i2 q hq2 hcn hnr
        · intro hf q hq hcn
          rcases List.mem_cons.mp hq with rfl | hq2
          · exact hid0
          · exact i3 hf q hq2 hcn
        · intro q hq q2 hq2 hcn hcn2 hnr hnr2
          rcases List.mem_cons.mp hq with rfl | hqr
          · exact absurd hid0 hnr
          · rcases List.mem_cons.mp hq2 with rfl | hq2r
            · exact absurd hid0 hnr2
            · exact i4 q hqr q2 hq2r hcn hcn2 hnr hnr2
        · exact fun id hm => i5 id (List.mem_append_left _ hm)
        · intro idq hm
          rcases i6 idq hm with h1 | ⟨r2, hr2⟩
          · rcases List.mem_append.mp h1 with h3 | h4
            · exact Or.inl h3
            · exact Or.inr ⟨r0, (List.mem_singleton.mp h4) ▸ List.mem_cons_self _ _⟩
          · exact Or.inr ⟨r2, List.mem_cons_of_mem _ hr2⟩
        · intro hf
          obtain ⟨hfou, hrest⟩ := i7 hf
          refine ⟨hfou, ?_⟩
          intro q hq hcn
          rcases List.mem_cons.mp hq with rfl | hq2
          · exact hid0
          · exact hrest q hq2 hcn
        · intro hf
          rcases i8 hf with h1 | ⟨q, hq, hcn, hnr, htar⟩
          · exact Or.inl h1
          · exact Or.inr ⟨q, List.mem_cons_of_mem _ hq, hcn, hnr, htar⟩
    | txt =>
      simp only [AwsDns.cname_loop, hrt] at hok
      obtain ⟨i1, i2, i3, i4, i5, i6, i7, i8⟩ := ih fou rem res hok hnd.2
        (fun q hq => hfr q (List.mem_cons_of_mem _ hq))
      refine ⟨?_, ?_, ?_, ?_, i5, ?_, ?_, ?_⟩
      · intro q hq hat
        rcases List.mem_cons.mp hq with rfl | hq2
        · exact absurd (hrt.symm.trans hat) (by decide)
        · exact i1 q hq2 hat
      · intro q hq hcn hnr
        rcases List.mem_cons.mp hq with rfl | hq2
        · exact absurd (hrt.symm.trans hcn) (by decide)
        · exact i2 q hq2 hcn hnr
      · intro hf q hq hcn
        rcases List.mem_cons.mp hq with rfl | hq2
        · exact absurd (hrt.symm.trans hcn) (by decide)
        · exact i3 hf q hq2 hcn
      · intro q hq q2 hq2 hcn hcn2 hnr hnr2
        rcases List.mem_cons.mp hq with rfl | hqr
        · exact absurd (hrt.symm.trans hcn) (by decide)
        · rcases List.mem_cons.mp hq2 with rfl | hq2r
          · exact absurd (hrt.symm.trans hcn2) (by decide)
          · exact i4 q hqr q2 hq2r hcn hcn2 hnr hnr2
      · intro idq hm
        rcases i6 idq hm with h1 | ⟨r2, hr2⟩
        · exact Or.inl h1
        · exact Or.inr ⟨r2, List.mem_cons_of_mem _ hr2⟩
      · intro hf
        obtain ⟨hfou, hrest⟩ := i7 hf
        refine ⟨hfou, ?_⟩
        intro q hq hcn
        rcases List.mem_cons.mp hq with rfl | hq2
        · exact absurd (hrt.symm.trans hcn) (by decide)
        · exact hrest q hq2 hcn
      · intro hf
        rcases i8 hf with h1 | ⟨q, hq, hcn, hnr, htar⟩
        · exact Or.inl h1
        · exact Or.inr ⟨q, List.mem_cons_of_mem _ hq, hcn, hnr, htar⟩
    | mx =>
      simp only [AwsDns.cname_loop, hrt] at hok
      obtain ⟨i1, i2, i3, i4, i5, i6, i7, i8⟩ := ih fou rem res hok hnd.2
        (fun q hq => hfr q (List.mem_cons_of_mem _ hq))
      refine ⟨?_, ?_, ?_, ?_, i5, ?_, ?_, ?_⟩
      · intro q hq hat
        rcases List.mem_cons.mp hq with rfl | hq2
        · exact absurd (hrt.symm.trans hat) (by decide)
        · exact i1 q hq2 hat
      · intro q hq hcn hnr
        rcases List.mem_cons.mp hq with rfl | hq2
        · exact absurd (hrt.symm.trans hcn) (by decide)
        · exact i2 q hq2 hcn hnr
      · intro hf q hq hcn
        rcases List.mem_cons.mp hq with rfl | hq2
        · exact absurd (hrt.symm.trans hcn) (by decide)
        · exact i3 hf q hq2 hcn
      · intro q hq q2 hq2 hcn hcn2 hnr hnr2
        rcases List.mem_cons.mp hq with rfl | hqr
        · exact absurd (hrt.symm.trans hcn) (by decide)
        · rcases List.mem_cons.mp hq2 with rfl | hq2r
          · exact absurd (hrt.symm.trans hcn2) (by decide)
          · exact i4 q hqr q2 hq2r hcn hcn2 hnr hnr2
      · intro idq hm
        rcases i6 idq hm with h1 | ⟨r2, hr2⟩
        · exact Or.inl h1
        · exact Or.inr ⟨r2, List.mem_cons_of_mem _ hr2⟩
      · intro hf
        obtain ⟨hfou, hrest⟩ := i7 hf
        refine ⟨hfou, ?_⟩
        intro q hq hcn
        rcases List.mem_cons.mp hq with rfl | hq2
        · exact absurd (hrt.symm.trans hcn) (by decide)
        · exact hrest q hq2 hcn
      · intro hf
        rcases i8 hf with h1 | ⟨q, hq, hcn, hnr, htar⟩
        · exact Or.inl h1
        · exact Or.inr ⟨q, List.mem_cons_of_mem _ hq, hcn, hnr, htar⟩
    | srv =>
      simp only [AwsDns.cname_loop, hrt] at hok
      obtain ⟨i1, i2, i3, i4, i5, i6, i7, i8⟩ := ih fou rem res hok hnd.2
        (fun q hq => hfr q (List.mem_cons_of_mem _ hq))
      refine ⟨?_, ?_, ?_, ?_, i5, ?_, ?_, ?_⟩
      · intro q hq hat
        rcases List.mem_cons.mp hq with rfl | hq2
        · exact absurd (hrt.symm.trans hat) (by decide)
        · exact i1 q hq2 hat
      · intro q hq hcn hnr
        rcases List.mem_cons.mp hq with rfl | hq2
        · exact absurd (hrt.symm.trans hcn) (by decide)
        · exact i2 q hq2 hcn hnr
      · intro hf q hq hcn
        rcases List.mem_cons.mp hq with rfl | hq2
        · exact absurd (hrt.symm.trans hcn) (by decide)
        · exact i3 hf q hq2 hcn
      · intro q hq q2 hq2 hcn hcn2 hnr hnr2
        rcases List.mem_cons.mp hq with rfl | hqr
        · exact absurd (hrt.symm.trans hcn) (by decide)
        · rcases List.mem_cons.mp hq2 with rfl | hq2r
          · exact absurd (hrt.symm.trans hcn2) (by decide)
          · exact i4 q hqr q2 hq2r hcn hcn2 hnr hnr2
      · intro idq hm
        rcases i6 idq hm with h1 | ⟨r2, hr2⟩
        · exact Or.inl h1
        · exact Or.inr ⟨r2, List.mem_cons_of_mem _ hr2⟩
      · intro hf
        obtain ⟨hfou, hrest⟩ := i7 hf
        refine ⟨hfou, ?_⟩
        intro q hq hcn
        rcases List.mem_cons.mp hq with rfl | hq2
        · exact absurd (hrt.symm.trans hcn) (by decide)
        · exact hrest q hq2 hcn
      · intro hf
        rcases i8 hf with h1 | ⟨q, hq, hcn, hnr, htar⟩
        · exact Or.inl h1
        · exact Or.inr ⟨q, List.mem_cons_of_mem _ hq, hcn, hnr, htar⟩
    | other =>
      simp only [AwsDns.cname_loop, hrt] at hok
      obtain ⟨i1, i2, i3, i4, i5, i6, i7, i8⟩ := ih fou rem res hok hnd.2
        (fun q hq => hfr q (List.mem_cons_of_mem _ hq))
      refine ⟨?_, ?_, ?_, ?_, i5, ?_, ?_, ?_⟩
      · intro q hq hat
        rcases List.mem_cons.mp hq with rfl | hq2
        · exact absurd (hrt.symm.trans hat) (by decide)
        · exact i1 q hq2 hat
      · intro q hq hcn hnr
        rcases List.mem_cons.mp hq with rfl | hq2
        · exact absurd (hrt.symm.trans hcn) (by decide)
        · exact i2 q hq2 hcn hnr
      · intro hf q hq hcn
        rcases List.mem_cons.mp hq with rfl | hq2
        · exact absurd (hrt.symm.trans hcn) (by decide)
        · exact i3 hf q hq2 hcn
      · intro q hq q2 hq2 hcn hcn2 hnr hnr2
        rcases List.mem_cons.mp hq with rfl | hqr
        · exact absurd (hrt.symm.trans hcn) (by decide)
        · rcases List.mem_cons.mp hq2 with rfl | hq2r
          · exact absurd (hrt.symm.trans hcn2) (by decide)
          · exact i4 q hqr q2 hq2r hcn hcn2 hnr hnr2
      · intro idq hm
        rcases i6 idq hm with h1 | ⟨r2, hr2⟩
        · exact Or.inl h1
        · exact Or.inr ⟨r2, List.mem_cons_of_mem _ hr2⟩
      · intro hf
        obtain ⟨hfou, hrest⟩ := i7 hf
        refine ⟨hfou, ?_⟩
        intro q hq hcn
        rcases List.mem_cons.mp hq with rfl | hq2
        · exact absurd (hrt.symm.trans hcn) (by decide)
        · exact hrest q hq2 hcn
      · intro hf
        rcases i8 hf with h1 | ⟨q, hq, hcn, hnr, htar⟩
        · exact Or.inl h1
        · exact Or.inr ⟨q, List.mem_cons_of_mem _ hq, hcn, hnr, htar⟩

/-- On a converged listing (one matching CNAME, no A record) the CNAME
branch loop keeps the CNAME and removes nothing. -/
theorem cname_loop_conv (link : String) :
    ∀ rs : List (Nat × AwsDns.ExtendedDnsRecord),
    (rs.map Prod.fst).Nodup →
    (∀ p ∈ rs, p.2.record_type ≠ AwsDns.RrType.a) →
    (∀ p ∈ rs, p.2.record_type = AwsDns.RrType.cname → p.2.targets = [link]) →
    (∀ p ∈ rs, ∀ p2 ∈ rs, p.2.record_type = AwsDns.RrType.cname →
      p2.2.record_type = AwsDns.RrType.cname → p = p2) →
    (∃ p ∈ rs, p.2.record_type = AwsDns.RrType.cname) →
    AwsDns.cname_loop link rs false [] = (true, []) := by
  intro rs
  induction rs with
  | nil =>
    intro _ _ _ _ hex
    obtain ⟨p, hp, _⟩ := hex
    exact absurd hp (List.not_mem_nil p)
  | cons p rest ih =>
    intro hnd hna htar huniq hex
    obtain ⟨id0, r0⟩ := p
    rw [List.map_cons, List.nodup_cons] at hnd
    cases hrt : r0.record_type with
    | a => exact absurd hrt (hna (id0, r0) (List.mem_cons_self _ _))
    | cname =>
      simp only [AwsDns.cname_loop, hrt]
      rw [if_pos ⟨by simp, htar (id0, r0) (List.mem_cons_self _ _) hrt⟩]
      refine cname_loop_inert link rest true [] ?_
      intro q hq
      refine ⟨hna q (List.mem_cons_of_mem _ hq), ?_⟩
      intro hcn
      have heq := huniq q (List.mem_cons_of_mem _ hq) (id0, r0)
        (List.mem_cons_self _ _) hcn hrt
      have hmm := List.mem_map_of_mem Prod.fst hq
      rw [heq] at hmm
      exact hnd.1 hmm
    | txt =>
      simp only [AwsDns.cname_loop, hrt]
      refine ih hnd.2 (fun q hq => hna q (List.mem_cons_of_mem _ hq))
        (fun q hq => htar q (List.mem_cons_of_mem _ hq))
        (fun q hq q2 hq2 => huniq q (List.mem_cons_of_mem _ hq) q2
          (List.mem_cons_of_mem _ hq2)) ?_
      obtain ⟨q, hq, hqc⟩ := hex
      rcases List.mem_cons.mp hq with rfl | hq2
      · exact absurd (hrt.symm.trans hqc) (by decide)
      · exact ⟨q, hq2, hqc⟩
    | mx =>
      simp only [AwsDns.cname_loop, hrt]
      refine ih hnd.2 (fun q hq => hna q (List.mem_cons_of_mem _ hq))
        (fun q hq => htar q (List.mem_cons_of_mem _ hq))
        (fun q hq q2 hq2 => huniq q (List.mem_cons_of_mem _ hq) q2
          (List.mem_cons_of_mem _ hq2)) ?_
      obtain ⟨q, hq, hqc⟩ := hex
      rcases List.mem_cons.mp hq with rfl | hq2
      · exact absurd (hrt.symm.trans hqc) (by decide)
      · exact ⟨q, hq2, hqc⟩
    | srv =>
      simp only [AwsDns.cname_loop, hrt]
      refine ih hnd.2 (fun q hq => hna q (List.mem_cons_of_mem _ hq))
        (fun q hq => htar q (List.mem_cons_of_mem _ hq))
        (fun q hq q2 hq2 => huniq q (List.mem_cons_of_mem _ hq) q2
          (List.mem_cons_of_mem _ hq2)) ?_
      obtain ⟨q, hq, hqc⟩ := hex
      rcases List.mem_cons.mp hq with rfl | hq2
      · exact absurd (hrt.symm.trans hqc) (by decide)
      · exact ⟨q, hq2, hqc⟩
    | other =>
      simp only [AwsDns.cname_loop, hrt]
      refine ih hnd.2 (fun q hq => hna q (List.mem_cons_of_mem _ hq))
        (fun q hq => htar q (List.mem_cons_of_mem _ hq))
        (fun q hq q2 hq2 => huniq q (List.mem_cons_of_mem _ hq) q2
          (List.mem_cons_of_mem _ hq2)) ?_
      obtain ⟨q, hq, hqc⟩ := hex
      rcases List.mem_cons.mp hq with rfl | hq2
      · exact absurd (hrt.symm.trans hqc) (by decide)
      · exact ⟨q, hq2, hqc⟩

/-- In a list with pairwise distinct keys, the key determines the value. -/
theorem assoc_keys_nodup_entry_eq {α β : Type} :
    ∀ (m : List (α × β)), (m.map Prod.fst).Nodup →
    ∀ (k : α) (v v' : β), (k, v) ∈ m → (k, v') ∈ m → v = v' := by
  intro m
  induction m with
  | nil => intro _ k v v' hv _; exact absurd hv (List.not_mem_nil _)
  | cons p rest ih =>
    intro hnd k v v' hv hv'
    rw [List.map_cons, List.nodup_cons] at hnd
    rcases List.mem_cons.mp hv with he | hm
    · rcases List.mem_cons.mp hv' with he' | hm'
      · have h1 : v = p.2 := congrArg Prod.snd he
        have h2 : v' = p.2 := congrArg Prod.snd he'
        rw [h1, h2]
      · have hk : p.1 = k := (congrArg Prod.fst he).symm
        have hmm := List.mem_map_of_mem Prod.fst hm'
        rw [← hk] at hmm
        exact absurd hmm hnd.1
    · rcases List.mem_cons.mp hv' with he' | hm'
      · have hk : p.1 = k := (congrArg Prod.fst he').symm
        have hmm := List.mem_map_of_mem Prod.fst hm
        rw [← hk] at hmm
        exact absurd hmm hnd.1
      · exact ih hnd.2 k v v' hm hm'

/-- In a well-formed state the id determines the stored record. -/
theorem records_id_unique (s : AwsDns.AwsState) (hwf : AwsDns.idsWF s) :
    ∀ (id : Nat) (w w' : AwsDns.AwsWireRecord),
    (id, w) ∈ s.records → (id, w') ∈ s.records → w = w' :=
  assoc_keys_nodup_entry_eq s.records hwf.2

/-- Classification of the per-hostname listing after a
deletions-then-creations batch: either a surviving original listed entry
(not deleted, upsert key matching no create) or the wire form of one of
the creates, stored fresh. -/
theorem fqListing_after_mem (s : AwsDns.AwsState) (dels : List Nat)
    (creates : List AwsDns.ExtendedDnsRecord) (name : String)
    (q : Nat × AwsDns.ExtendedDnsRecord)
    (hq : q ∈ AwsDns.fqListing
      (AwsDns.awsApplyOps s (dels.map AwsDns.AwsOp.delete ++
        creates.map AwsDns.AwsOp.create)) name) :
    (q ∈ AwsDns.fqListing s name ∧ q.1 ∉ dels ∧
      ∃ w, (q.1, w) ∈ s.records ∧ w.aliasTarget = false ∧
        q.2 = AwsDns.wireToExtended w ∧
        ∀ c ∈ creates, ¬AwsDns.wireKeyMatch w c) ∨
    (∃ c ∈ creates, (q.1, AwsDns.createWire c) ∈
        (AwsDns.awsApplyOps s (dels.map AwsDns.AwsOp.delete ++
          creates.map AwsDns.AwsOp.create)).records ∧
      q.2 = AwsDns.wireToExtended (AwsDns.createWire c) ∧ s.nextId ≤ q.1) := by
  rw [awsApplyOps_append] at hq
  obtain ⟨hlist, hname⟩ := (fqListing_mem _ name q).mp hq
  obtain ⟨w, hw, halias, hext⟩ := (awsListing_mem _ q).mp hlist
  rcases applyCreates_mem_forward creates _ (q.1, w) hw with ⟨hmem, hmis⟩ | ⟨c, hc, hweq, hid⟩
  · obtain ⟨hmem2, hnd⟩ := (applyDeletes_mem dels s (q.1, w)).mp hmem
    left
    refine ⟨(fqListing_mem s name q).mpr ⟨(awsListing_mem s q).mpr
      ⟨w, hmem2, halias, hext⟩, hname⟩, hnd, w, hmem2, halias, hext, ?_⟩
    intro c hc
    exact hmis c hc
  · right
    have hw2 : (q.1, AwsDns.createWire c) ∈
        (AwsDns.awsApplyOps (AwsDns.awsApplyOps s (dels.map AwsDns.AwsOp.delete))
          (creates.map AwsDns.AwsOp.create)).records := by
      rw [show AwsDns.createWire c = w from hweq.symm]
      exact hw
    rw [← awsApplyOps_append] at hw2
    refine ⟨c, hc, hw2, ?_, ?_⟩
    · rw [hext]
      exact congrArg AwsDns.wireToExtended hweq
    · rw [applyDeletes_nextId] at hid
      exact hid

/-- A surviving original entry stays in the per-hostname listing. -/
theorem fqListing_after_keep (s : AwsDns.AwsState) (dels : List Nat)
    (creates : List AwsDns.ExtendedDnsRecord) (name : String)
    (q : Nat × AwsDns.ExtendedDnsRecord) (w : AwsDns.AwsWireRecord)
    (hq : q ∈ AwsDns.fqListing s name)
    (hnd : q.1 ∉ dels)
    (hw : (q.1, w) ∈ s.records) (halias : w.aliasTarget = false)
    (hext : q.2 = AwsDns.wireToExtended w)
    (hmis : ∀ c ∈ creates, ¬AwsDns.wireKeyMatch w c) :
    q ∈ AwsDns.fqListing
      (AwsDns.awsApplyOps s (dels.map AwsDns.AwsOp.delete ++
        creates.map AwsDns.AwsOp.create)) name := by
  rw [awsApplyOps_append]
  obtain ⟨_, hname⟩ := (fqListing_mem s name q).mp hq
  have h1 : (q.1, w) ∈ (AwsDns.awsApplyOps s (dels.map AwsDns.AwsOp.delete)).records :=
    (applyDeletes_mem dels s (q.1, w)).mpr ⟨hw, hnd⟩
  have h2 := applyCreates_keep creates _ (q.1, w) h1 hmis
  exact (fqListing_mem _ name q).mpr ⟨(awsListing_mem _ q).mpr ⟨w, h2, halias, hext⟩, hname⟩

/-- A create with a unique key in its batch appears in the per-hostname
listing of its rendered name. -/
theorem fqListing_after_created (s : AwsDns.AwsState) (dels : List Nat)
    (creates : List AwsDns.ExtendedDnsRecord) (name : String)
    (c : AwsDns.ExtendedDnsRecord) (hc : c ∈ creates)
    (huniq : ∀ c2 ∈ creates, AwsDns.wireKeyMatch (AwsDns.createWire c) c2 → c2 = c)
    (hname : AwsDns.parse_name (AwsDns.awsRenderName c.name) = name) :
    ∃ id, (id, AwsDns.wireToExtended (AwsDns.createWire c)) ∈
      AwsDns.fqListing
        (AwsDns.awsApplyOps s (dels.map AwsDns.AwsOp.delete ++
          creates.map AwsDns.AwsOp.create)) name := by
  rw [awsApplyOps_append]
  obtain ⟨id, hmem⟩ := applyCreates_present creates
    (AwsDns.awsApplyOps s (dels.map AwsDns.AwsOp.delete)) c hc huniq
  refine ⟨id, (fqListing_mem _ name _).mpr ⟨(awsListing_mem _ _).mpr
    ⟨AwsDns.createWire c, hmem, rfl, rfl⟩, hname⟩⟩

/-- Operations targeting one hostname do not change the listing at any
other hostname. -/
theorem fqListing_after_frame (s : AwsDns.AwsState) (dels : List Nat)
    (creates : List AwsDns.ExtendedDnsRecord) (fqname name : String)
    (hwf : AwsDns.idsWF s)
    (hdel : ∀ id ∈ dels, ∃ er, (id, er) ∈ AwsDns.fqListing s fqname)
    (hcr : ∀ c ∈ creates, AwsDns.parse_name (AwsDns.awsRenderName c.name) = fqname)
    (hne : name ≠ fqname) :
    ∀ q, q ∈ AwsDns.fqListing
        (AwsDns.awsApplyOps s (dels.map AwsDns.AwsOp.delete ++
          creates.map AwsDns.AwsOp.create)) name ↔
      q ∈ AwsDns.fqListing s name := by
  intro q
  constructor
  · intro hq
    rcases fqListing_after_mem s dels creates name q hq with
      ⟨hold, _, _⟩ | ⟨c, hc, _, hext, _⟩
    · exact hold
    · obtain ⟨_, hname⟩ := (fqListing_mem _ name q).mp hq
      rw [hext] at hname
      have : AwsDns.parse_name (AwsDns.awsRenderName c.name) = name := hname
      exact absurd (this.symm.trans (hcr c hc)) hne
  · intro hq
    obtain ⟨hlist, hname⟩ := (fqListing_mem s name q).mp hq
    obtain ⟨w, hw, halias, hext⟩ := (awsListing_mem s q).mp hlist
    refine fqListing_after_keep s dels creates name q w hq ?_ hw halias hext ?_
    · intro hmem
      obtain ⟨er, her⟩ := hdel q.1 hmem
      obtain ⟨hlist2, hname2⟩ := (fqListing_mem s fqname _).mp her
      obtain ⟨w2, hw2, _, hext2⟩ := (awsListing_mem s _).mp hlist2
      have hww : w2 = w := records_id_unique s hwf q.1 w2 w hw2 hw
      rw [hww, ← hext] at hext2
      rw [hext2] at hname2
      exact hne (hname.symm.trans hname2)
    · intro c hc hk
      have hn1 : q.2.name = AwsDns.parse_name (AwsDns.awsRenderName w.name) := by
        rw [hext]; rfl
      rw [hk.1] at hn1
      rw [hname] at hn1
      exact hne (hn1.trans (hcr c hc))

/-- The operations issued by one route update: deletions of listed
records at the fully qualified hostname followed by creations named by
it. -/
theorem update_route_ops_shape (domain h : String) (v : DnsRecord)
    (s : AwsDns.AwsState) (ops : List AwsDns.AwsOp) (log : List String)
    (hwf : AwsDns.idsWF s)
    (hup : AwsDns.update_dns_route domain h v Option.none (AwsDns.awsListing s) =
      .ok (ops, log)) :
    ∃ (dels : List Nat) (creates : List AwsDns.ExtendedDnsRecord),
      ops = dels.map AwsDns.AwsOp.delete ++ creates.map AwsDns.AwsOp.create ∧
      (∀ id ∈ dels, ∃ er, (id, er) ∈
        AwsDns.fqListing s (AwsDns.fully_qualified h domain)) ∧
      (∀ c ∈ creates, c.name = AwsDns.fully_qualified h domain) := by
  cases v with
  | a ipgeos =>
    have hup2 : AwsDns.upsert_a_record domain (AwsDns.fully_qualified h domain)
        (AwsDns.ttlOf Option.none)
        (AwsDns.fqListing s (AwsDns.fully_qualified h domain)) ipgeos =
        .ok (ops, log) := hup
    cases hloop : AwsDns.upsert_loop domain (AwsDns.fully_qualified h domain) ipgeos
        (AwsDns.fqListing s (AwsDns.fully_qualified h domain)) ⟨[], []⟩ with
    | error e => rw [AwsDns.upsert_a_record, hloop] at hup2; exact Except.noConfusion hup2
    | ok acc =>
      rw [AwsDns.upsert_a_record, hloop] at hup2
      obtain ⟨hops, _⟩ := Prod.mk.injEq _ _ _ _ ▸ Except.ok.inj hup2
      obtain ⟨_, _, s3, _, _, s6, _⟩ := upsert_loop_sound domain
        (AwsDns.fully_qualified h domain) ipgeos _ _ acc hloop
        (fqListing_ids_nodup s _ hwf) (by simp)
      have hinv := adds_loop_inv (AwsDns.fully_qualified h domain)
        (AwsDns.ttlOf Option.none) acc.found ipgeos [] []
        (addsInv_nil _ _ _)
      rw [List.nil_append] at hinv
      refine ⟨acc.removals,
        (AwsDns.adds_loop (AwsDns.fully_qualified h domain) (AwsDns.ttlOf Option.none)
          acc.found ipgeos []).map Prod.snd, ?_, ?_, ?_⟩
      · rw [← hops, List.map_map]
        rfl
      · intro id hid
        rcases s6 id hid with h1 | ⟨r2, hr2⟩
        · exact absurd h1 (List.not_mem_nil id)
        · exact ⟨r2, hr2⟩
      · intro c hc
        rcases List.mem_map.mp hc with ⟨gr, hgr, hsnd⟩
        obtain ⟨_, hn, _, _, _⟩ := hinv.2.1 gr hgr
        rw [← hsnd]
        exact hn
  | cname link =>
    have hup2 : Except.ok (((AwsDns.cname_loop link
        (AwsDns.fqListing s (AwsDns.fully_qualified h domain)) false []).2).map
          AwsDns.AwsOp.delete ++
        (if (AwsDns.cname_loop link
            (AwsDns.fqListing s (AwsDns.fully_qualified h domain)) false []).1 then
          ([] : List AwsDns.ExtendedDnsRecord)
        else [⟨Option.none, AwsDns.fully_qualified h domain, [link],
          AwsDns.ttlOf Option.none, AwsDns.RrType.cname⟩]).map AwsDns.AwsOp.create,
        _) = Except.ok (ops, log) := hup
    obtain ⟨hops, _⟩ := Prod.mk.injEq _ _ _ _ ▸ Except.ok.inj hup2
    obtain ⟨_, _, _, _, _, s6, _, _⟩ := cname_loop_sound link
      (AwsDns.fqListing s (AwsDns.fully_qualified h domain)) false [] _ rfl
      (fqListing_ids_nodup s _ hwf) (by simp)
    refine ⟨(AwsDns.cname_loop link
        (AwsDns.fqListing s (AwsDns.fully_qualified h domain)) false []).2,
      (if (AwsDns.cname_loop link
          (AwsDns.fqListing s (AwsDns.fully_qualified h domain)) false []).1 then
        ([] : List AwsDns.ExtendedDnsRecord)
      else [⟨Option.none, AwsDns.fully_qualified h domain, [link],
        AwsDns.ttlOf Option.none, AwsDns.RrType.cname⟩]), hops.symm, ?_, ?_⟩
    · intro id hid
      rcases s6 id hid with h1 | ⟨r2, hr2⟩
      · exact absurd h1 (List.not_mem_nil id)
      · exact ⟨r2, hr2⟩
    · intro c hc
      split at hc
      · exact absurd hc (List.not_mem_nil c)
      · obtain rfl := List.mem_singleton.mp hc
        rfl
  | none =>
    have hup2 : Except.ok
        (((AwsDns.fqListing s (AwsDns.fully_qualified h domain)).filter (fun p =>
          p.2.record_type = AwsDns.RrType.a ∨
            p.2.record_type = AwsDns.RrType.cname)).map
          (fun p => AwsDns.AwsOp.delete p.1), ([] : List String)) =
        Except.ok (ops, log) := hup
    obtain ⟨hops, _⟩ := Prod.mk.injEq _ _ _ _ ▸ Except.ok.inj hup2
    refine ⟨((AwsDns.fqListing s (AwsDns.fully_qualified h domain)).filter (fun p =>
        p.2.record_type = AwsDns.RrType.a ∨
          p.2.record_type = AwsDns.RrType.cname)).map Prod.fst, [], ?_, ?_, by simp⟩
    · rw [← hops, List.map_map, List.map_nil, List.append_nil]
      rfl
    · intro id hid
      rcases List.mem_map.mp hid with ⟨p, hp, hfst⟩
      refine ⟨p.2, ?_⟩
      rw [← hfst, Prod.mk.eta]
      exact List.mem_of_mem_filter hp
  | txt text =>
    have hup2 : Except.ok (([] : List AwsDns.AwsOp), ["non route record ignored"]) =
        Except.ok (ops, log) := hup
    obtain ⟨hops, _⟩ := Prod.mk.injEq _ _ _ _ ▸ Except.ok.inj hup2
    exact ⟨[], [], by rw [← hops]; rfl, by simp, by simp⟩

/-- On a converged A hostname a route update issues no operation and
logs nothing. -/
theorem update_route_noop_a (domain h : String)
    (ipgeos : List (IpAddr × Option CloudDatacenter)) (s : AwsDns.AwsState)
    (hwf : AwsDns.idsWF s)
    (hconv : AwsDns.convergedA domain (AwsDns.fully_qualified h domain) ipgeos
      (AwsDns.fqListing s (AwsDns.fully_qualified h domain))) :
    AwsDns.update_dns_route domain h (.a ipgeos) Option.none (AwsDns.awsListing s) =
      .ok ([], []) := by
  obtain ⟨hc1, hc2, hc3, hc4⟩ := hconv
  obtain ⟨found2, hloop, hchar⟩ := upsert_loop_noop domain
    (AwsDns.fully_qualified h domain) ipgeos []
    (AwsDns.fqListing s (AwsDns.fully_qualified h domain)) []
    (fqListing_ids_nodup s _ hwf) hc1
    (by
      intro p hp hat
      obtain ⟨ips, hparse, hlook, hcompl⟩ := hc2 p hp hat
      exact ⟨ips, hparse, fun ip hip => ⟨hlook ip hip, List.not_mem_nil ip⟩, hcompl⟩)
    hc3
  have hcov : ∀ q ∈ ipgeos, q.1 ∈ found2 := by
    intro q hq
    obtain ⟨p, hp, hat, ips, hparse, hip⟩ := hc4 q hq
    exact (hchar q.1).mpr (Or.inr ⟨p, hp, hat, ips, hparse, hip⟩)
  show AwsDns.upsert_a_record domain (AwsDns.fully_qualified h domain)
    (AwsDns.ttlOf Option.none)
    (AwsDns.fqListing s (AwsDns.fully_qualified h domain)) ipgeos = .ok ([], [])
  rw [AwsDns.upsert_a_record, hloop]
  show Except.ok _ = _
  rw [adds_loop_all_found _ _ _ ipgeos [] hcov]
  rfl

/-- On a converged CNAME hostname a route update issues no operation and
logs nothing. -/
theorem update_route_noop_cname (domain h link : String) (s : AwsDns.AwsState)
    (hwf : AwsDns.idsWF s)
    (hconv : AwsDns.convergedCname (AwsDns.fully_qualified h domain) link
      (AwsDns.fqListing s (AwsDns.fully_qualified h domain))) :
    AwsDns.update_dns_route domain h (.cname link) Option.none (AwsDns.awsListing s) =
      .ok ([], []) := by
  obtain ⟨hc1, hc2, hc3, hc4⟩ := hconv
  have hloop := cname_loop_conv link
    (AwsDns.fqListing s (AwsDns.fully_qualified h domain))
    (fqListing_ids_nodup s _ hwf) hc1 hc3 hc4
    (by obtain ⟨p, hp, hpc, _⟩ := hc2; exact ⟨p, hp, hpc⟩)
  show Except.ok _ = _
  rw [show (List.filter (fun p => decide (p.2.name = AwsDns.fully_qualified h domain))
      (AwsDns.awsListing s)) = AwsDns.fqListing s (AwsDns.fully_qualified h domain)
    from rfl, hloop]
  rfl

/-- On a hostname converged to `None` a route update issues no operation
and logs nothing. -/
theorem update_route_noop_none (domain h : String) (s : AwsDns.AwsState)
    (hconv : AwsDns.convergedNone
      (AwsDns.fqListing s (AwsDns.fully_qualified h domain))) :
    AwsDns.update_dns_route domain h .none Option.none (AwsDns.awsListing s) =
      .ok ([], []) := by
  have hfil : (AwsDns.fqListing s (AwsDns.fully_qualified h domain)).filter
      (fun p => p.2.record_type = AwsDns.RrType.a ∨
        p.2.record_type = AwsDns.RrType.cname) = [] := by
    rw [List.filter_eq_nil_iff]
    intro p hp hcond
    simp only [decide_eq_true_eq] at hcond
    rcases hcond with h1 | h2
    · exact (hconv p hp).1 h1
    · exact (hconv p hp).2 h2
  show Except.ok _ = _
  rw [show (List.filter (fun p => decide (p.2.name = AwsDns.fully_qualified h domain))
      (AwsDns.awsListing s)) = AwsDns.fqListing s (AwsDns.fully_qualified h domain)
    from rfl, hfil]
  rfl

/-- A successful A-record route update leaves the hostname's listing
converged to the desired payload. -/
theorem update_route_est_a (domain h : String)
    (ipgeos : List (IpAddr × Option CloudDatacenter)) (s : AwsDns.AwsState)
    (ops : List AwsDns.AwsOp) (log : List String)
    (hwf : AwsDns.idsWF s)
    (hkeys : (ipgeos.map Prod.fst).Nodup)
    (hgeo : ∀ q ∈ ipgeos, ∀ dc, q.2 = some dc →
      CloudDatacenter.fromAwsRegion dc.nearestAwsRegion = dc)
    (hbs : noBackslash (AwsDns.fully_qualified h domain))
    (hup : AwsDns.update_dns_route domain h (.a ipgeos) Option.none
      (AwsDns.awsListing s) = .ok (ops, log)) :
    AwsDns.convergedA domain (AwsDns.fully_qualified h domain) ipgeos
      (AwsDns.fqListing (AwsDns.awsApplyOps s ops)
        (AwsDns.fully_qualified h domain)) := by
  have hup2 : AwsDns.upsert_a_record domain (AwsDns.fully_qualified h domain)
      (AwsDns.ttlOf Option.none)
      (AwsDns.fqListing s (AwsDns.fully_qualified h domain)) ipgeos =
      .ok (ops, log) := hup
  cases hloop : AwsDns.upsert_loop domain (AwsDns.fully_qualified h domain) ipgeos
      (AwsDns.fqListing s (AwsDns.fully_qualified h domain)) ⟨[], []⟩ with
  | error e => rw [AwsDns.upsert_a_record, hloop] at hup2; exact Except.noConfusion hup2
  | ok acc =>
  rw [AwsDns.upsert_a_record, hloop] at hup2
  obtain ⟨hops, _⟩ := Prod.mk.injEq _ _ _ _ ▸ Except.ok.inj hup2
  obtain ⟨s1c, s2c, s3c, s4c, s5c, s6c, s7c⟩ := upsert_loop_sound domain
    (AwsDns.fully_qualified h domain) ipgeos _ _ acc hloop
    (fqListing_ids_nodup s _ hwf) (by simp)
  have hinv := adds_loop_inv (AwsDns.fully_qualified h domain) (AwsDns.ttlOf Option.none)
    acc.found ipgeos [] [] (addsInv_nil _ _ _)
  rw [List.nil_append] at hinv
  obtain ⟨hik, hib, hic, hidk⟩ := hinv
  have hops2 : ops = acc.removals.map AwsDns.AwsOp.delete ++
      ((AwsDns.adds_loop (AwsDns.fully_qualified h domain) (AwsDns.ttlOf Option.none)
        acc.found ipgeos []).map Prod.snd).map AwsDns.AwsOp.create := by
    rw [← hops, List.map_map]
    rfl
  -- abbreviations as facts
  have hdcr : ∀ g : Option CloudDatacenter, (∃ q ∈ ipgeos, q.2 = g) →
      (g.map CloudDatacenter.nearestAwsRegion).map CloudDatacenter.fromAwsRegion = g := by
    intro g hg
    obtain ⟨q, hq, hqg⟩ := hg
    cases g with
    | none => rfl
    | some d =>
      show some (CloudDatacenter.fromAwsRegion d.nearestAwsRegion) = some d
      rw [hgeo q hq d hqg]
  have hfilmem : ∀ (g : Option CloudDatacenter) (q : IpAddr × Option CloudDatacenter),
      q ∈ ipgeos.filter (fun q2 => q2.1 ∉ acc.found ∧ q2.2 = g) ↔
        (q ∈ ipgeos ∧ q.1 ∉ acc.found ∧ q.2 = g) := by
    intro g q
    rw [List.mem_filter]
    simp only [decide_eq_true_eq]
  -- no desired IP of a datacenter with a pending create is already found
  have hnoFoundG : ∀ gr ∈ AwsDns.adds_loop (AwsDns.fully_qualified h domain)
      (AwsDns.ttlOf Option.none) acc.found ipgeos [],
      ∀ q ∈ ipgeos, q.2 = gr.1 → q.1 ∉ acc.found := by
    intro gr hgr q hq hqg hqf
    obtain ⟨q0, hq0, hq0nf, hq0g⟩ := hidk gr hgr
    rcases s3c q.1 hqf with h1 | ⟨K, hK, hKat, hKnr, ipsK, hKp, hKip⟩
    · exact absurd h1 (List.not_mem_nil _)
    · obtain ⟨ipsK2, hKp2, hlook, hcompl, hsub, _⟩ := s2c K hK hKat hKnr
      obtain rfl : ipsK2 = ipsK := Except.ok.inj (hKp2.symm.trans hKp)
      have hl1 := hlook q.1 hKip
      have hl2 := lookupGeo_self ipgeos hkeys q hq
      have hdc : q.2 = K.2.datacenter := Option.some.inj (hl2.symm.trans hl1)
      have hq0K : q0.2 = K.2.datacenter := by rw [hq0g, ← hqg, hdc]
      exact hq0nf (hsub q0.1 (hcompl q0 hq0 hq0K))
  -- creations have pairwise determined keys
  have hkeyuniq : ∀ c ∈ (AwsDns.adds_loop (AwsDns.fully_qualified h domain)
      (AwsDns.ttlOf Option.none) acc.found ipgeos []).map Prod.snd,
      ∀ c2 ∈ (AwsDns.adds_loop (AwsDns.fully_qualified h domain)
        (AwsDns.ttlOf Option.none) acc.found ipgeos []).map Prod.snd,
      AwsDns.wireKeyMatch (AwsDns.createWire c) c2 → c2 = c := by
    intro c hc c2 hc2 hk
    rcases List.mem_map.mp hc with ⟨gr, hgr, hsnd⟩
    rcases List.mem_map.mp hc2 with ⟨gr2, hgr2, hsnd2⟩
    obtain ⟨gd, _, _, _, _⟩ := hib gr hgr
    obtain ⟨gd2, _, _, _, _⟩ := hib gr2 hgr2
    have hreg : c.datacenter.map CloudDatacenter.nearestAwsRegion =
        c2.datacenter.map CloudDatacenter.nearestAwsRegion := hk.2.2
    have hg12 : gr.1 = gr2.1 := by
      rw [← hsnd, gd, ← hsnd2, gd2] at hreg
      cases hg1 : gr.1 with
      | none =>
        cases hg2 : gr2.1 with
        | none => rfl
        | some d2 =>
          rw [hg1, hg2] at hreg
          exact absurd hreg (by simp)
      | some d1 =>
        cases hg2 : gr2.1 with
        | none =>
          rw [hg1, hg2] at hreg
          exact absurd hreg (by simp)
        | some d2 =>
          rw [hg1, hg2] at hreg
          have hnn : d1.nearestAwsRegion = d2.nearestAwsRegion := Option.some.inj hreg
          obtain ⟨q1, hq1, _, hq1g⟩ := hidk gr hgr
          obtain ⟨q2, hq2, _, hq2g⟩ := hidk gr2 hgr2
          have hr1 := hgeo q1 hq1 d1 (by rw [hq1g, hg1])
          have hr2 := hgeo q2 hq2 d2 (by rw [hq2g, hg2])
          rw [hnn, hr2] at hr1
          rw [hr1]
    have hval : gr.2 = gr2.2 := by
      refine assoc_keys_nodup_entry_eq _ hik gr.1 gr.2 gr2.2 ?_ ?_
      · rw [Prod.mk.eta]
        exact hgr
      · rw [hg12, Prod.mk.eta]
        exact hgr2
    rw [← hsnd, ← hsnd2, hval]
  rw [hops2]
  refine ⟨?_, ?_, ?_, ?_⟩
  -- P1: no CNAME
  · intro q hq
    rcases fqListing_after_mem s acc.removals _ _ q hq with
      ⟨hold, hndl, _⟩ | ⟨c, hc, _, hext, _⟩
    · intro hcn
      exact hndl (s1c q hold hcn)
    · rcases List.mem_map.mp hc with ⟨gr, hgr, hsnd⟩
      obtain ⟨_, _, _, gt, _⟩ := hib gr hgr
      intro hcn
      have hcrt : c.record_type = AwsDns.RrType.cname := by
        rw [hext] at hcn
        exact hcn
      rw [← hsnd, gt] at hcrt
      exact absurd hcrt (by decide)
  -- P2: every A record parses to desired IPs of its datacenter, completely
  · intro q hq hat
    rcases fqListing_after_mem s acc.removals _ _ q hq with
      ⟨hold, hndl, _⟩ | ⟨c, hc, _, hext, _⟩
    · obtain ⟨ips, hp, hl, hcm, _, _⟩ := s2c q hold hat hndl
      exact ⟨ips, hp, hl, hcm⟩
    · rcases List.mem_map.mp hc with ⟨gr, hgr, hsnd⟩
      obtain ⟨gd, gn, _, gt, gtar⟩ := hib gr hgr
      have htg : q.2.targets = (ipgeos.filter
          (fun q2 => q2.1 ∉ acc.found ∧ q2.2 = gr.1)).map (fun q2 => ipToString q2.1) := by
        rw [hext]
        show c.targets = _
        rw [← hsnd]
        exact gtar
      have hdq : q.2.datacenter = gr.1 := by
        rw [hext]
        show (c.datacenter.map CloudDatacenter.nearestAwsRegion).map
          CloudDatacenter.fromAwsRegion = gr.1
        rw [← hsnd, gd]
        refine hdcr gr.1 ?_
        obtain ⟨q0, hq0, _, hq0g⟩ := hidk gr hgr
        exact ⟨q0, hq0, hq0g⟩
      refine ⟨(ipgeos.filter (fun q2 => q2.1 ∉ acc.found ∧ q2.2 = gr.1)).map Prod.fst,
        ?_, ?_, ?_⟩
      · rw [htg]
        exact parseTargets_map_ipToString domain (AwsDns.fully_qualified h domain) _
      · intro ip hip
        rcases List.mem_map.mp hip with ⟨qf, hqf, hfst⟩
        obtain ⟨hqm, _, hqg⟩ := (hfilmem gr.1 qf).mp hqf
        rw [← hfst, lookupGeo_self ipgeos hkeys qf hqm, hqg, hdq]
      · intro q2 hq2 hq2d
        have hq2g : q2.2 = gr.1 := by rw [hq2d, hdq]
        have hq2nf : q2.1 ∉ acc.found := hnoFoundG gr hgr q2 hq2 hq2g
        exact List.mem_map_of_mem Prod.fst ((hfilmem gr.1 q2).mpr ⟨hq2, hq2nf, hq2g⟩)
  -- P3: distinct records carry disjoint IPs
  · intro q hq q2 hq2 hne hat hat2 ips ips2 hp hp2 ip hip hip2
    rcases fqListing_after_mem s acc.removals _ _ q hq with
      ⟨hold, hndl, _⟩ | ⟨c, hc, hwrec, hext, hfresh⟩
    · rcases fqListing_after_mem s acc.removals _ _ q2 hq2 with
        ⟨hold2, hndl2, _⟩ | ⟨c2, hc2, _, hext2, _⟩
      · exact s7c q hold q2 hold2 hne hat hat2 hndl hndl2 ips ips2 hp hp2 ip hip hip2
      · -- q kept, q2 created: kept IPs are found, created IPs are not
        obtain ⟨ipsx, hpx, _, _, hsub, _⟩ := s2c q hold hat hndl
        obtain rfl : ipsx = ips := Except.ok.inj (hpx.symm.trans hp)
        rcases List.mem_map.mp hc2 with ⟨gr2, hgr2, hsnd2⟩
        obtain ⟨_, _, _, _, gtar2⟩ := hib gr2 hgr2
        have htg2 : q2.2.targets = (ipgeos.filter
            (fun q3 => q3.1 ∉ acc.found ∧ q3.2 = gr2.1)).map
              (fun q3 => ipToString q3.1) := by
          rw [hext2]
          show c2.targets = _
          rw [← hsnd2]
          exact gtar2
        have hp2b : AwsDns.parseTargets q2.2.targets domain
            (AwsDns.fully_qualified h domain) = .ok ((ipgeos.filter
              (fun q3 => q3.1 ∉ acc.found ∧ q3.2 = gr2.1)).map Prod.fst) := by
          rw [htg2]
          exact parseTargets_map_ipToString _ _ _
        obtain rfl : (ipgeos.filter
            (fun q3 => q3.1 ∉ acc.found ∧ q3.2 = gr2.1)).map Prod.fst = ips2 :=
          Except.ok.inj (hp2b.symm.trans hp2)
        rcases List.mem_map.mp hip2 with ⟨qf, hqf, hfst⟩
        obtain ⟨_, hqnf, _⟩ := (hfilmem gr2.1 qf).mp hqf
        rw [← hfst] at hip
        exact hqnf (hsub qf.1 hip)
    · rcases fqListing_after_mem s acc.removals _ _ q2 hq2 with
        ⟨hold2, hndl2, _⟩ | ⟨c2, hc2, hwrec2, hext2, hfresh2⟩
      · -- q created, q2 kept
        obtain ⟨ipsx, hpx, _, _, hsub2, _⟩ := s2c q2 hold2 hat2 hndl2
        obtain rfl : ipsx = ips2 := Except.ok.inj (hpx.symm.trans hp2)
        rcases List.mem_map.mp hc with ⟨gr, hgr, hsnd⟩
        obtain ⟨_, _, _, _, gtar⟩ := hib gr hgr
        have htg : q.2.targets = (ipgeos.filter
            (fun q3 => q3.1 ∉ acc.found ∧ q3.2 = gr.1)).map
              (fun q3 => ipToString q3.1) := by
          rw [hext]
          show c.targets = _
          rw [← hsnd]
          exact gtar
        have hpb : AwsDns.parseTargets q.2.targets domain
            (AwsDns.fully_qualified h domain) = .ok ((ipgeos.filter
              (fun q3 => q3.1 ∉ acc.found ∧ q3.2 = gr.1)).map Prod.fst) := by
          rw [htg]
          exact parseTargets_map_ipToString _ _ _
        obtain rfl : (ipgeos.filter
            (fun q3 => q3.1 ∉ acc.found ∧ q3.2 = gr.1)).map Prod.fst = ips :=
          Except.ok.inj (hpb.symm.trans hp)
        rcases List.mem_map.mp hip with ⟨qf, hqf, hfst⟩
        obtain ⟨_, hqnf, _⟩ := (hfilmem gr.1 qf).mp hqf
        rw [← hfst] at hip2
        exact hqnf (hsub2 qf.1 hip2)
      · -- both created
        rcases List.mem_map.mp hc with ⟨gr, hgr, hsnd⟩
        rcases List.mem_map.mp hc2 with ⟨gr2, hgr2, hsnd2⟩
        by_cases hg12 : gr.1 = gr2.1
        · -- same datacenter: same create, fresh key uniqueness forces same id
          have hval : gr.2 = gr2.2 := by
            refine assoc_keys_nodup_entry_eq _ hik gr.1 gr.2 gr2.2 ?_ ?_
            · rw [Prod.mk.eta]; exact hgr
            · rw [hg12, Prod.mk.eta]; exact hgr2
          have hcc : c = c2 := by rw [← hsnd, ← hsnd2, hval]
          have hfku := freshKeyUnique_applyOps s.nextId
            (acc.removals.map AwsDns.AwsOp.delete ++
              ((AwsDns.adds_loop (AwsDns.fully_qualified h domain)
                (AwsDns.ttlOf Option.none) acc.found ipgeos []).map
                  Prod.snd).map AwsDns.AwsOp.create) s
            (idsWF_freshKeyUnique s hwf)
          have heq := hfku (q.1, AwsDns.createWire c) hwrec
            (q2.1, AwsDns.createWire c2) hwrec2 hfresh hfresh2
            (by rw [hcc])
          have hfst := congrArg Prod.fst heq
          exact hne hfst
        · -- distinct datacenters partition the desired IPs
          obtain ⟨_, _, _, _, gtar⟩ := hib gr hgr
          obtain ⟨_, _, _, _, gtar2⟩ := hib gr2 hgr2
          have hpb : AwsDns.parseTargets q.2.targets domain
              (AwsDns.fully_qualified h domain) = .ok ((ipgeos.filter
                (fun q3 => q3.1 ∉ acc.found ∧ q3.2 = gr.1)).map Prod.fst) := by
            rw [hext]
            show AwsDns.parseTargets c.targets _ _ = _
            rw [← hsnd, gtar]
            exact parseTargets_map_ipToString _ _ _
          have hp2b : AwsDns.parseTargets q2.2.targets domain
              (AwsDns.fully_qualified h domain) = .ok ((ipgeos.filter
                (fun q3 => q3.1 ∉ acc.found ∧ q3.2 = gr2.1)).map Prod.fst) := by
            rw [hext2]
            show AwsDns.parseTargets c2.targets _ _ = _
            rw [← hsnd2, gtar2]
            exact parseTargets_map_ipToString _ _ _
          obtain rfl : (ipgeos.filter
              (fun q3 => q3.1 ∉ acc.found ∧ q3.2 = gr.1)).map Prod.fst = ips :=
            Except.ok.inj (hpb.symm.trans hp)
          obtain rfl : (ipgeos.filter
              (fun q3 => q3.1 ∉ acc.found ∧ q3.2 = gr2.1)).map Prod.fst = ips2 :=
            Except.ok.inj (hp2b.symm.trans hp2)
          rcases List.mem_map.mp hip with ⟨qf, hqf, hfst⟩
          rcases List.mem_map.mp hip2 with ⟨qg, hqg, hgst⟩
          obtain ⟨hqfm, _, hqfg⟩ := (hfilmem gr.1 qf).mp hqf
          obtain ⟨hqgm, _, hqgg⟩ := (hfilmem gr2.1 qg).mp hqg
          have hsame : qf.2 = qg.2 := by
            refine assoc_keys_nodup_entry_eq _ hkeys ip qf.2 qg.2 ?_ ?_
            · rw [show ip = qf.1 from hfst.symm, Prod.mk.eta]
              exact hqfm
            · rw [show ip = qg.1 from hgst.symm, Prod.mk.eta]
              exact hqgm
          rw [hqfg, hqgg] at hsame
          exact hg12 hsame
  -- P4: every desired IP is carried by some listed record
  · intro q hq
    by_cases hqf : q.1 ∈ acc.found
    · rcases s3c q.1 hqf with h1 | ⟨K, hK, hKat, hKnr, ipsK, hKp, hKip⟩
      · exact absurd h1 (List.not_mem_nil _)
      · obtain ⟨ipsK2, hKp2, hlook, hcompl, hsub, _⟩ := s2c K hK hKat hKnr
        obtain rfl : ipsK2 = ipsK := Except.ok.inj (hKp2.symm.trans hKp)
        obtain ⟨hKlist, hKname⟩ := (fqListing_mem s _ K).mp hK
        obtain ⟨wK, hwK, haK, heK⟩ := (awsListing_mem s K).mp hKlist
        have hKmem : K ∈ AwsDns.fqListing (AwsDns.awsApplyOps s
            (acc.removals.map AwsDns.AwsOp.delete ++
              ((AwsDns.adds_loop (AwsDns.fully_qualified h domain)
                (AwsDns.ttlOf Option.none) acc.found ipgeos []).map
                  Prod.snd).map AwsDns.AwsOp.create))
            (AwsDns.fully_qualified h domain) := by
          refine fqListing_after_keep s _ _ _ K wK hK hKnr hwK haK heK ?_
          intro c hc hkm
          rcases List.mem_map.mp hc with ⟨gr, hgr, hsnd⟩
          obtain ⟨gd, _, _, _, _⟩ := hib gr hgr
          -- the key match forces the kept record's datacenter to be the
          -- create's group, whose desired IPs would then all be found
          have hKdc : K.2.datacenter = gr.1 := by
            have h1 : K.2.datacenter = wK.region.map CloudDatacenter.fromAwsRegion := by
              rw [heK]; rfl
            rw [h1, hkm.2.2, ← hsnd, gd]
            refine hdcr gr.1 ?_
            obtain ⟨q0, hq0, _, hq0g⟩ := hidk gr hgr
            exact ⟨q0, hq0, hq0g⟩
          obtain ⟨q0, hq0, hq0nf, hq0g⟩ := hidk gr hgr
          have hq0K : q0.2 = K.2.datacenter := by rw [hq0g, hKdc]
          exact hq0nf (hsub q0.1 (hcompl q0 hq0 hq0K))
        exact ⟨K, hKmem, hKat, ipsK2, hKp, hKip⟩
    · obtain ⟨rec, hrec⟩ := hic q hq hqf
      have hcm : rec ∈ (AwsDns.adds_loop (AwsDns.fully_qualified h domain)
          (AwsDns.ttlOf Option.none) acc.found ipgeos []).map Prod.snd :=
        List.mem_map_of_mem Prod.snd hrec
      obtain ⟨gd, gn, _, gt, gtar⟩ := hib (q.2, rec) hrec
      obtain ⟨idc, hmemc⟩ := fqListing_after_created s acc.removals
        ((AwsDns.adds_loop (AwsDns.fully_qualified h domain) (AwsDns.ttlOf Option.none)
          acc.found ipgeos []).map Prod.snd)
        (AwsDns.fully_qualified h domain) rec hcm
        (hkeyuniq rec hcm)
        (by rw [show rec.name = AwsDns.fully_qualified h domain from gn]
            exact parse_name_roundtrip _ hbs)
      refine ⟨(idc, AwsDns.wireToExtended (AwsDns.createWire rec)), hmemc, ?_, ?_⟩
      · show rec.record_type = AwsDns.RrType.a
        exact gt
      · refine ⟨(ipgeos.filter (fun q3 => q3.1 ∉ acc.found ∧ q3.2 = q.2)).map Prod.fst,
          ?_, ?_⟩
        · show AwsDns.parseTargets rec.targets _ _ = _
          rw [show rec.targets = (ipgeos.filter (fun q3 => q3.1 ∉ acc.found ∧
              q3.2 = (q.2, rec).1)).map (fun q3 => ipToString q3.1) from gtar]
          exact parseTargets_map_ipToString _ _ _
        · exact List.mem_map_of_mem Prod.fst ((hfilmem q.2 q).mpr ⟨hq, hqf, rfl⟩)

/-- A successful CNAME route update leaves the hostname's listing
converged to the desired link. -/
theorem update_route_est_cname (domain h link : String) (s : AwsDns.AwsState)
    (ops : List AwsDns.AwsOp) (log : List String)
    (hwf : AwsDns.idsWF s)
    (hbs : noBackslash (AwsDns.fully_qualified h domain))
    (hup : AwsDns.update_dns_route domain h (.cname link) Option.none
      (AwsDns.awsListing s) = .ok (ops, log)) :
    AwsDns.convergedCname (AwsDns.fully_qualified h domain) link
      (AwsDns.fqListing (AwsDns.awsApplyOps s ops)
        (AwsDns.fully_qualified h domain)) := by
  have hup2 : Except.ok (((AwsDns.cname_loop link
      (AwsDns.fqListing s (AwsDns.fully_qualified h domain)) false []).2).map
        AwsDns.AwsOp.delete ++
      (if (AwsDns.cname_loop link
          (AwsDns.fqListing s (AwsDns.fully_qualified h domain)) false []).1 then
        ([] : List AwsDns.ExtendedDnsRecord)
      else [⟨Option.none, AwsDns.fully_qualified h domain, [link],
        AwsDns.ttlOf Option.none, AwsDns.RrType.cname⟩]).map AwsDns.AwsOp.create,
      (if (AwsDns.cname_loop link
          (AwsDns.fqListing s (AwsDns.fully_qualified h domain)) false []).1 then
        ([] : List AwsDns.ExtendedDnsRecord)
      else [⟨Option.none, AwsDns.fully_qualified h domain, [link],
        AwsDns.ttlOf Option.none, AwsDns.RrType.cname⟩]).map AwsDns.createLogLine) =
      Except.ok (ops, log) := hup
  obtain ⟨hops, _⟩ := Prod.mk.injEq _ _ _ _ ▸ Except.ok.inj hup2
  obtain ⟨c1, c2, c3, c4, c5, c6, c7, c8⟩ := cname_loop_sound link
    (AwsDns.fqListing s (AwsDns.fully_qualified h domain)) false [] _ rfl
    (fqListing_ids_nodup s _ hwf) (by simp)
  rw [← hops]
  refine ⟨?_, ?_, ?_, ?_⟩
  -- no A record remains
  · intro q hq hat
    rcases fqListing_after_mem s _ _ _ q hq with
      ⟨hold, hndl, _⟩ | ⟨c, hc, _, hext, _⟩
    · exact hndl (c1 q hold hat)
    · split at hc
      · exact absurd hc (List.not_mem_nil c)
      · obtain rfl := List.mem_singleton.mp hc
        have : q.2.record_type = AwsDns.RrType.cname := by rw [hext]; rfl
        rw [this] at hat
        exact absurd hat (by decide)
  -- a matching CNAME exists
  · cases hfr1 : (AwsDns.cname_loop link
        (AwsDns.fqListing s (AwsDns.fully_qualified h domain)) false []).1 with
    | true =>
      rcases c8 hfr1 with h1 | ⟨K, hK, hKc, hKnr, hKtar⟩
      · exact absurd h1 (by simp)
      · obtain ⟨hKlist, hKname⟩ := (fqListing_mem s _ K).mp hK
        obtain ⟨wK, hwK, haK, heK⟩ := (awsListing_mem s K).mp hKlist
        refine ⟨K, fqListing_after_keep s _ _ _ K wK hK hKnr hwK haK heK ?_, hKc, hKtar⟩
        intro c hc
        simp at hc
    | false =>
      have hcm : (⟨Option.none, AwsDns.fully_qualified h domain, [link],
          AwsDns.ttlOf Option.none, AwsDns.RrType.cname⟩ :
            AwsDns.ExtendedDnsRecord) ∈
          (if (false : Bool) then
            ([] : List AwsDns.ExtendedDnsRecord)
          else [⟨Option.none, AwsDns.fully_qualified h domain, [link],
            AwsDns.ttlOf Option.none, AwsDns.RrType.cname⟩]) := by
        simp
      obtain ⟨idc, hmemc⟩ := fqListing_after_created s
        (AwsDns.cname_loop link
          (AwsDns.fqListing s (AwsDns.fully_qualified h domain)) false []).2 _
        (AwsDns.fully_qualified h domain) _ hcm
        (by
          intro c2 hc2 _
          simp at hc2
          exact hc2)
        (parse_name_roundtrip _ hbs)
      exact ⟨(idc, AwsDns.wireToExtended (AwsDns.createWire
        ⟨Option.none, AwsDns.fully_qualified h domain, [link],
          AwsDns.ttlOf Option.none, AwsDns.RrType.cname⟩)), hmemc, rfl, rfl⟩
  -- every remaining CNAME carries the link
  · intro q hq hqc
    rcases fqListing_after_mem s _ _ _ q hq with
      ⟨hold, hndl, _⟩ | ⟨c, hc, _, hext, _⟩
    · exact c2 q hold hqc hndl
    · split at hc
      · exact absurd hc (List.not_mem_nil c)
      · obtain rfl := List.mem_singleton.mp hc
        rw [hext]
        rfl
  -- all remaining CNAMEs are one record
  · intro q hq q2 hq2 hqc hq2c
    rcases fqListing_after_mem s _ _ _ q hq with
      ⟨hold, hndl, _⟩ | ⟨c, hc, hwrec, hext, hfresh⟩
    · rcases fqListing_after_mem s _ _ _ q2 hq2 with
        ⟨hold2, hndl2, _⟩ | ⟨cb, hcb, _, hext2, _⟩
      · exact c4 q hold q2 hold2 hqc hq2c hndl hndl2
      · -- a kept CNAME coexisting with a created one is impossible
        exfalso
        have hfr1 : (AwsDns.cname_loop link
            (AwsDns.fqListing s (AwsDns.fully_qualified h domain)) false []).1 = false := by
          by_contra hxx
          rw [Bool.not_eq_false] at hxx
          rw [hxx] at hcb
          simp at hcb
        exact hndl ((c7 hfr1).2 q hold hqc)
    · rcases fqListing_after_mem s _ _ _ q2 hq2 with
        ⟨hold2, hndl2, _⟩ | ⟨cb, hcb, hwrec2, hext2, hfresh2⟩
      · exfalso
        have hfr1 : (AwsDns.cname_loop link
            (AwsDns.fqListing s (AwsDns.fully_qualified h domain)) false []).1 = false := by
          by_contra hxx
          rw [Bool.not_eq_false] at hxx
          rw [hxx] at hc
          simp at hc
        exact hndl2 ((c7 hfr1).2 q2 hold2 hq2c)
      · -- both created: the batch is one record, fresh keys are unique
        have hcx : c = cb := by
          have h1 : c = ⟨Option.none, AwsDns.fully_qualified h domain, [link],
              AwsDns.ttlOf Option.none, AwsDns.RrType.cname⟩ := by
            split at hc
            · exact absurd hc (List.not_mem_nil c)
            · exact List.mem_singleton.mp hc
          have h2 : cb = ⟨Option.none, AwsDns.fully_qualified h domain, [link],
              AwsDns.ttlOf Option.none, AwsDns.RrType.cname⟩ := by
            split at hcb
            · exact absurd hcb (List.not_mem_nil cb)
            · exact List.mem_singleton.mp hcb
          rw [h1, h2]
        have hfku := freshKeyUnique_applyOps s.nextId
          (((AwsDns.cname_loop link
            (AwsDns.fqListing s (AwsDns.fully_qualified h domain)) false []).2).map
              AwsDns.AwsOp.delete ++
            (if (AwsDns.cname_loop link
                (AwsDns.fqListing s (AwsDns.fully_qualified h domain)) false []).1 then
              ([] : List AwsDns.ExtendedDnsRecord)
            else [⟨Option.none, AwsDns.fully_qualified h domain, [link],
              AwsDns.ttlOf Option.none, AwsDns.RrType.cname⟩]).map
                AwsDns.AwsOp.create) s
          (idsWF_freshKeyUnique s hwf)
        have heq := hfku (q.1, AwsDns.createWire c) hwrec
          (q2.1, AwsDns.createWire cb) hwrec2 hfresh hfresh2 (by rw [hcx])
        have hfst := congrArg Prod.fst heq
        have hsnd : q.2 = q2.2 := by
          rw [hext, hext2, hcx]
        rw [Prod.ext_iff]
        exact ⟨hfst, hsnd⟩

/-- A successful `None` route update removes every route record at the
hostname. -/
theorem update_route_est_none (domain h : String) (s : AwsDns.AwsState)
    (ops : List AwsDns.AwsOp) (log : List String)
    (hwf : AwsDns.idsWF s)
    (hup : AwsDns.update_dns_route domain h .none Option.none
      (AwsDns.awsListing s) = .ok (ops, log)) :
    AwsDns.convergedNone
      (AwsDns.fqListing (AwsDns.awsApplyOps s ops)
        (AwsDns.fully_qualified h domain)) := by
  have hup2 : Except.ok
      (((AwsDns.fqListing s (AwsDns.fully_qualified h domain)).filter (fun p =>
        p.2.record_type = AwsDns.RrType.a ∨
          p.2.record_type = AwsDns.RrType.cname)).map
        (fun p => AwsDns.AwsOp.delete p.1), ([] : List String)) =
      Except.ok (ops, log) := hup
  obtain ⟨hops, _⟩ := Prod.mk.injEq _ _ _ _ ▸ Except.ok.inj hup2
  have hops2 : ops = (((AwsDns.fqListing s
      (AwsDns.fully_qualified h domain)).filter (fun p =>
        p.2.record_type = AwsDns.RrType.a ∨
          p.2.record_type = AwsDns.RrType.cname)).map Prod.fst).map
      AwsDns.AwsOp.delete ++ ([] : List AwsDns.ExtendedDnsRecord).map
        AwsDns.AwsOp.create := by
    rw [← hops, List.map_map, List.map_nil, List.append_nil]
    rfl
  rw [hops2]
  intro q hq
  rcases fqListing_after_mem s _ _ _ q hq with
    ⟨hold, hndl, _⟩ | ⟨c, hc, _, _, _⟩
  · constructor
    · intro hat
      exact hndl (List.mem_map_of_mem Prod.fst (List.mem_filter.mpr
        ⟨hold, by simp [hat]⟩))
    · intro hcn
      exact hndl (List.mem_map_of_mem Prod.fst (List.mem_filter.mpr
        ⟨hold, by simp [hcn]⟩))
  · exact absurd hc (List.not_mem_nil c)

/-- A route update for one hostname leaves every other hostname's
listing unchanged. -/
theorem update_route_frame (domain h : String) (v : DnsRecord) (s : AwsDns.AwsState)
    (ops : List AwsDns.AwsOp) (log : List String) (name : String)
    (hwf : AwsDns.idsWF s)
    (hbs : noBackslash (AwsDns.fully_qualified h domain))
    (hne : name ≠ AwsDns.fully_qualified h domain)
    (hup : AwsDns.update_dns_route domain h v Option.none (AwsDns.awsListing s) =
      .ok (ops, log)) :
    ∀ q, q ∈ AwsDns.fqListing (AwsDns.awsApplyOps s ops) name ↔
      q ∈ AwsDns.fqListing s name := by
  obtain ⟨dels, creates, hops, hdel, hcr⟩ :=
    update_route_ops_shape domain h v s ops log hwf hup
  rw [hops]
  exact fqListing_after_frame s dels creates (AwsDns.fully_qualified h domain) name hwf
    hdel (fun c hc => by rw [hcr c hc]; exact parse_name_roundtrip _ hbs) hne

/-- `convergedA` only depends on the listing's members. -/
theorem convergedA_congr (domain fq : String)
    (ipgeos : List (IpAddr × Option CloudDatacenter))
    (rs rs' : List (Nat × AwsDns.ExtendedDnsRecord))
    (hmem : ∀ q, q ∈ rs' ↔ q ∈ rs) :
    AwsDns.convergedA domain fq ipgeos rs → AwsDns.convergedA domain fq ipgeos rs' := by
  rintro ⟨h1, h2, h3, h4⟩
  refine ⟨fun p hp => h1 p ((hmem p).mp hp),
    fun p hp => h2 p ((hmem p).mp hp),
    fun p hp p2 hp2 => h3 p ((hmem p).mp hp) p2 ((hmem p2).mp hp2), ?_⟩
  intro q hq
  obtain ⟨p, hp, hat, ips, hparse, hip⟩ := h4 q hq
  exact ⟨p, (hmem p).mpr hp, hat, ips, hparse, hip⟩

/-- `convergedCname` only depends on the listing's members. -/
theorem convergedCname_congr (fq link : String)
    (rs rs' : List (Nat × AwsDns.ExtendedDnsRecord))
    (hmem : ∀ q, q ∈ rs' ↔ q ∈ rs) :
    AwsDns.convergedCname fq link rs → AwsDns.convergedCname fq link rs' := by
  rintro ⟨h1, ⟨p0, hp0, hp0c, hp0t⟩, h3, h4⟩
  exact ⟨fun p hp => h1 p ((hmem p).mp hp),
    ⟨p0, (hmem p0).mpr hp0, hp0c, hp0t⟩,
    fun p hp => h3 p ((hmem p).mp hp),
    fun p hp p2 hp2 => h4 p ((hmem p).mp hp) p2 ((hmem p2).mp hp2)⟩

/-- `convergedNone` only depends on the listing's members. -/
theorem convergedNone_congr (rs rs' : List (Nat × AwsDns.ExtendedDnsRecord))
    (hmem : ∀ q, q ∈ rs' ↔ q ∈ rs) :
    AwsDns.convergedNone rs → AwsDns.convergedNone rs' :=
  fun hc p hp => hc p ((hmem p).mp hp)

/-- Per-entry convergence transfers along listing-preserving state
changes. -/
theorem entryConverged_congr (domain h : String) (r : DnsRecord)
    (s s' : AwsDns.AwsState)
    (hmem : ∀ q, q ∈ AwsDns.fqListing s' (AwsDns.fully_qualified h domain) ↔
      q ∈ AwsDns.fqListing s (AwsDns.fully_qualified h domain)) :
    AwsDns.entryConverged domain h r s → AwsDns.entryConverged domain h r s' := by
  cases r with
  | a ipgeos => exact convergedA_congr domain _ ipgeos _ _ hmem
  | cname link =>
    exact convergedCname_congr (AwsDns.fully_qualified h domain) link _ _ hmem
  | txt text => intro _; trivial
  | none => exact convergedNone_congr _ _ hmem

/-- A successful routes pass preserves every hostname's listing outside
the pass's own hostnames. -/
theorem pass_frame (domain : String) :
    ∀ (entries : List (String × DnsRecord)) (s s' : AwsDns.AwsState)
      (ops : List AwsDns.AwsOp) (log : List String),
    AwsDns.idsWF s →
    (∀ p ∈ entries, noBackslash (AwsDns.fully_qualified p.1 domain)) →
    AwsDns.awsConvergeEntries domain false entries s = .ok (s', ops, log) →
    ∀ name, name ∉ entries.map (fun p => AwsDns.fully_qualified p.1 domain) →
    ∀ q, q ∈ AwsDns.fqListing s' name ↔ q ∈ AwsDns.fqListing s name := by
  intro entries
  induction entries with
  | nil =>
    intro s s' ops log _ _ hok name _ q
    obtain ⟨h1, _⟩ := Prod.mk.injEq _ _ _ _ ▸ Except.ok.inj hok
    rw [h1]
  | cons e rest ih =>
    intro s s' ops log hwf hbs hok name hname q
    obtain ⟨h0, r0⟩ := e
    simp only [AwsDns.awsConvergeEntries, Bool.false_eq_true, if_false] at hok
    cases hu0 : AwsDns.update_dns_route domain h0 r0 Option.none (AwsDns.awsListing s) with
    | error e =>
      simp only [hu0] at hok
      exact Except.noConfusion hok
    | ok pr =>
      obtain ⟨ops0, log0⟩ := pr
      simp only [hu0] at hok
      cases hrest : AwsDns.awsConvergeEntries domain false rest
          (AwsDns.awsApplyOps s ops0) with
      | error e =>
        simp only [hrest] at hok
        exact Except.noConfusion hok
      | ok tr =>
        obtain ⟨s2, pr2⟩ := tr
        obtain ⟨ops2, log2⟩ := pr2
        simp only [hrest] at hok
        obtain ⟨hs2, _⟩ := Prod.mk.injEq _ _ _ _ ▸ Except.ok.inj hok
        rw [List.map_cons, List.mem_cons] at hname
        push_neg at hname
        have hstep := update_route_frame domain h0 r0 s ops0 log0 name hwf
          (hbs (h0, r0) (List.mem_cons_self _ _)) hname.1 hu0
        have hrest2 := ih (AwsDns.awsApplyOps s ops0) s2 ops2 log2
          (idsWF_applyOps ops0 s hwf)
          (fun p hp => hbs p (List.mem_cons_of_mem _ hp)) hrest name hname.2 q
        rw [← hs2]
        rw [hrest2, hstep q]

/-- On a state where every entry is converged, a routes pass is a
no-op. -/
theorem pass_noop (domain : String) :
    ∀ (entries : List (String × DnsRecord)) (s : AwsDns.AwsState),
    AwsDns.idsWF s →
    (∀ p ∈ entries, p.2.isRoute = true) →
    (∀ p ∈ entries, AwsDns.entryConverged domain p.1 p.2 s) →
    AwsDns.awsConvergeEntries domain false entries s = .ok (s, [], []) := by
  intro entries
  induction entries with
  | nil => intro s _ _ _; rfl
  | cons e rest ih =>
    intro s hwf hroute hconv
    obtain ⟨h0, r0⟩ := e
    have hnoop : AwsDns.update_dns_route domain h0 r0 Option.none
        (AwsDns.awsListing s) = .ok ([], []) := by
      have hc := hconv (h0, r0) (List.mem_cons_self _ _)
      cases r0 with
      | a ipgeos => exact update_route_noop_a domain h0 ipgeos s hwf hc
      | cname link => exact update_route_noop_cname domain h0 link s hwf hc
      | txt text =>
        exact absurd (hroute (h0, .txt text) (List.mem_cons_self _ _))
          (by simp [DnsRecord.isRoute])
      | none =>
        exact absurd (hroute (h0, .none) (List.mem_cons_self _ _))
          (by simp [DnsRecord.isRoute])
    have hrest := ih s hwf (fun p hp => hroute p (List.mem_cons_of_mem _ hp))
      (fun p hp => hconv p (List.mem_cons_of_mem _ hp))
    simp only [AwsDns.awsConvergeEntries, Bool.false_eq_true, if_false, hnoop,
      show AwsDns.awsApplyOps s [] = s from rfl, hrest, List.nil_append]

/-- A successful routes pass over good entries with pairwise distinct
fully qualified hostnames leaves every entry converged. -/
theorem pass_establishes (domain : String) (hbd : noBackslash domain) :
    ∀ (entries : List (String × DnsRecord)) (s s' : AwsDns.AwsState)
      (ops : List AwsDns.AwsOp) (log : List String),
    AwsDns.idsWF s →
    (∀ p ∈ entries, p.2.isRoute = true) →
    (∀ p ∈ entries, goodRouteEntry p) →
    (entries.map (fun p => AwsDns.fully_qualified p.1 domain)).Nodup →
    AwsDns.awsConvergeEntries domain false entries s = .ok (s', ops, log) →
    AwsDns.idsWF s' ∧ ∀ p ∈ entries, AwsDns.entryConverged domain p.1 p.2 s' := by
  intro entries
  induction entries with
  | nil =>
    intro s s' ops log hwf _ _ _ hok
    obtain ⟨h1, _⟩ := Prod.mk.injEq _ _ _ _ ▸ Except.ok.inj hok
    rw [← h1]
    exact ⟨hwf, by simp⟩
  | cons e rest ih =>
    intro s s' ops log hwf hroute hgood hinj hok
    obtain ⟨h0, r0⟩ := e
    simp only [AwsDns.awsConvergeEntries, Bool.false_eq_true, if_false] at hok
    cases hu0 : AwsDns.update_dns_route domain h0 r0 Option.none (AwsDns.awsListing s) with
    | error e =>
      simp only [hu0] at hok
      exact Except.noConfusion hok
    | ok pr =>
      obtain ⟨ops0, log0⟩ := pr
      simp only [hu0] at hok
      cases hrest : AwsDns.awsConvergeEntries domain false rest
          (AwsDns.awsApplyOps s ops0) with
      | error e =>
        simp only [hrest] at hok
        exact Except.noConfusion hok
      | ok tr =>
        obtain ⟨s2, pr2⟩ := tr
        obtain ⟨ops2, log2⟩ := pr2
        simp only [hrest] at hok
        obtain ⟨hs2, _⟩ := Prod.mk.injEq _ _ _ _ ▸ Except.ok.inj hok
        rw [List.map_cons, List.nodup_cons] at hinj
        have hgood0 := hgood (h0, r0) (List.mem_cons_self _ _)
        have hbs0 : noBackslash (AwsDns.fully_qualified h0 domain) :=
          noBackslash_fully_qualified h0 domain hgood0.1 hbd
        obtain ⟨hwf2, hconv2⟩ := ih (AwsDns.awsApplyOps s ops0) s2 ops2 log2
          (idsWF_applyOps ops0 s hwf)
          (fun p hp => hroute p (List.mem_cons_of_mem _ hp))
          (fun p hp => hgood p (List.mem_cons_of_mem _ hp)) hinj.2 hrest
        have hframe := pass_frame domain rest (AwsDns.awsApplyOps s ops0) s2 ops2 log2
          (idsWF_applyOps ops0 s hwf)
          (fun p hp => noBackslash_fully_qualified p.1 domain
            (hgood p (List.mem_cons_of_mem _ hp)).1 hbd)
          hrest (AwsDns.fully_qualified h0 domain) hinj.1
        have hconv0 : AwsDns.entryConverged domain h0 r0 (AwsDns.awsApplyOps s ops0) := by
          cases r0 with
          | a ipgeos =>
            have hg := hgood0.2
            exact update_route_est_a domain h0 ipgeos s ops0 log0 hwf hg.1 hg.2 hbs0 hu0
          | cname link =>
            exact update_route_est_cname domain h0 link s ops0 log0 hwf hbs0 hu0
          | txt text => trivial
          | none =>
            exact update_route_est_none domain h0 s ops0 log0 hwf hu0
        rw [← hs2]
        refine ⟨hwf2, ?_⟩
        intro p hp
        rcases List.mem_cons.mp hp with rfl | hp2
        · exact entryConverged_congr domain h0 r0 (AwsDns.awsApplyOps s ops0) s2
            hframe hconv0
        · exact hconv2 p hp2

/-- Collecting into a map only keeps pairs of the source list. -/
theorem mapCollect_sub {β : Type} :
    ∀ (l : List (String × β)) (q : String × β), q ∈ mapCollect l → q ∈ l := by
  have hfold : ∀ (l acc : List (String × β)) (q : String × β),
      q ∈ l.foldl (fun m q2 => mapInsert m q2.1 q2.2) acc → q ∈ acc ∨ q ∈ l := by
    intro l
    induction l with
    | nil => intro acc q hq; exact Or.inl hq
    | cons p rest ih =>
      intro acc q hq
      rcases ih (mapInsert acc p.1 p.2) q hq with h1 | h2
      · rcases List.mem_append.mp h1 with h3 | h4
        · exact Or.inl (List.mem_of_mem_filter h3)
        · obtain rfl := List.mem_singleton.mp h4
          exact Or.inr (Prod.mk.eta ▸ List.mem_cons_self _ _)
      · exact Or.inr (List.mem_cons_of_mem _ h2)
  intro l q hq
  rcases hfold l [] q hq with h1 | h2
  · exact absurd h1 (List.not_mem_nil q)
  · exact h2

/-- A record set without TXT entries has an empty metadata partition. -/
theorem metadata_nil (S : DnsRecordSet) (h : ∀ p ∈ S, p.2.isTxt = false) :
    S.metadata = [] := by
  unfold DnsRecordSet.metadata
  rw [show S.filter (fun p => p.2.isTxt) = [] from List.filter_eq_nil_iff.mpr
    (by intro p hp; simp [h p hp])]
  rfl

/-- Every entry of the routes partition is an A or CNAME record. -/
theorem routes_isRoute (S : DnsRecordSet) : ∀ p ∈ S.routes, p.2.isRoute = true := by
  intro p hp
  have hmem := mapCollect_sub _ p hp
  exact (List.mem_filter.mp hmem).2

/-- C1 counterexample: convergence is NOT idempotent as stated.  A record
set holding one TXT entry is torn down and recreated by every call:
`update_dns_metadata` always deletes the existing TXT records and creates
the desired one, so the second call issues one delete and one create. -/
theorem c1_counterexample : ¬ c1ClaimProp := by
  intro hc
  obtain ⟨s2, ops2, log2, hok2, hc2, _⟩ := hc "example.com" ⟨0, []⟩
    [("api", DnsRecord.txt "v")]
    ⟨1, [(0, ⟨"api.example.com", AwsDns.RrType.txt, ["\"v\""], 30, Option.none, false⟩)]⟩
    [AwsDns.AwsOp.create ⟨Option.none, "api.example.com", ["\"v\""], 30, AwsDns.RrType.txt⟩]
    [AwsDns.createLogLine ⟨Option.none, "api.example.com", ["\"v\""], 30, AwsDns.RrType.txt⟩]
    (by decide)
  have hcomp : AwsDns.update_dns_records "example.com"
      ⟨1, [(0, ⟨"api.example.com", AwsDns.RrType.txt, ["\"v\""], 30, Option.none, false⟩)]⟩
      [("api", DnsRecord.txt "v")] =
      .ok (⟨2, [(1, ⟨"api.example.com", AwsDns.RrType.txt, ["\"v\""], 30, Option.none,
          false⟩)]⟩,
        [AwsDns.AwsOp.delete 0,
         AwsDns.AwsOp.create ⟨Option.none, "api.example.com", ["\"v\""], 30,
           AwsDns.RrType.txt⟩],
        [AwsDns.createLogLine ⟨Option.none, "api.example.com", ["\"v\""], 30,
          AwsDns.RrType.txt⟩]) := by decide
  have h2 := Except.ok.inj (hcomp.symm.trans hok2)
  have hops : [AwsDns.AwsOp.delete 0,
      AwsDns.AwsOp.create ⟨Option.none, "api.example.com", ["\"v\""], 30,
        AwsDns.RrType.txt⟩] = ops2 := congrArg (fun t => t.2.1) h2
  rw [← hops] at hc2
  exact absurd hc2 (by decide)

/-- C1 (amended): whole-set convergence is idempotent for record sets
without TXT entries, over a well-formed zone state, when the domain and
hostnames are free of the wildcard escape character, the A payloads have
unique IP keys and only affinity groups surviving the AWS region round
trip (`from_aws_region (nearest_aws_region g) = g`), and the desired
hostnames fully qualify to pairwise distinct names: a second call returns
the same state with an empty operation list and an empty log.  (TXT
entries are excluded because `update_dns_metadata` unconditionally
deletes and recreates them, as the counterexample shows; an affinity
group that does not survive the round trip is likewise recreated on every
call.) -/
theorem c1_idempotent_no_txt_roundtrip (domain : String) (s0 s1 : AwsDns.AwsState)
    (S : DnsRecordSet) (ops1 : List AwsDns.AwsOp) (log1 : List String)
    (hwf : AwsDns.idsWF s0)
    (hbd : noBackslash domain)
    (hnotxt : ∀ p ∈ S, p.2.isTxt = false)
    (hgood : ∀ p ∈ S.routes, goodRouteEntry p)
    (hinj : (S.routes.map (fun p => AwsDns.fully_qualified p.1 domain)).Nodup)
    (hfirst : AwsDns.update_dns_records domain s0 S = .ok (s1, ops1, log1)) :
    AwsDns.update_dns_records domain s1 S = .ok (s1, [], []) := by
  have hmeta : S.metadata = [] := metadata_nil S hnotxt
  have hm0 : AwsDns.awsConvergeEntries domain true S.metadata s0 = .ok (s0, [], []) := by
    rw [hmeta]
    rfl
  rw [AwsDns.update_dns_records] at hfirst
  simp only [hm0] at hfirst
  cases hroutes : AwsDns.awsConvergeEntries domain false S.routes s0 with
  | error e =>
    simp only [hroutes] at hfirst
    exact Except.noConfusion hfirst
  | ok tr =>
    obtain ⟨s2, pr⟩ := tr
    obtain ⟨ops2, log2⟩ := pr
    simp only [hroutes] at hfirst
    have hs2 : s2 = s1 :=
      congrArg (fun t => t.1) (Except.ok.inj hfirst)
    obtain ⟨hwf1, hconv⟩ := pass_establishes domain hbd S.routes s0 s2 ops2 log2 hwf
      (routes_isRoute S) hgood hinj hroutes
    rw [hs2] at hwf1 hconv
    have hnoop := pass_noop domain S.routes s1 hwf1 (routes_isRoute S) hconv
    have hm1 : AwsDns.awsConvergeEntries domain true S.metadata s1 = .ok (s1, [], []) := by
      rw [hmeta]
      rfl
    rw [AwsDns.update_dns_records]
    simp only [hm1, hnoop]
    rfl

/-- C1 witness: the §8 single-host scenario (one desired A record at
`api.example.com`, empty zone) converges on the first call and the second
call is the promised no-op. -/
theorem c1_witness :
    AwsDns.update_dns_records "example.com" ⟨0, []⟩ [("api", DnsRecord.new_a ipA)] =
      .ok (⟨1, [(0, ⟨"api.example.com", AwsDns.RrType.a, [ipToString ipA], 30,
          Option.none, false⟩)]⟩,
        [AwsDns.AwsOp.create ⟨Option.none, "api.example.com", [ipToString ipA], 30,
          AwsDns.RrType.a⟩],
        [AwsDns.createLogLine ⟨Option.none, "api.example.com", [ipToString ipA], 30,
          AwsDns.RrType.a⟩]) ∧
    AwsDns.update_dns_records "example.com"
      ⟨1, [(0, ⟨"api.example.com", AwsDns.RrType.a, [ipToString ipA], 30,
        Option.none, false⟩)]⟩ [("api", DnsRecord.new_a ipA)] =
      .ok (⟨1, [(0, ⟨"api.example.com", AwsDns.RrType.a, [ipToString ipA], 30,
        Option.none, false⟩)]⟩, [], []) :=
  ⟨by decide,
   c1_idempotent_no_txt_roundtrip "example.com" ⟨0, []⟩
     ⟨1, [(0, ⟨"api.example.com", AwsDns.RrType.a, [ipToString ipA], 30,
       Option.none, false⟩)]⟩
     [("api", DnsRecord.new_a ipA)]
     [AwsDns.AwsOp.create ⟨Option.none, "api.example.com", [ipToString ipA], 30,
       AwsDns.RrType.a⟩]
     [AwsDns.createLogLine ⟨Option.none, "api.example.com", [ipToString ipA], 30,
       AwsDns.RrType.a⟩]
     (⟨by simp, by simp⟩) (by unfold noBackslash; decide) (by decide)
     (by
       intro p hp
       rw [show DnsRecordSet.routes [("api", DnsRecord.new_a ipA)] =
         [("api", DnsRecord.new_a ipA)] from by decide] at hp
       obtain rfl := List.mem_singleton.mp hp
       refine ⟨by unfold noBackslash; decide, by decide, ?_⟩
       intro q hq dc hdc
       obtain rfl := List.mem_singleton.mp hq
       exact Option.noConfusion hdc)
     (by decide) (by decide)⟩

end Cub
